import Mathlib

/-!
Verification of the translation-pipeline core of the SRT subtitle translator
(`english_to_swedish_subtitle_translator.py`).

Texts are modelled as `List Char`.  Python regular-expression scanning
(`re.findall`), `str.replace`, `str.strip`, `str.lower` and the f-string
serialisation used by the worker are embedded as executable Lean functions,
and the `TranslationWorker` control flow (`run`, `process_file`,
`translate_text`) as pure functions producing an event trace.
-/

namespace Srt

/-- Python `str.strip()` whitespace (the ASCII part, which is all the
specification's well-formed inputs use). -/
def isSpace (c : Char) : Bool :=
  (c == ' ') || (c == '\t') || (c == '\n') || (c == '\r') || (c == '\x0b') || (c == '\x0c')

/-- Python `str.strip()`: drop leading and trailing whitespace. -/
def strip (s : List Char) : List Char :=
  ((s.dropWhile isSpace).reverse.dropWhile isSpace).reverse

/-- A subtitle block as produced by `TranslationWorker.parse_srt`:
`(index, timecode, text)`. -/
structure Block where
  index : List Char
  timecode : List Char
  text : List Char
  deriving DecidableEq, Repr

/-- One regex element: `none` is `\d` (a digit slot), `some c` is the literal
character `c`. -/
abbrev Pat := List (Option Char)

/-- Two digit slots (`\d{2}`). -/
def dd : Pat := [none, none]

/-- The short timestamp pattern `\d{2}:\d{2}:\d{2},\d{3}` used by
`protect_content`. -/
def tcShortPat : Pat :=
  dd ++ [some ':'] ++ dd ++ [some ':'] ++ dd ++ [some ','] ++ [none, none, none]

/-- The time-range pattern `\d{2}:\d{2}:\d{2},\d{3} --> \d{2}:\d{2}:\d{2},\d{3}`
used by `parse_srt`. -/
def tcRangePat : Pat :=
  tcShortPat ++ (" --> ".toList.map some) ++ tcShortPat

/-- Match a fixed pattern against the front of `s`; return the matched
characters and the rest.  Each slot is deterministic, as in the source regex. -/
def matchPat : Pat → List Char → Option (List Char × List Char)
  | [], s => some ([], s)
  | _ :: _, [] => none
  | p :: ps, c :: cs =>
    let ok := match p with
      | none => c.isDigit
      | some l => c == l
    if ok then
      match matchPat ps cs with
      | some (m, r) => some (c :: m, r)
      | none => none
    else none

/-- `matchPat pat s` succeeds consuming all of `s`. -/
def matchesExact (pat : Pat) (s : List Char) : Bool :=
  match matchPat pat s with
  | some (_, r) => r.isEmpty
  | none => false

/-- Greedy `\d+`: the maximal digit prefix and the rest. -/
def takeDigits : List Char → List Char × List Char
  | [] => ([], [])
  | c :: cs =>
    if c.isDigit then
      let p := takeDigits cs
      (c :: p.1, p.2)
    else ([], c :: cs)

/-- The lookahead `(?=\n\n|$)` of the `parse_srt` regex (Python `$` also
matches just before a final newline). -/
def lookNN : List Char → Bool
  | [] => true
  | c :: cs =>
    c == '\n' &&
      (match cs with
       | [] => true
       | d :: _ => d == '\n')

/-- The lazy text group `([\s\S]*?)(?=\n\n|$)`: consume the minimal prefix
after which the lookahead holds. -/
def lazyText : List Char → List Char × List Char
  | [] => ([], [])
  | c :: cs =>
    if lookNN (c :: cs) then ([], c :: cs)
    else
      let p := lazyText cs
      (c :: p.1, p.2)

/-- Try the whole block regex `(\d+)\n(range)\n([\s\S]*?)(?=\n\n|$)` at the
current position.  On success return the block (text stripped, as in
`parse_srt`) and the remaining input (the lookahead is not consumed). -/
def tryMatchAt (s : List Char) : Option (Block × List Char) :=
  let d := takeDigits s
  if d.1.isEmpty then none
  else
    match d.2 with
    | '\n' :: r2 =>
      match matchPat tcRangePat r2 with
      | some (tc, '\n' :: r4) =>
        let p := lazyText r4
        some (⟨d.1, tc, strip p.1⟩, p.2)
      | _ => none
    | _ => none

/-- `re.findall` scanning loop for the block regex: try a match at every
position, left to right, non-overlapping.  `fuel` bounds the recursion; it is
always called with `fuel ≥ length`. -/
def scanSrt : Nat → List Char → List Block
  | 0, _ => []
  | _ + 1, [] => []
  | fuel + 1, c :: cs =>
    match tryMatchAt (c :: cs) with
    | some (b, rest) => b :: scanSrt fuel rest
    | none => scanSrt fuel cs

/-- `TranslationWorker.parse_srt`. -/
def parse_srt (content : List Char) : List Block :=
  scanSrt content.length content

/-- One serialised block, `f"{index}\n{timecode}\n{text}\n\n"`. -/
def blockOut (b : Block) : List Char :=
  b.index ++ '\n' :: b.timecode ++ '\n' :: b.text ++ ['\n', '\n']

/-- `TranslationWorker.save_srt`: the text written to the output file. -/
def save_srt (blocks : List Block) : List Char :=
  (blocks.map blockOut).flatten

/-! ### Well-formedness of SRT input (for the round-trip claim C1) -/

/-- Does the list start with two newlines? -/
def startsNN : List Char → Bool
  | c :: d :: _ => c == '\n' && d == '\n'
  | _ => false

/-- Does the list contain two consecutive newlines (a blank-line separator)? -/
def hasNN : List Char → Bool
  | [] => false
  | c :: cs => startsNN (c :: cs) || hasNN cs

/-- A valid block in the sense of the claim: an integer index line, a strict
time-range line, and one or more text lines — no blank line inside the text,
no trailing newline, and no leading/trailing whitespace (which `parse_srt`
would strip away). -/
def wfBlock (b : Block) : Prop :=
  b.index ≠ [] ∧ (∀ c ∈ b.index, c.isDigit) ∧
  matchesExact tcRangePat b.timecode = true ∧
  b.text ≠ [] ∧ hasNN (b.text ++ ['\n']) = false ∧
  strip b.text = b.text

instance (b : Block) : Decidable (wfBlock b) := by
  unfold wfBlock; infer_instance

/-- The claim's literal reading of "valid blocks separated by blank lines":
the blocks' serialisations joined with a single blank line *between*
consecutive blocks (no trailing separator).  A single block's body is
`index\ntimecode\ntext`. -/
def blockCore (b : Block) : List Char :=
  b.index ++ '\n' :: b.timecode ++ '\n' :: b.text

/-- Well-formed input, blank lines as separators only. -/
def wellFormedSep (x : List Char) : Prop :=
  ∃ bs : List Block, bs ≠ [] ∧ (∀ b ∈ bs, wfBlock b) ∧
    x = (List.intersperse ['\n', '\n'] (bs.map blockCore)).flatten

/-- Well-formed input, every block terminated by a blank line (this is what
`save_srt` itself produces). -/
def wellFormedTerm (x : List Char) : Prop :=
  ∃ bs : List Block, (∀ b ∈ bs, wfBlock b) ∧ x = save_srt bs

end Srt

namespace Srt

/-! ### The retrying translation client (`translate_text`), claim C3 -/

/-- `RETRY_COUNT = 2` (module constant). -/
def RETRY_COUNT : Nat := 2

/-- `RETRY_DELAY = 5  # seconds` (module constant). -/
def RETRY_DELAY : Nat := 5

/-- Outcome of one `requests.post` attempt: an HTTP 200 with a reply body, a
non-200 status, or a network-level exception. -/
inductive Attempt where
  | success (reply : List Char)
  | httpError (status : Nat)
  | netError
  deriving DecidableEq, Repr

/-- Did the attempt fail (anything except HTTP 200)? -/
def Attempt.failed : Attempt → Bool
  | .success _ => false
  | _ => true

/-- Observable actions of `translate_text`: one network call per loop
iteration, and the fixed back-off sleep. -/
inductive NetEv where
  | call (attempt : Nat)
  | sleep (seconds : Nat)
  deriving DecidableEq, Repr

/-- The `for attempt in range(RETRY_COUNT + 1)` loop of `translate_text`.
`oracle i` is the outcome of the `i`-th `requests.post`; `rem` is the number
of iterations left and `i` the current value of `attempt`. -/
def attemptLoop (oracle : Nat → Attempt) : Nat → Nat → Option (List Char) × List NetEv
  | 0, _ => (none, [])
  | rem + 1, i =>
    match oracle i with
    | .success reply => (some reply, [NetEv.call i])
    | _ =>
      if i < RETRY_COUNT then
        let r := attemptLoop oracle rem (i + 1)
        (r.1, NetEv.call i :: NetEv.sleep RETRY_DELAY :: r.2)
      else (none, [NetEv.call i])

/-- `TranslationWorker.translate_text`: run the retry loop from attempt 0,
returning the reply (or `none` after exhausting retries) together with the
trace of network calls and sleeps. -/
def translate_text (oracle : Nat → Attempt) : Option (List Char) × List NetEv :=
  attemptLoop oracle (RETRY_COUNT + 1) 0

end Srt

namespace Srt

/-- C3 — the claim, stated for the fixed constants of the source:
if every attempt fails, `translate_text` makes exactly 3 calls
(attempts 0, 1, 2), sleeps 5 seconds between consecutive calls and not after
the last, and returns a failure result. -/
theorem retry_budget (oracle : Nat → Attempt)
    (h : ∀ i, i < RETRY_COUNT + 1 → (oracle i).failed = true) :
    translate_text oracle =
      (none, [NetEv.call 0, NetEv.sleep RETRY_DELAY, NetEv.call 1,
              NetEv.sleep RETRY_DELAY, NetEv.call 2]) := by
  have h0 := h 0 (by decide)
  have h1 := h 1 (by decide)
  have h2 := h 2 (by decide)
  unfold translate_text
  cases o0 : oracle 0 <;> cases o1 : oracle 1 <;> cases o2 : oracle 2 <;>
    simp_all [attemptLoop, RETRY_COUNT, RETRY_DELAY, Attempt.failed]

/-- Witness for C3: a client whose every attempt is a network error makes
exactly the three calls with the two back-off sleeps. -/
theorem retry_budget_witness :
    (∀ i, i < RETRY_COUNT + 1 → ((fun _ => Attempt.netError) i).failed = true) ∧
    translate_text (fun _ => Attempt.netError) =
      (none, [NetEv.call 0, NetEv.sleep RETRY_DELAY, NetEv.call 1,
              NetEv.sleep RETRY_DELAY, NetEv.call 2]) :=
  ⟨fun _ _ => rfl, retry_budget (fun _ => Attempt.netError) (fun _ _ => rfl)⟩

end Srt

namespace Srt

/-! ### Substring machinery (shared) -/

/-- Is `p` a contiguous substring of `s`?  (`p in s` in Python.) -/
def containsSub (p : List Char) : List Char → Bool
  | [] => p.isEmpty
  | c :: cs => p.isPrefixOf (c :: cs) || containsSub p cs

/-- A prefix is a substring. -/
theorem containsSub_of_isPrefixOf {p s : List Char} (h : p.isPrefixOf s = true) :
    containsSub p s = true := by
  cases s with
  | nil =>
    cases p with
    | nil => rfl
    | cons x xs => simp [List.isPrefixOf] at h
  | cons c cs => simp only [containsSub, h, Bool.true_or]

/-- Extending a string on the left preserves substring containment. -/
theorem containsSub_cons {p cs : List Char} (c : Char)
    (h : containsSub p cs = true) : containsSub p (c :: cs) = true := by
  simp only [containsSub, h, Bool.or_true]

/-- An explicit decomposition witnesses substring containment. -/
theorem containsSub_of_parts (p a b s : List Char) (h : s = a ++ p ++ b) :
    containsSub p s = true := by
  subst h
  induction a with
  | nil =>
    refine containsSub_of_isPrefixOf ?_
    rw [List.isPrefixOf_iff_prefix]
    simp only [List.nil_append, List.append_assoc]
    exact List.prefix_append p b
  | cons c a ih =>
    simpa using containsSub_cons c (by simpa using ih)

end Srt

namespace Srt

/-! ### The prompt builder (`generate_system_prompt`), claim C9 -/

/-- The three style names offered by the UI (`STYLES`). -/
def naturalStyle : List Char := "Natural (recommended)".toList

/-- The `"Formal"` style name. -/
def formalStyle : List Char := "Formal".toList

/-- The `"Simple clear"` style name. -/
def simpleStyle : List Char := "Simple clear".toList

/-- The `style_map` dictionary of `generate_system_prompt`. -/
def style_map : List (List Char × List Char) :=
  [(naturalStyle, "natural".toList),
   (formalStyle, "formal".toList),
   (simpleStyle, "simple and clear".toList)]

/-- `style_map.get(self.style, "natural")`. -/
def styleDesc (style : List Char) : List Char :=
  (style_map.lookup style).getD "natural".toList

/-- The fixed instruction tail of the constructed prompt (the source builds it
from adjacent string literals, one per line). -/
def promptTail : List Char :=
  "Only translate the USER text.\n".toList ++
  "Keep placeholders like <BTAG_0>, <ETAG_0>, <TIME_0> unchanged.\n".toList ++
  "Never translate content inside placeholders.\n".toList ++
  "Do NOT add explanations or commentary.\n".toList ++
  "Answer with the translated text only.".toList

/-- The constructed instruction of `generate_system_prompt` (the `prompt`
f-string before the override check). -/
def builtPrompt (target_lang style : List Char) : List Char :=
  "Translate the following text from English into ".toList ++ target_lang ++
  ".\n".toList ++ "Use ".toList ++ styleDesc style ++
  " style. Important:\n".toList ++ promptTail

/-- `TranslationWorker.generate_system_prompt`: the override replaces the
constructed prompt whenever it is non-empty after trimming, and is used
untrimmed. -/
def generate_system_prompt (advanced_prompt target_lang style : List Char) :
    List Char :=
  if (strip advanced_prompt).isEmpty then builtPrompt target_lang style
  else advanced_prompt

end Srt

namespace Srt

/-- C9 — the prompt builder: a non-blank advanced override is used verbatim
(untrimmed); otherwise the constructed instruction names the target language,
maps exactly the three styles to "natural" / "formal" / "simple and clear"
(defaulting to "natural"), and contains the four model-facing invariant
sentences. -/
theorem prompt_builder_spec (advanced_prompt target_lang style : List Char) :
    (strip advanced_prompt ≠ [] →
      generate_system_prompt advanced_prompt target_lang style = advanced_prompt) ∧
    (strip advanced_prompt = [] →
      generate_system_prompt advanced_prompt target_lang style =
        builtPrompt target_lang style ∧
      containsSub target_lang (builtPrompt target_lang style) = true ∧
      containsSub "Only translate the USER text.\n".toList
        (builtPrompt target_lang style) = true ∧
      containsSub "Keep placeholders like <BTAG_0>, <ETAG_0>, <TIME_0> unchanged.\n".toList
        (builtPrompt target_lang style) = true ∧
      containsSub "Never translate content inside placeholders.\n".toList
        (builtPrompt target_lang style) = true ∧
      containsSub "Answer with the translated text only.".toList
        (builtPrompt target_lang style) = true) ∧
    styleDesc naturalStyle = "natural".toList ∧
    styleDesc formalStyle = "formal".toList ∧
    styleDesc simpleStyle = "simple and clear".toList := by
  refine ⟨?_, ?_, by decide, by decide, by decide⟩
  · intro h
    unfold generate_system_prompt
    rw [if_neg]
    simpa [List.isEmpty_iff] using h
  · intro h
    have hg : generate_system_prompt advanced_prompt target_lang style =
        builtPrompt target_lang style := by
      unfold generate_system_prompt
      rw [if_pos]
      simpa [List.isEmpty_iff] using h
    refine ⟨hg, ?_, ?_, ?_, ?_, ?_⟩
    · refine containsSub_of_parts _
        "Translate the following text from English into ".toList
        (".\n".toList ++ "Use ".toList ++ styleDesc style ++
          " style. Important:\n".toList ++ promptTail) _ ?_
      unfold builtPrompt
      simp only [List.append_assoc]
    · refine containsSub_of_parts _
        ("Translate the following text from English into ".toList ++ target_lang ++
          ".\n".toList ++ "Use ".toList ++ styleDesc style ++ " style. Important:\n".toList)
        ("Keep placeholders like <BTAG_0>, <ETAG_0>, <TIME_0> unchanged.\n".toList ++
          "Never translate content inside placeholders.\n".toList ++
          "Do NOT add explanations or commentary.\n".toList ++
          "Answer with the translated text only.".toList) _ ?_
      unfold builtPrompt promptTail
      simp only [List.append_assoc]
    · refine containsSub_of_parts _
        ("Translate the following text from English into ".toList ++ target_lang ++
          ".\n".toList ++ "Use ".toList ++ styleDesc style ++ " style. Important:\n".toList ++
          "Only translate the USER text.\n".toList)
        ("Never translate content inside placeholders.\n".toList ++
          "Do NOT add explanations or commentary.\n".toList ++
          "Answer with the translated text only.".toList) _ ?_
      unfold builtPrompt promptTail
      simp only [List.append_assoc]
    · refine containsSub_of_parts _
        ("Translate the following text from English into ".toList ++ target_lang ++
          ".\n".toList ++ "Use ".toList ++ styleDesc style ++ " style. Important:\n".toList ++
          "Only translate the USER text.\n".toList ++
          "Keep placeholders like <BTAG_0>, <ETAG_0>, <TIME_0> unchanged.\n".toList)
        ("Do NOT add explanations or commentary.\n".toList ++
          "Answer with the translated text only.".toList) _ ?_
      unfold builtPrompt promptTail
      simp only [List.append_assoc]
    · refine containsSub_of_parts _
        ("Translate the following text from English into ".toList ++ target_lang ++
          ".\n".toList ++ "Use ".toList ++ styleDesc style ++ " style. Important:\n".toList ++
          "Only translate the USER text.\n".toList ++
          "Keep placeholders like <BTAG_0>, <ETAG_0>, <TIME_0> unchanged.\n".toList ++
          "Never translate content inside placeholders.\n".toList ++
          "Do NOT add explanations or commentary.\n".toList)
        [] _ ?_
      unfold builtPrompt promptTail
      simp only [List.append_assoc, List.append_nil]

/-- Witness for C9: a non-blank override (with surrounding whitespace) is kept
verbatim, and with a blank override the built German/Formal prompt contains
the language code and the invariant sentences. -/
theorem prompt_builder_spec_witness :
    (strip " custom ".toList ≠ [] ∧
     generate_system_prompt " custom ".toList "de".toList formalStyle =
       " custom ".toList) ∧
    (strip ([] : List Char) = [] ∧
     generate_system_prompt [] "de".toList formalStyle =
       builtPrompt "de".toList formalStyle ∧
     containsSub "de".toList (builtPrompt "de".toList formalStyle) = true ∧
     containsSub "Only translate the USER text.\n".toList
       (builtPrompt "de".toList formalStyle) = true ∧
     containsSub "Keep placeholders like <BTAG_0>, <ETAG_0>, <TIME_0> unchanged.\n".toList
       (builtPrompt "de".toList formalStyle) = true ∧
     containsSub "Never translate content inside placeholders.\n".toList
       (builtPrompt "de".toList formalStyle) = true ∧
     containsSub "Answer with the translated text only.".toList
       (builtPrompt "de".toList formalStyle) = true) :=
  ⟨⟨by decide, (prompt_builder_spec " custom ".toList "de".toList formalStyle).1 (by decide)⟩,
   ⟨rfl, (prompt_builder_spec [] "de".toList formalStyle).2.1 rfl⟩⟩

end Srt

namespace Srt

/-! ### Round-trip of the SRT codec (claim C1) -/

theorem scanSrt_nil (fuel : Nat) : scanSrt fuel [] = [] := by
  cases fuel <;> rfl

/-- Greedy `\d+` consumes exactly a digit run followed by a non-digit. -/
theorem takeDigits_append (ds r : List Char) (hds : ∀ c ∈ ds, c.isDigit = true) :
    takeDigits (ds ++ '\n' :: r) = (ds, '\n' :: r) := by
  induction ds with
  | nil => simp [takeDigits]
  | cons c cs ih =>
    have hc : c.isDigit = true := hds c (by simp)
    have ih' := ih (fun x hx => hds x (by simp [hx]))
    simp [takeDigits, hc, ih']

/-- `matchPat` consumes a prefix of its input. -/
theorem matchPat_sound (pat : Pat) :
    ∀ s m r, matchPat pat s = some (m, r) → s = m ++ r := by
  induction pat with
  | nil =>
    intro s m r h
    simp [matchPat] at h
    simp [h.1, h.2]
  | cons p ps ih =>
    intro s m r h
    cases s with
    | nil => simp [matchPat] at h
    | cons c cs =>
      simp only [matchPat] at h
      split at h
      · cases hrec : matchPat ps cs with
        | none => rw [hrec] at h; simp at h
        | some pr =>
          rw [hrec] at h
          obtain ⟨m', r'⟩ := pr
          simp only [Option.some.injEq, Prod.mk.injEq] at h
          obtain ⟨hm, hr⟩ := h
          rw [← hm, ← hr]
          have hcs := ih cs m' r' hrec
          simp [hcs]
      · simp at h

/-- Matched pattern lengths agree with the pattern. -/
theorem matchPat_length (pat : Pat) :
    ∀ s m r, matchPat pat s = some (m, r) → m.length = pat.length := by
  induction pat with
  | nil =>
    intro s m r h
    simp [matchPat] at h
    simp [h.1]
  | cons p ps ih =>
    intro s m r h
    cases s with
    | nil => simp [matchPat] at h
    | cons c cs =>
      simp only [matchPat] at h
      split at h
      · cases hrec : matchPat ps cs with
        | none => rw [hrec] at h; simp at h
        | some pr =>
          rw [hrec] at h
          obtain ⟨m', r'⟩ := pr
          simp only [Option.some.injEq, Prod.mk.injEq] at h
          obtain ⟨hm, hr⟩ := h
          rw [← hm]
          have hcs := ih cs m' r' hrec
          simp [hcs]
      · simp at h

/-- A complete match still succeeds when the input is extended on the right,
leaving the extension as the rest. -/
theorem matchPat_ext (pat : Pat) :
    ∀ s m r, matchPat pat s = some (m, []) → matchPat pat (s ++ r) = some (m, r) := by
  induction pat with
  | nil =>
    intro s m r h
    simp [matchPat] at h
    simp [matchPat, h.1, h.2]
  | cons p ps ih =>
    intro s m r h
    cases s with
    | nil => simp [matchPat] at h
    | cons c cs =>
      simp only [matchPat] at h
      simp only [List.cons_append, matchPat, List.append_eq]
      split at h
      case isTrue hok =>
        rw [if_pos hok]
        cases hrec : matchPat ps cs with
        | none => rw [hrec] at h; simp at h
        | some pr =>
          rw [hrec] at h
          obtain ⟨m', r'⟩ := pr
          simp only [Option.some.injEq, Prod.mk.injEq] at h
          obtain ⟨hm, hr⟩ := h
          rw [← hm]
          subst hr
          rw [ih cs m' r hrec]
      case isFalse hok => simp at h

/-- `matchesExact` gives the exact-match form of `matchPat`. -/
theorem matchesExact_elim {pat : Pat} {s : List Char}
    (h : matchesExact pat s = true) : matchPat pat s = some (s, []) := by
  unfold matchesExact at h
  cases hm : matchPat pat s with
  | none => rw [hm] at h; simp at h
  | some pr =>
    obtain ⟨m, r⟩ := pr
    rw [hm] at h
    simp only [List.isEmpty_iff] at h
    subst h
    have hs : s = m := by simpa using matchPat_sound pat s m [] hm
    rw [hs]

theorem hasNN_tail {c : Char} {l : List Char} (h : hasNN (c :: l) = false) :
    hasNN l = false := by
  unfold hasNN at h
  cases l with
  | nil => rfl
  | cons d ds => simpa using (Bool.or_eq_false_iff.mp h).2

/-- The lazy text group stops exactly at the first blank line when the text
contains no blank line and does not end in a newline. -/
theorem lazyText_append (t rest : List Char) (h : hasNN (t ++ ['\n']) = false) :
    lazyText (t ++ '\n' :: '\n' :: rest) = (t, '\n' :: '\n' :: rest) := by
  induction t with
  | nil => simp [lazyText, lookNN]
  | cons c cs ih =>
    have htail : hasNN (cs ++ ['\n']) = false := hasNN_tail (by simpa using h)
    have hlook : lookNN (c :: (cs ++ '\n' :: '\n' :: rest)) = false := by
      by_cases hc : c = '\n'
      · subst hc
        cases cs with
        | nil =>
          exfalso
          simp [hasNN, startsNN] at h
        | cons d ds =>
          have hd : (d == '\n') = false := by
            by_cases hdn : d = '\n'
            · subst hdn; simp [hasNN, startsNN] at h
            · simp [hdn]
          simp [lookNN, hd]
      · simp [lookNN, hc]
    simp only [List.cons_append, lazyText, List.append_eq, hlook, Bool.false_eq_true, if_false]
    rw [ih htail]

/-- The full block regex matches a well-formed serialised block at position 0
and consumes everything up to (but not including) the blank-line separator. -/
theorem tryMatchAt_block (b : Block) (rest : List Char) (hb : wfBlock b) :
    tryMatchAt (blockOut b ++ rest) =
      some (b, '\n' :: '\n' :: rest) := by
  obtain ⟨hne, hdig, htc, -, hnn, hstrip⟩ := hb
  have harr : blockOut b ++ rest =
      b.index ++ '\n' :: (b.timecode ++ '\n' :: (b.text ++ '\n' :: '\n' :: rest)) := by
    simp [blockOut]
  have htd := takeDigits_append b.index
      (b.timecode ++ '\n' :: (b.text ++ '\n' :: '\n' :: rest)) hdig
  have hmp := matchPat_ext tcRangePat b.timecode b.timecode
      ('\n' :: (b.text ++ '\n' :: '\n' :: rest)) (matchesExact_elim htc)
  have hlz := lazyText_append b.text rest hnn
  rw [harr]
  unfold tryMatchAt
  simp only [htd, List.isEmpty_iff]
  rw [if_neg hne]
  simp only [hmp, hlz, hstrip]

/-- No block match can start on a non-digit character. -/
theorem tryMatchAt_nonDigit {c : Char} (z : List Char) (hc : c.isDigit = false) :
    tryMatchAt (c :: z) = none := by
  unfold tryMatchAt
  simp [takeDigits, hc]

/-- Unfolding `scanSrt` when the regex matches at the current position. -/
theorem scanSrt_cons_match {fuel : Nat} {c : Char} {cs : List Char}
    {b : Block} {rest : List Char} (h : tryMatchAt (c :: cs) = some (b, rest)) :
    scanSrt (fuel + 1) (c :: cs) = b :: scanSrt fuel rest := by
  simp [scanSrt, h]

/-- Unfolding `scanSrt` when the regex does not match at the current position. -/
theorem scanSrt_cons_none {fuel : Nat} {c : Char} {cs : List Char}
    (h : tryMatchAt (c :: cs) = none) :
    scanSrt (fuel + 1) (c :: cs) = scanSrt fuel cs := by
  simp [scanSrt, h]

/-- Scanning a serialisation of well-formed blocks recovers exactly those
blocks (for any sufficient fuel). -/
theorem scanSrt_save (bs : List Block) :
    ∀ fuel, (∀ b ∈ bs, wfBlock b) → (save_srt bs).length ≤ fuel →
      scanSrt fuel (save_srt bs) = bs := by
  induction bs with
  | nil => intro fuel _ _; simpa [save_srt] using scanSrt_nil fuel
  | cons b bs ih =>
    intro fuel hwf hb_len
    have hb : wfBlock b := hwf b (by simp)
    have hsave : save_srt (b :: bs) = blockOut b ++ save_srt bs := by
      simp [save_srt]
    have hlb : 4 ≤ (blockOut b).length := by
      simp only [blockOut, List.length_append, List.length_cons]
      omega
    rw [hsave] at hb_len ⊢
    have hflen : (blockOut b).length + (save_srt bs).length ≤ fuel := by
      simpa using hb_len
    obtain ⟨f, rfl⟩ : ∃ f, fuel = f + 3 := ⟨fuel - 3, by omega⟩
    obtain ⟨i0, itail, hidx⟩ : ∃ i0 itail, b.index = i0 :: itail := by
      cases hi : b.index with
      | nil => exact absurd hi hb.1
      | cons x xs => exact ⟨x, xs, rfl⟩
    have hcons : blockOut b ++ save_srt bs =
        i0 :: (itail ++ '\n' :: b.timecode ++ '\n' :: b.text ++ ['\n', '\n'] ++ save_srt bs) := by
      simp [blockOut, hidx]
    have hmatch := tryMatchAt_block b (save_srt bs) hb
    rw [hcons] at hmatch
    rw [hcons, scanSrt_cons_match hmatch]
    rw [scanSrt_cons_none (tryMatchAt_nonDigit _ (by decide))]
    rw [scanSrt_cons_none (tryMatchAt_nonDigit _ (by decide))]
    exact congrArg (b :: ·) (ih f (fun x hx => hwf x (by simp [hx])) (by omega))

/-- `parse_srt` inverts `save_srt` on well-formed block lists. -/
theorem parse_srt_save (bs : List Block) (hwf : ∀ b ∈ bs, wfBlock b) :
    parse_srt (save_srt bs) = bs :=
  scanSrt_save bs (save_srt bs).length hwf (Nat.le_refl _)

end Srt

namespace Srt

/-- C1, amended — round-trip of the codec holds for well-formed inputs in
which every block (including the last) is terminated by a blank line:
`save_srt (parse_srt x) = x`. -/
theorem srt_roundtrip_terminated (x : List Char) (h : wellFormedTerm x) :
    save_srt (parse_srt x) = x := by
  obtain ⟨bs, hwf, rfl⟩ := h
  rw [parse_srt_save bs hwf]

/-- The concrete single-block input used to refute the claim as stated: a
valid block with no trailing blank line. -/
def sepExample : List Char :=
  "1\n00:00:01,000 --> 00:00:02,000\nHi".toList

/-- C1, counterexample — for the final block of an input in which blank lines
only *separate* blocks (so the input does not end with a blank line), the
round trip appends a trailing blank line: `serialize(parse(x)) ≠ x`. -/
theorem srt_roundtrip_sep_counterexample :
    wellFormedSep sepExample ∧ save_srt (parse_srt sepExample) ≠ sepExample := by
  constructor
  · refine ⟨[⟨"1".toList, "00:00:01,000 --> 00:00:02,000".toList, "Hi".toList⟩],
      by simp, ?_, by decide⟩
    intro b hbm
    simp only [List.mem_singleton] at hbm
    subst hbm
    decide
  · decide

/-- Witness for the amended C1: a two-block fully terminated file
round-trips byte for byte. -/
def termExample : List Char :=
  "1\n00:00:01,000 --> 00:00:02,000\nHello <i>world</i>\n\n2\n00:00:02,500 --> 00:00:04,000\nGoodbye\n\n".toList

/-- Witness for C1 (amended): the two-block terminated example is well formed
and round-trips exactly. -/
theorem srt_roundtrip_terminated_witness :
    wellFormedTerm termExample ∧ save_srt (parse_srt termExample) = termExample := by
  have hwf : wellFormedTerm termExample := by
    refine ⟨[⟨"1".toList, "00:00:01,000 --> 00:00:02,000".toList, "Hello <i>world</i>".toList⟩,
            ⟨"2".toList, "00:00:02,500 --> 00:00:04,000".toList, "Goodbye".toList⟩], ?_, by decide⟩
    intro b hbm
    simp only [List.mem_cons, List.mem_singleton] at hbm
    rcases hbm with h1 | h2 | hf
    · subst h1; decide
    · subst h2; decide
    · exact absurd hf (by simp)
  exact ⟨hwf, srt_roundtrip_terminated termExample hwf⟩

end Srt

namespace Srt

/-! ### Placeholder protection (`protect_content` / `restore_content`) -/

/-- Python `str.replace` scanning with explicit fuel: left to right,
non-overlapping; at a match, emit the replacement and resume after the
matched pattern.  The fuel is always at least the length of the remaining
text, and each step consumes at least one character when the pattern is
nonempty. -/
def replaceAllFuel (pat rep : List Char) : Nat → List Char → List Char
  | 0, s => s
  | _ + 1, [] => []
  | fuel + 1, c :: cs =>
    if pat.isPrefixOf (c :: cs) then
      rep ++ replaceAllFuel pat rep fuel ((c :: cs).drop pat.length)
    else c :: replaceAllFuel pat rep fuel cs

/-- Python `str.replace(pat, rep)` (for nonempty `pat`; every pattern the
worker substitutes — timestamps, tags, placeholders — is nonempty). -/
def replaceAll (pat rep s : List Char) : List Char :=
  if pat.isEmpty then s else replaceAllFuel pat rep s.length s

/-- `re.findall` for a fixed-shape pattern (the short timestamp pattern):
left to right, non-overlapping, resuming after each match. -/
def scanPat (pat : Pat) : Nat → List Char → List (List Char)
  | 0, _ => []
  | _ + 1, [] => []
  | fuel + 1, c :: cs =>
    match matchPat pat (c :: cs) with
    | some (m, rest) => m :: scanPat pat fuel rest
    | none => scanPat pat fuel cs

/-- `re.findall(timecode_pattern, text)` of `protect_content`. -/
def findTimecodes (s : List Char) : List (List Char) :=
  scanPat tcShortPat s.length s

/-- `re.findall(r'<([^>]+)>', text)`: at a `<`, greedily take a nonempty run
of non-`>` characters; if a `>` follows, that run is the captured tag and
scanning resumes after the `>`, otherwise move one character on. -/
def scanTags : Nat → List Char → List (List Char)
  | 0, _ => []
  | _ + 1, [] => []
  | fuel + 1, c :: cs =>
    if c = '<' then
      match cs.dropWhile (fun x => x != '>') with
      | _ :: tail =>
        if (cs.takeWhile (fun x => x != '>')).isEmpty then scanTags fuel cs
        else cs.takeWhile (fun x => x != '>') :: scanTags fuel tail
      | [] => scanTags fuel cs
    else scanTags fuel cs

/-- The tag list harvested from the original block text. -/
def findTags (s : List Char) : List (List Char) :=
  scanTags s.length s

/-- Decimal digit character. -/
def digitChar (d : Nat) : Char := Char.ofNat (48 + d)

/-- Decimal rendering of a natural number, with fuel (`n + 1` always
suffices). -/
def toDecFuel : Nat → Nat → List Char
  | 0, _ => []
  | fuel + 1, n =>
    if n < 10 then [digitChar n]
    else toDecFuel fuel (n / 10) ++ [digitChar (n % 10)]

/-- Decimal rendering of a natural number (the f-string `{idx}`). -/
def toDec (n : Nat) : List Char := toDecFuel (n + 1) n

/-- The three placeholder families of `protect_content`. -/
inductive Fam where
  | time
  | btag
  | etag
  deriving DecidableEq, Repr

/-- Family name as it appears inside the placeholder. -/
def famStr : Fam → List Char
  | .time => "TIME".toList
  | .btag => "BTAG".toList
  | .etag => "ETAG".toList

/-- `f"<TIME_{idx}>"`, `f"<BTAG_{idx}>"`, `f"<ETAG_{idx}>"`. -/
def phStr (f : Fam) (i : Nat) : List Char :=
  '<' :: (famStr f ++ '_' :: (toDec i ++ ['>']))

/-- The placeholder for the `idx`-th occurrence in the timecode pass. -/
def timePh (i : Nat) (_tc : List Char) : List Char := phStr Fam.time i

/-- The placeholder chosen for the `idx`-th markup tag: a full tag starting
`</` gets the `ETAG` family, any other tag `BTAG`; one shared `enumerate`
counter numbers both families. -/
def tagPh (i : Nat) (full_tag : List Char) : List Char :=
  if ['<', '/'].isPrefixOf full_tag then phStr Fam.etag i else phStr Fam.btag i

/-- One `for idx, occ in enumerate(...)` replacement pass: substitute each
occurrence string by its placeholder in the running text and record
`(placeholder, original)` in order. -/
def protectLoop (mk : Nat → List Char → List Char) :
    List (List Char) → Nat → List Char → List Char × List (List Char × List Char)
  | [], _, txt => (txt, [])
  | oc :: rest, i, txt =>
    let ph := mk i oc
    let r := protectLoop mk rest (i + 1) (replaceAll oc ph txt)
    (r.1, (ph, oc) :: r.2)

/-- The full tag string `f"<{tag}>"` rebuilt from a captured tag. -/
def fullTagStr (t : List Char) : List Char := '<' :: (t ++ ['>'])

/-- `TranslationWorker.protect_content`: protect timestamps, then markup
tags (tags are harvested from the original text, substituted in the running
protected text); returns the protected text and the replacement map in
insertion order. -/
def protect_content (text : List Char) :
    List Char × List (List Char × List Char) :=
  let r1 := protectLoop timePh (findTimecodes text) 0 text
  let r2 := protectLoop tagPh ((findTags text).map fullTagStr) 0 r1.1
  (r2.1, r1.2 ++ r2.2)

/-- `TranslationWorker.restore_content`: substitute every recorded
placeholder back to its original, in insertion order. -/
def restore_content (text : List Char)
    (replacements : List (List Char × List Char)) : List Char :=
  replacements.foldl (fun acc pr => replaceAll pr.1 pr.2 acc) text

end Srt

namespace Srt

/-! ### Placeholder numbering (claim C8) -/

/-- C8, counterexample — in the block `Hello <i>world</i>` the closing tag's
placeholder is `<ETAG_1>`, not `<ETAG_0>`: the `enumerate` counter is shared
between the opening and closing tag families, so the closing tag does *not*
get the first number of its own category. -/
theorem tag_counter_counterexample :
    (protect_content "Hello <i>world</i>".toList).2 =
      [("<BTAG_0>".toList, "<i>".toList), ("<ETAG_1>".toList, "</i>".toList)] ∧
    (∀ pr ∈ (protect_content "Hello <i>world</i>".toList).2,
      pr.1 ≠ "<ETAG_0>".toList) := by
  decide

/-- The pairs recorded by one `enumerate` replacement pass. -/
theorem protectLoop_pairs (mk : Nat → List Char → List Char)
    (os : List (List Char)) :
    ∀ i txt, (protectLoop mk os i txt).2 =
      (os.enumFrom i).map (fun p => (mk p.1 p.2, p.2)) := by
  induction os with
  | nil => intro i txt; simp [protectLoop]
  | cons oc rest ih =>
    intro i txt
    simp only [protectLoop, List.enumFrom_cons, List.map_cons]
    rw [ih]

/-- C8, amended — placeholders are generated deterministically per block:
timecodes are numbered `TIME_0, TIME_1, …` by occurrence; markup tags share
a single `enumerate` counter across both families, closing tags (full tag
starting `</`) receiving the distinct `ETAG` family and all others `BTAG`;
so `<i> … </i>` yields `<BTAG_0>` for the opening and `<ETAG_1>` for the
closing tag. -/
theorem placeholder_counters (text : List Char) :
    (protect_content text).2 =
      ((findTimecodes text).enumFrom 0).map
        (fun p => (phStr Fam.time p.1, p.2)) ++
      (((findTags text).map fullTagStr).enumFrom 0).map
        (fun p => (tagPh p.1 p.2, p.2)) ∧
    (protect_content "Hello <i>world</i>".toList).1 =
      "Hello <BTAG_0>world<ETAG_1>".toList := by
  constructor
  · unfold protect_content
    simp only [protectLoop_pairs]
    rfl
  · decide

end Srt

namespace Srt

/-! ### Path handling (`get_target_path` and the skip check) -/

/-- The directory part of a path, up to and including the last `/`
(`Path(file_path).parent`, rendered as the prefix it contributes to the
joined target path). -/
def dirPart (p : List Char) : List Char :=
  (p.reverse.dropWhile (fun c => c != '/')).reverse

/-- The final component of a path (after the last `/`). -/
def fileName (p : List Char) : List Char :=
  (p.reverse.takeWhile (fun c => c != '/')).reverse

/-- `Path(...).suffix`: the part of the final component from its last dot,
provided that dot is neither the first nor the last character. -/
def nameSuffix (name : List Char) : List Char :=
  let afterRev := name.reverse.takeWhile (fun c => c != '.')
  if afterRev.length = name.length then []
  else
    let i := name.length - 1 - afterRev.length
    if 0 < i && i < name.length - 1 then '.' :: afterRev.reverse else []

/-- `Path(...).stem`: the final component without its suffix. -/
def nameStem (name : List Char) : List Char :=
  name.take (name.length - (nameSuffix name).length)

/-- Does `rest` match `[a-z]{2,3}(-[a-zA-Z]{2,3})?$` (case-insensitively)? -/
def codeShape (rest : List Char) : Bool :=
  let l := rest.takeWhile Char.isAlpha
  let t := rest.drop l.length
  (2 ≤ l.length && l.length ≤ 3) &&
    (t.isEmpty ||
      (match t with
       | '-' :: r => (2 ≤ r.length && r.length ≤ 3) && r.all Char.isAlpha
       | _ => false))

/-- Does `s` match the whole stripped pattern
`\.[a-z]{2,3}(-[a-zA-Z]{2,3})?$`? -/
def suffixShape (s : List Char) : Bool :=
  match s with
  | '.' :: rest => codeShape rest
  | _ => false

/-- The `re.sub(r'\.[a-z]{2,3}(-[a-zA-Z]{2,3})?$', '', stem, IGNORECASE)` of
`get_target_path`: remove the leftmost (hence longest) suffix of
language-code shape, if any. -/
def stripLangSuffix (stem : List Char) : List Char :=
  match ((List.range (stem.length + 1)).filter
      (fun i => suffixShape (stem.drop i))).head? with
  | some i => stem.take i
  | none => stem

/-- `TranslationWorker.get_target_path`. -/
def get_target_path (target_lang : List Char) (file_path : List Char) : List Char :=
  let name := fileName file_path
  let suffix := nameSuffix name
  let stem := stripLangSuffix (nameStem name)
  dirPart file_path ++ stem ++ '.' :: (target_lang ++ suffix)

/-- Python `str.lower()` (ASCII case folding). -/
def lowerStr (s : List Char) : List Char := s.map Char.toLower

/-- The `f".{self.target_lang}."` probe of the second skip check. -/
def dotLang (target_lang : List Char) : List Char :=
  '.' :: (target_lang ++ ['.'])

end Srt

namespace Srt

/-! ### The batch driver (`run` / `process_file`), claims C4–C7, C10 -/

/-- Observable events of one worker run.  `check` records one
`is_cancelled()` call and its result; `netCall` one `translate_text`
invocation (which performs at least one HTTP request); `write` one
`save_srt`; the `log*` constructors mirror the `log_message.emit` calls. -/
inductive Ev where
  | logSkipExists (path : List Char)
  | logSkipLang (path : List Char)
  | logProcessing (path : List Char)
  | logNoBlocks (path : List Char)
  | logTranslating (i n : Nat)
  | logBlockFailed
  | logSaved (path : List Char)
  | logCancelled
  | logFileError (path : List Char)
  | logCompleted
  | progress (done total : Nat)
  | check (flag : Bool)
  | netCall (k : Nat)
  | write (path : List Char) (blocks : List Block)
  | errorCritical
  | finishedSig
  deriving DecidableEq, Repr

/-- The worker's external world: does the computed target path exist, file
contents, the outcome of the `k`-th `translate_text` invocation, the value
of the `k`-th `is_cancelled()` read, and whether the `k`-th log/progress
signal emission raises an exception in a connected slot. -/
structure Env where
  fs : List Char → Bool
  read : List Char → List Char
  tr : Nat → Option (List Char)
  cancel : Nat → Bool
  raiseOn : Nat → Bool

/-- One translation job (the worker's constructor arguments that the
pipeline uses). -/
structure Job where
  files : List (List Char)
  target_lang : List Char
  style : List Char
  advanced_prompt : List Char

/-- Worker-side counters: cancellation checks, `translate_text` calls and
log/progress emissions performed so far. -/
structure WSt where
  checks : Nat
  calls : Nat
  emits : Nat
  deriving DecidableEq, Repr

/-- The initial worker state. -/
def st0 : WSt := ⟨0, 0, 0⟩

/-- Result of an emission: new state, emitted events, and whether the
emission returned normally (`ok = false` means the slot raised). -/
structure EmR where
  st : WSt
  evs : List Ev
  ok : Bool

/-- Result of a cancellation check. -/
structure CkR where
  st : WSt
  evs : List Ev
  flag : Bool

/-- Result of one `translate_text` call as seen by the driver. -/
structure TrR where
  st : WSt
  evs : List Ev
  result : Option (List Char)

/-- Exception-aware outcome of a compound step. -/
inductive POut (α : Type) where
  | ok (a : α)
  | exc
  deriving DecidableEq, Repr

/-- Result of a compound step: state, trace, outcome. -/
structure StepR (α : Type) where
  st : WSt
  evs : List Ev
  out : POut α

/-- Emit one log/progress signal; the connected slot may raise. -/
def emitE (env : Env) (e : Ev) (st : WSt) : EmR :=
  if env.raiseOn st.emits then ⟨{ st with emits := st.emits + 1 }, [], false⟩
  else ⟨{ st with emits := st.emits + 1 }, [e], true⟩

/-- One `self.is_cancelled()` read (records a ghost `check` event). -/
def checkC (env : Env) (st : WSt) : CkR :=
  ⟨{ st with checks := st.checks + 1 }, [Ev.check (env.cancel st.checks)],
    env.cancel st.checks⟩

/-- One `self.translate_text(...)` invocation. -/
def callT (env : Env) (st : WSt) : TrR :=
  ⟨{ st with calls := st.calls + 1 }, [Ev.netCall st.calls], env.tr st.calls⟩

/-- Python truthiness of the translation result: `None` and the empty string
are both falsy (`if not translated_text`). -/
def translationFailed : Option (List Char) → Bool
  | none => true
  | some s => s.isEmpty

/-- The `for block_idx, block in enumerate(blocks)` loop of `process_file`:
check cancellation, log, protect, build the prompt, translate, restore or
keep the original on failure.  Returns `ok none` when cancelled (the early
`return`), `ok (some bs)` with the accumulated blocks otherwise. -/
def processBlocksLoop (env : Env) (job : Job) :
    List Block → Nat → Nat → WSt → List Block → StepR (Option (List Block))
  | [], _, _, st, acc => ⟨st, [], .ok (some acc.reverse)⟩
  | b :: rest, i, n, st, acc =>
    let c := checkC env st
    if c.flag then ⟨c.st, c.evs, .ok none⟩
    else
      let e1 := emitE env (Ev.logTranslating (i + 1) n) c.st
      if !e1.ok then ⟨e1.st, c.evs ++ e1.evs, .exc⟩
      else
        let pc := protect_content b.text
        let _sys := generate_system_prompt job.advanced_prompt job.target_lang job.style
        let t := callT env e1.st
        if translationFailed t.result then
          let e2 := emitE env Ev.logBlockFailed t.st
          if !e2.ok then ⟨e2.st, c.evs ++ e1.evs ++ t.evs ++ e2.evs, .exc⟩
          else
            let r := processBlocksLoop env job rest (i + 1) n e2.st (b :: acc)
            ⟨r.st, c.evs ++ e1.evs ++ t.evs ++ e2.evs ++ r.evs, r.out⟩
        else
          let out := t.result.getD []
          let r := processBlocksLoop env job rest (i + 1) n t.st
            (⟨b.index, b.timecode, restore_content out pc.2⟩ :: acc)
          ⟨r.st, c.evs ++ e1.evs ++ t.evs ++ r.evs, r.out⟩

/-- `TranslationWorker.process_file`. -/
def process_file (env : Env) (job : Job) (file_path : List Char) (st : WSt) :
    StepR Unit :=
  let target := get_target_path job.target_lang file_path
  if env.fs target then
    let e := emitE env (Ev.logSkipExists file_path) st
    ⟨e.st, e.evs, if e.ok then .ok () else .exc⟩
  else if containsSub (dotLang job.target_lang) (lowerStr file_path) then
    let e := emitE env (Ev.logSkipLang file_path) st
    ⟨e.st, e.evs, if e.ok then .ok () else .exc⟩
  else
    let blocks := parse_srt (env.read file_path)
    if blocks.isEmpty then
      let e := emitE env (Ev.logNoBlocks file_path) st
      ⟨e.st, e.evs, if e.ok then .ok () else .exc⟩
    else
      let r := processBlocksLoop env job blocks 0 blocks.length st []
      match r.out with
      | .exc => ⟨r.st, r.evs, .exc⟩
      | .ok none => ⟨r.st, r.evs, .ok ()⟩
      | .ok (some bs) =>
        let e := emitE env (Ev.logSaved target) r.st
        ⟨e.st, r.evs ++ Ev.write target bs :: e.evs, if e.ok then .ok () else .exc⟩

/-- The `for idx, file_path in enumerate(self.files)` loop of `run`,
including the per-file exception guard and the two cancellation break
points. -/
def runFilesLoop (env : Env) (job : Job) :
    List (List Char) → Nat → Nat → WSt → StepR Unit
  | [], _, _, st => ⟨st, [], .ok ()⟩
  | f :: rest, idx, n, st =>
    let c := checkC env st
    if c.flag then
      let e := emitE env Ev.logCancelled c.st
      ⟨e.st, c.evs ++ e.evs, if e.ok then .ok () else .exc⟩
    else
      let e1 := emitE env (Ev.logProcessing f) c.st
      if !e1.ok then ⟨e1.st, c.evs ++ e1.evs, .exc⟩
      else
        let e2 := emitE env (Ev.progress idx n) e1.st
        if !e2.ok then ⟨e2.st, c.evs ++ e1.evs ++ e2.evs, .exc⟩
        else
          let p := process_file env job f e2.st
          let g : StepR Unit :=
            match p.out with
            | .ok _ => ⟨p.st, p.evs, .ok ()⟩
            | .exc =>
              let e3 := emitE env (Ev.logFileError f) p.st
              ⟨e3.st, p.evs ++ e3.evs, if e3.ok then .ok () else .exc⟩
          match g.out with
          | .exc => ⟨g.st, c.evs ++ e1.evs ++ e2.evs ++ g.evs, .exc⟩
          | .ok _ =>
            let c2 := checkC env g.st
            if c2.flag then
              ⟨c2.st, c.evs ++ e1.evs ++ e2.evs ++ g.evs ++ c2.evs, .ok ()⟩
            else
              let r := runFilesLoop env job rest (idx + 1) n c2.st
              ⟨r.st, c.evs ++ e1.evs ++ e2.evs ++ g.evs ++ c2.evs ++ r.evs, r.out⟩

/-- The body of `run` inside its `try`: the file loop, the terminal
progress emission and the completion log. -/
def runBody (env : Env) (job : Job) (st : WSt) : StepR Unit :=
  let n := job.files.length
  let l := runFilesLoop env job job.files 0 n st
  match l.out with
  | .exc => l
  | .ok _ =>
    let e := emitE env (Ev.progress n n) l.st
    if !e.ok then ⟨e.st, l.evs ++ e.evs, .exc⟩
    else
      let c := checkC env e.st
      if c.flag then ⟨c.st, l.evs ++ e.evs ++ c.evs, .ok ()⟩
      else
        let e2 := emitE env Ev.logCompleted c.st
        ⟨e2.st, l.evs ++ e.evs ++ c.evs ++ e2.evs, if e2.ok then .ok () else .exc⟩

/-- `TranslationWorker.run`: the `try`/`except`/`finally` around the body;
the error signal fires once on a fatal exception and the completion signal
fires on every path. -/
def runWorker (env : Env) (job : Job) : WSt × List Ev :=
  let b := runBody env job st0
  match b.out with
  | .ok _ => (b.st, b.evs ++ [Ev.finishedSig])
  | .exc => (b.st, b.evs ++ [Ev.errorCritical, Ev.finishedSig])

end Srt

namespace Srt

/-! ### Basic driver lemmas -/

/-- The per-block result: keep the original block on a falsy translation
result, otherwise restore the protected content into the translated text. -/
def blockResult (env : Env) (k : Nat) (b : Block) : Block :=
  if translationFailed (env.tr k) then b
  else ⟨b.index, b.timecode,
        restore_content ((env.tr k).getD []) (protect_content b.text).2⟩

/-- The expected output blocks of the block loop, the `k`-th block consuming
the `k`-th `translate_text` invocation. -/
def expectedBlocks (env : Env) : Nat → List Block → List Block
  | _, [] => []
  | k, b :: rest => blockResult env k b :: expectedBlocks env (k + 1) rest

theorem expectedBlocks_length (env : Env) :
    ∀ k blocks, (expectedBlocks env k blocks).length = blocks.length := by
  intro k blocks
  induction blocks generalizing k with
  | nil => rfl
  | cons b rest ih => simp [expectedBlocks, ih]

/-- If every translation succeeds or fails per its own call, a failed call
leaves its block unchanged. -/
theorem expectedBlocks_get (env : Env) :
    ∀ blocks k j (hj : j < blocks.length),
      (expectedBlocks env k blocks).get ⟨j, by rw [expectedBlocks_length]; exact hj⟩ =
        blockResult env (k + j) (blocks.get ⟨j, hj⟩) := by
  intro blocks
  induction blocks with
  | nil => intro k j hj; simp at hj
  | cons b rest ih =>
    intro k j hj
    cases j with
    | zero => simp [expectedBlocks]
    | succ j' =>
      have hj' : j' < rest.length := by simpa using hj
      have := ih (k + 1) j' hj'
      simp only [expectedBlocks, List.get_cons_succ]
      rw [this]
      congr 1
      omega

/-- Evaluation shape of one iteration of the block loop: the five branches
are cancellation, a raising log slot, translation failure (with and without
a raising failure-log slot), and success. -/
theorem pbl_cons (env : Env) (job : Job) (b : Block) (rest : List Block)
    (i n : Nat) (st : WSt) (acc : List Block) :
    processBlocksLoop env job (b :: rest) i n st acc =
      if env.cancel st.checks then
        ⟨⟨st.checks + 1, st.calls, st.emits⟩, [Ev.check true], .ok none⟩
      else if env.raiseOn st.emits then
        ⟨⟨st.checks + 1, st.calls, st.emits + 1⟩, [Ev.check false], .exc⟩
      else if translationFailed (env.tr st.calls) then
        if env.raiseOn (st.emits + 1) then
          ⟨⟨st.checks + 1, st.calls + 1, st.emits + 2⟩,
           [Ev.check false, Ev.logTranslating (i + 1) n, Ev.netCall st.calls], .exc⟩
        else
          let r := processBlocksLoop env job rest (i + 1) n
            ⟨st.checks + 1, st.calls + 1, st.emits + 2⟩ (b :: acc)
          ⟨r.st, Ev.check false :: Ev.logTranslating (i + 1) n ::
            Ev.netCall st.calls :: Ev.logBlockFailed :: r.evs, r.out⟩
      else
        let r := processBlocksLoop env job rest (i + 1) n
          ⟨st.checks + 1, st.calls + 1, st.emits + 1⟩
          (⟨b.index, b.timecode,
            restore_content ((env.tr st.calls).getD []) (protect_content b.text).2⟩ :: acc)
        ⟨r.st, Ev.check false :: Ev.logTranslating (i + 1) n ::
          Ev.netCall st.calls :: r.evs, r.out⟩ := by
  simp only [processBlocksLoop, checkC, emitE, callT]
  by_cases hc : env.cancel st.checks
  · simp [hc]
  · simp only [hc, Bool.false_eq_true, if_false, if_true]
    by_cases hr1 : env.raiseOn st.emits
    · simp [hr1]
    · simp only [hr1, Bool.false_eq_true, if_false]
      by_cases hf : translationFailed (env.tr st.calls)
      · simp only [hf, if_true]
        by_cases hr2 : env.raiseOn (st.emits + 1)
        · simp [hr2]
        · simp [hr2]
      · simp [hf]

end Srt

namespace Srt

/-- Every event the block loop emits is a cancellation check, a
block-translating log, a network call, or a failure log. -/
theorem pbl_evs_shape (env : Env) (job : Job) :
    ∀ blocks i n st acc, ∀ e ∈ (processBlocksLoop env job blocks i n st acc).evs,
      (∃ fl, e = Ev.check fl) ∨ (∃ a bb, e = Ev.logTranslating a bb) ∨
      (∃ k, e = Ev.netCall k) ∨ e = Ev.logBlockFailed := by
  intro blocks
  induction blocks with
  | nil => intro i n st acc e hmem; simp [processBlocksLoop] at hmem
  | cons b rest ih =>
    intro i n st acc e hmem
    rw [pbl_cons] at hmem
    by_cases hc : env.cancel st.checks
    · simp only [hc, if_true] at hmem
      simp only [List.mem_singleton] at hmem
      exact Or.inl ⟨true, hmem⟩
    · simp only [hc, Bool.false_eq_true, if_false] at hmem
      by_cases hr1 : env.raiseOn st.emits
      · simp only [hr1, if_true] at hmem
        simp only [List.mem_singleton] at hmem
        exact Or.inl ⟨false, hmem⟩
      · simp only [hr1, Bool.false_eq_true, if_false] at hmem
        by_cases hf : translationFailed (env.tr st.calls)
        · simp only [hf, if_true] at hmem
          by_cases hr2 : env.raiseOn (st.emits + 1)
          · simp only [hr2, if_true] at hmem
            rcases (by simpa using hmem : e = Ev.check false ∨
                e = Ev.logTranslating (i + 1) n ∨ e = Ev.netCall st.calls) with h | h | h
            · exact Or.inl ⟨false, h⟩
            · exact Or.inr (Or.inl ⟨i + 1, n, h⟩)
            · exact Or.inr (Or.inr (Or.inl ⟨st.calls, h⟩))
          · simp only [hr2, Bool.false_eq_true, if_false, List.mem_cons] at hmem
            rcases hmem with h | h | h | h | h
            · exact Or.inl ⟨false, h⟩
            · exact Or.inr (Or.inl ⟨i + 1, n, h⟩)
            · exact Or.inr (Or.inr (Or.inl ⟨st.calls, h⟩))
            · exact Or.inr (Or.inr (Or.inr h))
            · exact ih _ _ _ _ e h
        · simp only [hf, Bool.false_eq_true, if_false, List.mem_cons] at hmem
          rcases hmem with h | h | h | h
          · exact Or.inl ⟨false, h⟩
          · exact Or.inr (Or.inl ⟨i + 1, n, h⟩)
          · exact Or.inr (Or.inr (Or.inl ⟨st.calls, h⟩))
          · exact ih _ _ _ _ e h

/-- The block loop writes no files and reports no progress. -/
theorem pbl_no_write_no_progress (env : Env) (job : Job)
    (blocks : List Block) (i n : Nat) (st : WSt) (acc : List Block) :
    (∀ p bs, Ev.write p bs ∉ (processBlocksLoop env job blocks i n st acc).evs) ∧
    (∀ a bb, Ev.progress a bb ∉ (processBlocksLoop env job blocks i n st acc).evs) := by
  constructor
  · intro p bs hmem
    rcases pbl_evs_shape env job blocks i n st acc _ hmem with ⟨fl, h⟩ | ⟨a, bb, h⟩ | ⟨k, h⟩ | h <;>
      simp at h
  · intro a bb hmem
    rcases pbl_evs_shape env job blocks i n st acc _ hmem with ⟨fl, h⟩ | ⟨a2, bb2, h⟩ | ⟨k, h⟩ | h <;>
      simp at h

/-- When the block loop finishes all blocks, the produced list is determined
block-by-block: the `k`-th block consumes the `k`-th remaining translation
call, keeping the original block exactly when that call's result is falsy;
and no raised cancellation flag was observed on the way. -/
theorem pbl_ok_some (env : Env) (job : Job) :
    ∀ blocks i n st acc bs,
      (processBlocksLoop env job blocks i n st acc).out = .ok (some bs) →
      bs = acc.reverse ++ expectedBlocks env st.calls blocks ∧
      Ev.check true ∉ (processBlocksLoop env job blocks i n st acc).evs := by
  intro blocks
  induction blocks with
  | nil =>
    intro i n st acc bs hout
    simp only [processBlocksLoop] at hout ⊢
    simp only [POut.ok.injEq, Option.some.injEq] at hout
    subst hout
    simp [expectedBlocks]
  | cons b rest ih =>
    intro i n st acc bs hout
    rw [pbl_cons] at hout ⊢
    by_cases hc : env.cancel st.checks
    · simp [hc] at hout
    · simp only [hc, Bool.false_eq_true, if_false] at hout ⊢
      by_cases hr1 : env.raiseOn st.emits
      · simp [hr1] at hout
      · simp only [hr1, Bool.false_eq_true, if_false] at hout ⊢
        by_cases hf : translationFailed (env.tr st.calls)
        · simp only [hf, if_true] at hout ⊢
          by_cases hr2 : env.raiseOn (st.emits + 1)
          · simp [hr2] at hout
          · simp only [hr2, Bool.false_eq_true, if_false] at hout ⊢
            obtain ⟨hbs, hnm⟩ := ih (i + 1) n ⟨st.checks + 1, st.calls + 1, st.emits + 2⟩
              (b :: acc) bs hout
            constructor
            · rw [hbs]
              simp only [expectedBlocks, List.reverse_cons, List.append_assoc,
                List.singleton_append, blockResult, hf, if_true]
            · simp [hnm]
        · simp only [hf, Bool.false_eq_true, if_false] at hout ⊢
          obtain ⟨hbs, hnm⟩ := ih (i + 1) n ⟨st.checks + 1, st.calls + 1, st.emits + 1⟩
            (_ :: acc) bs hout
          constructor
          · rw [hbs]
            simp only [expectedBlocks, List.reverse_cons, List.append_assoc,
              List.singleton_append, blockResult, hf, Bool.false_eq_true, if_false]
          · simp [hnm]

/-- With no raising slot and no cancellation, the block loop completes with
the expected blocks. -/
theorem pbl_complete (env : Env) (job : Job)
    (hnr : ∀ k, env.raiseOn k = false) (hnc : ∀ k, env.cancel k = false) :
    ∀ blocks i n st acc,
      (processBlocksLoop env job blocks i n st acc).out =
        .ok (some (acc.reverse ++ expectedBlocks env st.calls blocks)) := by
  intro blocks
  induction blocks with
  | nil => intro i n st acc; simp [processBlocksLoop, expectedBlocks]
  | cons b rest ih =>
    intro i n st acc
    rw [pbl_cons]
    simp only [hnc, hnr, Bool.false_eq_true, if_false]
    by_cases hf : translationFailed (env.tr st.calls)
    · simp only [hf, if_true, hnr, Bool.false_eq_true, if_false]
      rw [ih (i + 1) n ⟨st.checks + 1, st.calls + 1, st.emits + 2⟩ (b :: acc)]
      simp [expectedBlocks, blockResult, hf, List.reverse_cons]
    · simp only [hf, Bool.false_eq_true, if_false]
      rw [ih (i + 1) n ⟨st.checks + 1, st.calls + 1, st.emits + 1⟩ (_ :: acc)]
      simp [expectedBlocks, blockResult, hf, List.reverse_cons]

/-- With no raising slot the block loop never escapes with an exception. -/
theorem pbl_noexc (env : Env) (job : Job) (hnr : ∀ k, env.raiseOn k = false) :
    ∀ blocks i n st acc,
      (processBlocksLoop env job blocks i n st acc).out ≠ .exc := by
  intro blocks
  induction blocks with
  | nil => intro i n st acc h; simp [processBlocksLoop] at h
  | cons b rest ih =>
    intro i n st acc h
    rw [pbl_cons] at h
    by_cases hc : env.cancel st.checks
    · simp [hc] at h
    · simp only [hc, hnr, Bool.false_eq_true, if_false] at h
      by_cases hf : translationFailed (env.tr st.calls)
      · simp only [hf, if_true, hnr, Bool.false_eq_true, if_false] at h
        exact ih _ _ _ _ h
      · simp only [hf, Bool.false_eq_true, if_false] at h
        exact ih _ _ _ _ h

/-- If the block loop observed a raised flag, the trace ends at that first
observation, the loop returned early (`ok none`, so nothing is written for
the file), and the flag value read at that check index was `true`. -/
theorem pbl_cancel_split (env : Env) (job : Job) :
    ∀ blocks i n st acc,
      Ev.check true ∈ (processBlocksLoop env job blocks i n st acc).evs →
      ∃ c pre,
        env.cancel c = true ∧
        (processBlocksLoop env job blocks i n st acc).st.checks = c + 1 ∧
        (processBlocksLoop env job blocks i n st acc).out = .ok none ∧
        (processBlocksLoop env job blocks i n st acc).evs = pre ++ [Ev.check true] ∧
        Ev.check true ∉ pre := by
  intro blocks
  induction blocks with
  | nil => intro i n st acc hmem; simp [processBlocksLoop] at hmem
  | cons b rest ih =>
    intro i n st acc hmem
    rw [pbl_cons] at hmem ⊢
    by_cases hc : env.cancel st.checks
    · refine ⟨st.checks, [], hc, ?_⟩
      simp [hc]
    · simp only [hc, Bool.false_eq_true, if_false] at hmem ⊢
      by_cases hr1 : env.raiseOn st.emits
      · simp [hr1] at hmem
      · simp only [hr1, Bool.false_eq_true, if_false] at hmem ⊢
        by_cases hf : translationFailed (env.tr st.calls)
        · simp only [hf, if_true] at hmem ⊢
          by_cases hr2 : env.raiseOn (st.emits + 1)
          · simp [hr2] at hmem
          · simp only [hr2, Bool.false_eq_true, if_false] at hmem ⊢
            have hmem' : Ev.check true ∈
                (processBlocksLoop env job rest (i + 1) n
                  ⟨st.checks + 1, st.calls + 1, st.emits + 2⟩ (b :: acc)).evs := by
              simpa using hmem
            obtain ⟨c, pre, h1, h2, h3, h4, h5⟩ := ih _ _ _ _ hmem'
            refine ⟨c, Ev.check false :: Ev.logTranslating (i + 1) n ::
              Ev.netCall st.calls :: Ev.logBlockFailed :: pre, h1, h2, h3, ?_, ?_⟩
            · simp [h4]
            · simp [h5]
        · simp only [hf, Bool.false_eq_true, if_false] at hmem ⊢
          have hmem' : Ev.check true ∈
              (processBlocksLoop env job rest (i + 1) n
                ⟨st.checks + 1, st.calls + 1, st.emits + 1⟩
                (⟨b.index, b.timecode,
                  restore_content ((env.tr st.calls).getD [])
                    (protect_content b.text).2⟩ :: acc)).evs := by
            simpa using hmem
          obtain ⟨c, pre, h1, h2, h3, h4, h5⟩ := ih _ _ _ _ hmem'
          refine ⟨c, Ev.check false :: Ev.logTranslating (i + 1) n ::
            Ev.netCall st.calls :: pre, h1, h2, h3, ?_, ?_⟩
          · simp [h4]
          · simp [h5]

end Srt

namespace Srt

/-! ### Skip logic (claim C5) -/

/-- C5, amended — the skip decision as implemented: a file is skipped (one
skip log, no network call, no write, no error) when the computed target path
exists, or when the *lowercased* path contains `f".{target_lang}."` — a
case-sensitive probe against the lowercased path, so codes containing
uppercase (zh-CN, zh-TW) never trigger the filename-based skip. -/
theorem skip_logic (env : Env) (job : Job) (path : List Char) (st : WSt)
    (hnr : ∀ k, env.raiseOn k = false)
    (h : env.fs (get_target_path job.target_lang path) = true ∨
         containsSub (dotLang job.target_lang) (lowerStr path) = true) :
    ((process_file env job path st).evs = [Ev.logSkipExists path] ∨
     (process_file env job path st).evs = [Ev.logSkipLang path]) ∧
    (process_file env job path st).out = POut.ok () := by
  by_cases h1 : env.fs (get_target_path job.target_lang path) = true
  · refine ⟨Or.inl ?_, ?_⟩ <;> simp [process_file, h1, emitE, hnr]
  · have h2 : containsSub (dotLang job.target_lang) (lowerStr path) = true :=
      h.resolve_left h1
    rw [Bool.not_eq_true] at h1
    refine ⟨Or.inr ?_, ?_⟩ <;> simp [process_file, h1, h2, emitE, hnr]

/-- A one-block subtitle file used by the concrete scenarios. -/
def srtSample : List Char :=
  "1\n00:00:01,000 --> 00:00:02,000\nHello world\n\n".toList

/-- A two-block subtitle file used by the concrete scenarios. -/
def srtSample2 : List Char :=
  "1\n00:00:01,000 --> 00:00:02,000\nHello\n\n2\n00:00:02,500 --> 00:00:04,000\nWorld\n\n".toList

/-- A world in which no target file exists, every file reads as the sample,
every translation fails, and nothing is cancelled or raises. -/
def envZh : Env :=
  ⟨fun _ => false, fun _ => srtSample, fun _ => none, fun _ => false, fun _ => false⟩

/-- A job translating to Chinese (Simplified), language code `zh-CN`. -/
def jobZh : Job := ⟨[], "zh-CN".toList, [], []⟩

/-- A filename that already contains the target language code `zh-CN` as a
dotted segment (not in suffix position). -/
def pathZh : List Char := "movie.zh-CN.backup.srt".toList

/-- Is the event a file write? -/
def isWriteEv : Ev → Bool
  | .write _ _ => true
  | _ => false

/-- C5, counterexample — for target language `zh-CN` and the file
`movie.zh-CN.backup.srt`, the filename contains `.zh-CN.` as a dotted
segment and the target path does not exist, yet the file is *not* skipped:
the lowercased path no longer contains the mixed-case `.zh-CN.`, so a
network call is made and an output file is written. -/
theorem skip_logic_counterexample :
    containsSub (dotLang jobZh.target_lang) pathZh = true ∧
    envZh.fs (get_target_path jobZh.target_lang pathZh) = false ∧
    Ev.netCall 0 ∈ (process_file envZh jobZh pathZh st0).evs ∧
    (process_file envZh jobZh pathZh st0).evs.any isWriteEv = true := by
  refine ⟨by decide, rfl, by decide, by decide⟩

/-- A world in which every computed target path already exists. -/
def envSkip : Env :=
  ⟨fun _ => true, fun _ => [], fun _ => none, fun _ => false, fun _ => false⟩

/-- Witness for C5 (amended): with the target path existing, the file is
skipped with a single skip log and no error. -/
theorem skip_logic_witness :
    ((process_file envSkip jobZh pathZh st0).evs = [Ev.logSkipExists pathZh] ∨
     (process_file envSkip jobZh pathZh st0).evs = [Ev.logSkipLang pathZh]) ∧
    (process_file envSkip jobZh pathZh st0).out = POut.ok () :=
  skip_logic envSkip jobZh pathZh st0 (fun _ => rfl) (Or.inl rfl)

end Srt

namespace Srt

/-! ### `process_file` main-branch lemmas (claims C4, C10) -/

/-- Evaluation of `process_file` in the non-skip, non-empty case when the
block loop finishes all blocks. -/
theorem pf_main_some (env : Env) (job : Job) (path : List Char) (st : WSt)
    (h1 : env.fs (get_target_path job.target_lang path) = false)
    (h2 : containsSub (dotLang job.target_lang) (lowerStr path) = false)
    (h3 : parse_srt (env.read path) ≠ []) (bs : List Block)
    (hout : (processBlocksLoop env job (parse_srt (env.read path)) 0
      (parse_srt (env.read path)).length st []).out = .ok (some bs)) :
    process_file env job path st =
      let r := processBlocksLoop env job (parse_srt (env.read path)) 0
        (parse_srt (env.read path)).length st []
      let e := emitE env (Ev.logSaved (get_target_path job.target_lang path)) r.st
      ⟨e.st, r.evs ++ Ev.write (get_target_path job.target_lang path) bs :: e.evs,
        if e.ok then .ok () else .exc⟩ := by
  have h3' : (parse_srt (env.read path)).isEmpty = false := by
    simpa [List.isEmpty_iff] using h3
  simp only [process_file, h1, h2, h3', Bool.false_eq_true, if_false, hout]

/-- Evaluation of `process_file` when the block loop returned early
(cancellation): no write happens. -/
theorem pf_main_none (env : Env) (job : Job) (path : List Char) (st : WSt)
    (h1 : env.fs (get_target_path job.target_lang path) = false)
    (h2 : containsSub (dotLang job.target_lang) (lowerStr path) = false)
    (h3 : parse_srt (env.read path) ≠ [])
    (hout : (processBlocksLoop env job (parse_srt (env.read path)) 0
      (parse_srt (env.read path)).length st []).out = .ok none) :
    process_file env job path st =
      let r := processBlocksLoop env job (parse_srt (env.read path)) 0
        (parse_srt (env.read path)).length st []
      ⟨r.st, r.evs, .ok ()⟩ := by
  have h3' : (parse_srt (env.read path)).isEmpty = false := by
    simpa [List.isEmpty_iff] using h3
  simp only [process_file, h1, h2, h3', Bool.false_eq_true, if_false, hout]

/-- Evaluation of `process_file` when the block loop raised. -/
theorem pf_main_exc (env : Env) (job : Job) (path : List Char) (st : WSt)
    (h1 : env.fs (get_target_path job.target_lang path) = false)
    (h2 : containsSub (dotLang job.target_lang) (lowerStr path) = false)
    (h3 : parse_srt (env.read path) ≠ [])
    (hout : (processBlocksLoop env job (parse_srt (env.read path)) 0
      (parse_srt (env.read path)).length st []).out = .exc) :
    process_file env job path st =
      let r := processBlocksLoop env job (parse_srt (env.read path)) 0
        (parse_srt (env.read path)).length st []
      ⟨r.st, r.evs, .exc⟩ := by
  have h3' : (parse_srt (env.read path)).isEmpty = false := by
    simpa [List.isEmpty_iff] using h3
  simp only [process_file, h1, h2, h3', Bool.false_eq_true, if_false, hout]

/-- `save_srt` exposes each block's text as a contiguous substring. -/
theorem save_srt_decomp (l : List Block) :
    ∀ k (hk : k < l.length),
      ∃ x y, save_srt l = x ++ (l.get ⟨k, hk⟩).text ++ y := by
  induction l with
  | nil => intro k hk; simp at hk
  | cons b rest ih =>
    intro k hk
    cases k with
    | zero =>
      refine ⟨b.index ++ '\n' :: b.timecode ++ ['\n'],
        '\n' :: '\n' :: save_srt rest, ?_⟩
      simp [save_srt, blockOut]
    | succ k' =>
      have hk' : k' < rest.length := by simpa using hk
      obtain ⟨x, y, hxy⟩ := ih k' hk'
      refine ⟨blockOut b ++ x, y, ?_⟩
      have : save_srt (b :: rest) = blockOut b ++ save_srt rest := by
        simp [save_srt]
      rw [this, hxy]
      simp [List.append_assoc]

end Srt

namespace Srt

/-- C4 — per-block soft failure: for a non-skipped file whose parse yields a
non-empty block sequence, with no cancellation and no raising slot, if the
translation call consumed by block `k` fails then the written output keeps
block `k` unchanged (its text appears verbatim in the serialised output),
every other block is still processed against its own translation call, the
whole file is written, and `process_file` returns normally (so the run
continues with the next file). -/
theorem block_soft_failure (env : Env) (job : Job) (path : List Char) (st : WSt)
    (hnr : ∀ k, env.raiseOn k = false) (hnc : ∀ k, env.cancel k = false)
    (h1 : env.fs (get_target_path job.target_lang path) = false)
    (h2 : containsSub (dotLang job.target_lang) (lowerStr path) = false)
    (h3 : parse_srt (env.read path) ≠ [])
    (k : Nat) (hk : k < (parse_srt (env.read path)).length)
    (hfail : translationFailed (env.tr (st.calls + k)) = true) :
    (process_file env job path st).out = POut.ok () ∧
    Ev.write (get_target_path job.target_lang path)
        (expectedBlocks env st.calls (parse_srt (env.read path)))
      ∈ (process_file env job path st).evs ∧
    (expectedBlocks env st.calls (parse_srt (env.read path))).length =
      (parse_srt (env.read path)).length ∧
    (expectedBlocks env st.calls (parse_srt (env.read path))).get
        ⟨k, by rw [expectedBlocks_length]; exact hk⟩ =
      (parse_srt (env.read path)).get ⟨k, hk⟩ ∧
    (∀ j (hj : j < (parse_srt (env.read path)).length),
      (expectedBlocks env st.calls (parse_srt (env.read path))).get
          ⟨j, by rw [expectedBlocks_length]; exact hj⟩ =
        blockResult env (st.calls + j) ((parse_srt (env.read path)).get ⟨j, hj⟩)) ∧
    ∃ x y, save_srt (expectedBlocks env st.calls (parse_srt (env.read path))) =
      x ++ ((parse_srt (env.read path)).get ⟨k, hk⟩).text ++ y := by
  have hcomp := pbl_complete env job hnr hnc (parse_srt (env.read path)) 0
    (parse_srt (env.read path)).length st []
  simp only [List.reverse_nil, List.nil_append] at hcomp
  have hpf := pf_main_some env job path st h1 h2 h3 _ hcomp
  have hget := expectedBlocks_get env (parse_srt (env.read path)) st.calls k hk
  refine ⟨?_, ?_, expectedBlocks_length env _ _, ?_, ?_, ?_⟩
  · rw [hpf]
    simp [emitE, hnr]
  · rw [hpf]
    simp [emitE, hnr]
  · rw [hget, blockResult, hfail]
    simp
  · intro j hj
    exact expectedBlocks_get env (parse_srt (env.read path)) st.calls j hj
  · have hdec := save_srt_decomp (expectedBlocks env st.calls (parse_srt (env.read path)))
      k (by rw [expectedBlocks_length]; exact hk)
    obtain ⟨x, y, hxy⟩ := hdec
    refine ⟨x, y, ?_⟩
    rw [hxy]
    rw [hget, blockResult, hfail]
    simp

/-- A world whose single translation call fails, used as the C4 witness. -/
def envFail : Env :=
  ⟨fun _ => false, fun _ => srtSample2, fun _ => none, fun _ => false, fun _ => false⟩

/-- A plain job and path that trigger no skip. -/
def jobDe : Job := ⟨["movie.srt".toList], "de".toList, "Formal".toList, []⟩

/-- Witness for C4: with both translation calls failing on the two-block
sample, the file is written with both original blocks and processing
returns normally. -/
theorem block_soft_failure_witness :
    (process_file envFail jobDe "movie.srt".toList st0).out = POut.ok () ∧
    Ev.write (get_target_path jobDe.target_lang "movie.srt".toList)
        (expectedBlocks envFail 0 (parse_srt (envFail.read "movie.srt".toList)))
      ∈ (process_file envFail jobDe "movie.srt".toList st0).evs ∧
    (expectedBlocks envFail 0 (parse_srt (envFail.read "movie.srt".toList))).length =
      (parse_srt (envFail.read "movie.srt".toList)).length ∧
    (expectedBlocks envFail 0 (parse_srt (envFail.read "movie.srt".toList))).get
        ⟨1, by decide⟩ =
      (parse_srt (envFail.read "movie.srt".toList)).get ⟨1, by decide⟩ ∧
    (∀ j (hj : j < (parse_srt (envFail.read "movie.srt".toList)).length),
      (expectedBlocks envFail 0 (parse_srt (envFail.read "movie.srt".toList))).get
          ⟨j, by rw [expectedBlocks_length]; exact hj⟩ =
        blockResult envFail (0 + j)
          ((parse_srt (envFail.read "movie.srt".toList)).get ⟨j, hj⟩)) ∧
    ∃ x y, save_srt (expectedBlocks envFail 0 (parse_srt (envFail.read "movie.srt".toList))) =
      x ++ ((parse_srt (envFail.read "movie.srt".toList)).get ⟨1, by decide⟩).text ++ y := by
  have := block_soft_failure envFail jobDe "movie.srt".toList st0
    (fun _ => rfl) (fun _ => rfl) rfl (by decide) (by decide) 1 (by decide) rfl
  exact this

/-- C10 — all-or-nothing file output: if the cancellation flag was observed
raised at a block checkpoint of this file, no output file is written for it
at all; and any write that does happen carries the complete block list, each
block either translated by its own call or kept original. -/
theorem cancel_no_partial_write (env : Env) (job : Job) (path : List Char) (st : WSt) :
    (Ev.check true ∈ (process_file env job path st).evs →
      ∀ p bs, Ev.write p bs ∉ (process_file env job path st).evs) ∧
    (∀ p bs, Ev.write p bs ∈ (process_file env job path st).evs →
      p = get_target_path job.target_lang path ∧
      bs = expectedBlocks env st.calls (parse_srt (env.read path))) := by
  by_cases h1 : env.fs (get_target_path job.target_lang path) = true
  · constructor
    · intro hmem p bs
      simp [process_file, h1, emitE] at hmem ⊢
      split at hmem <;> simp_all
    · intro p bs hmem
      exfalso
      revert hmem
      simp only [process_file, h1, if_true, emitE]
      split <;> simp
  · rw [Bool.not_eq_true] at h1
    by_cases h2 : containsSub (dotLang job.target_lang) (lowerStr path) = true
    · constructor
      · intro hmem p bs
        simp [process_file, h1, h2, emitE] at hmem ⊢
        split at hmem <;> simp_all
      · intro p bs hmem
        exfalso
        revert hmem
        simp only [process_file, h1, h2, Bool.false_eq_true, if_false, if_true, emitE]
        split <;> simp
    · rw [Bool.not_eq_true] at h2
      by_cases h3 : parse_srt (env.read path) = []
      · constructor
        · intro hmem p bs
          simp [process_file, h1, h2, h3, emitE] at hmem ⊢
          split at hmem <;> simp_all
        · intro p bs hmem
          exfalso
          revert hmem
          simp only [process_file, h1, h2, h3, Bool.false_eq_true, if_false,
            List.isEmpty_nil, if_true, emitE]
          split <;> simp
      · cases hout : (processBlocksLoop env job (parse_srt (env.read path)) 0
            (parse_srt (env.read path)).length st []).out with
        | exc =>
          rw [pf_main_exc env job path st h1 h2 h3 hout]
          constructor
          · intro _ p bs hmem
            exact (pbl_no_write_no_progress env job _ _ _ _ _).1 p bs hmem
          · intro p bs hmem
            exact absurd hmem ((pbl_no_write_no_progress env job _ _ _ _ _).1 p bs)
        | ok o =>
          cases o with
          | none =>
            rw [pf_main_none env job path st h1 h2 h3 hout]
            constructor
            · intro _ p bs hmem
              exact (pbl_no_write_no_progress env job _ _ _ _ _).1 p bs hmem
            · intro p bs hmem
              exact absurd hmem ((pbl_no_write_no_progress env job _ _ _ _ _).1 p bs)
          | some bs0 =>
            obtain ⟨hbs0, hnochk⟩ := pbl_ok_some env job _ 0
              (parse_srt (env.read path)).length st [] bs0 hout
            simp only [List.reverse_nil, List.nil_append] at hbs0
            rw [pf_main_some env job path st h1 h2 h3 bs0 hout]
            constructor
            · intro hmem p bs
              exfalso
              simp only [List.mem_append, List.mem_cons] at hmem
              rcases hmem with h | h
              · exact hnochk h
              · rcases h with h | h
                · exact absurd h (by simp)
                · revert h
                  simp [emitE]
                  split <;> simp
            · intro p bs hmem
              simp only [List.mem_append, List.mem_cons] at hmem
              rcases hmem with h | h
              · exact absurd h ((pbl_no_write_no_progress env job _ _ _ _ _).1 p bs)
              · rcases h with h | h
                · obtain ⟨hp, hbs⟩ := by simpa using h
                  exact ⟨hp, by rw [hbs, hbs0]⟩
                · exfalso
                  revert h
                  simp [emitE]
                  split <;> simp
end Srt

namespace Srt

/-- A world that raises the cancellation flag after the first check, used as
the C10 witness: cancellation is observed at the second block's checkpoint. -/
def envC10 : Env :=
  ⟨fun _ => false, fun _ => srtSample2, fun _ => none,
   fun k => decide (1 ≤ k), fun _ => false⟩

/-- Witness for C10: with the flag raised at the second block's checkpoint,
the file yields no write at all; and in the uncancelled world the write the
theorem characterises indeed occurs with the complete block list. -/
theorem cancel_no_partial_write_witness :
    (Ev.check true ∈ (process_file envC10 jobDe "movie.srt".toList st0).evs ∧
     ∀ p bs, Ev.write p bs ∉ (process_file envC10 jobDe "movie.srt".toList st0).evs) ∧
    ("movie.de.srt".toList = get_target_path jobDe.target_lang "movie.srt".toList ∧
     expectedBlocks envFail 0 (parse_srt srtSample2) =
       expectedBlocks envFail st0.calls (parse_srt (envFail.read "movie.srt".toList))) := by
  refine ⟨⟨by decide, fun p bs =>
    (cancel_no_partial_write envC10 jobDe "movie.srt".toList st0).1 (by decide) p bs⟩, ?_⟩
  exact (cancel_no_partial_write envFail jobDe "movie.srt".toList st0).2
    "movie.de.srt".toList (expectedBlocks envFail 0 (parse_srt srtSample2)) (by decide)

end Srt

namespace Srt

/-! ### Progress reporting (claim C7) -/

/-- The progress pairs `(done, total)` carried by a trace, in order. -/
def progressPairs (tr : List Ev) : List (Nat × Nat) :=
  tr.filterMap fun e =>
    match e with
    | Ev.progress a b => some (a, b)
    | _ => none

/-- An emission's trace is at most the emitted event. -/
theorem emitE_evs_sub (env : Env) (e : Ev) (st : WSt) :
    ∀ e' ∈ (emitE env e st).evs, e' = e := by
  intro e' h
  revert h
  simp only [emitE]
  split <;> simp

/-- `process_file` reports no progress. -/
theorem pf_no_progress (env : Env) (job : Job) (path : List Char) (st : WSt) :
    ∀ a b, Ev.progress a b ∉ (process_file env job path st).evs := by
  intro a b hmem
  by_cases h1 : env.fs (get_target_path job.target_lang path) = true
  · simp only [process_file, h1, if_true] at hmem
    have := emitE_evs_sub env _ st _ hmem
    simp at this
  · rw [Bool.not_eq_true] at h1
    by_cases h2 : containsSub (dotLang job.target_lang) (lowerStr path) = true
    · simp only [process_file, h1, h2, Bool.false_eq_true, if_false, if_true] at hmem
      have := emitE_evs_sub env _ st _ hmem
      simp at this
    · rw [Bool.not_eq_true] at h2
      by_cases h3 : parse_srt (env.read path) = []
      · simp only [process_file, h1, h2, h3, Bool.false_eq_true, if_false,
          List.isEmpty_nil, if_true] at hmem
        have := emitE_evs_sub env _ st _ hmem
        simp at this
      · cases hout : (processBlocksLoop env job (parse_srt (env.read path)) 0
            (parse_srt (env.read path)).length st []).out with
        | exc =>
          rw [pf_main_exc env job path st h1 h2 h3 hout] at hmem
          exact (pbl_no_write_no_progress env job _ _ _ _ _).2 a b hmem
        | ok o =>
          cases o with
          | none =>
            rw [pf_main_none env job path st h1 h2 h3 hout] at hmem
            exact (pbl_no_write_no_progress env job _ _ _ _ _).2 a b hmem
          | some bs0 =>
            rw [pf_main_some env job path st h1 h2 h3 bs0 hout] at hmem
            simp only [List.mem_append, List.mem_cons] at hmem
            rcases hmem with h | h | h
            · exact (pbl_no_write_no_progress env job _ _ _ _ _).2 a b h
            · exact absurd h (by simp)
            · have := emitE_evs_sub env _ _ _ h
              simp at this

/-- With no raising slot, `process_file` never escapes with an exception. -/
theorem pf_noexc (env : Env) (job : Job) (hnr : ∀ k, env.raiseOn k = false)
    (path : List Char) (st : WSt) :
    (process_file env job path st).out ≠ .exc := by
  intro h
  by_cases h1 : env.fs (get_target_path job.target_lang path) = true
  · simp [process_file, h1, emitE, hnr] at h
  · rw [Bool.not_eq_true] at h1
    by_cases h2 : containsSub (dotLang job.target_lang) (lowerStr path) = true
    · simp [process_file, h1, h2, emitE, hnr] at h
    · rw [Bool.not_eq_true] at h2
      by_cases h3 : parse_srt (env.read path) = []
      · simp [process_file, h1, h2, h3, emitE, hnr] at h
      · cases hout : (processBlocksLoop env job (parse_srt (env.read path)) 0
            (parse_srt (env.read path)).length st []).out with
        | exc => exact pbl_noexc env job hnr _ _ _ _ _ hout
        | ok o =>
          cases o with
          | none => rw [pf_main_none env job path st h1 h2 h3 hout] at h; simp at h
          | some bs0 =>
            rw [pf_main_some env job path st h1 h2 h3 bs0 hout] at h
            simp [emitE, hnr] at h

/-- Evaluation shape of one iteration of the file loop when no slot raises:
the flag check either breaks the loop with the cancellation log, or the file
is processed (its exceptions caught per file) and the post-file check either
breaks or continues. -/
theorem runLoop_cons (env : Env) (job : Job) (hnr : ∀ k, env.raiseOn k = false)
    (f : List Char) (rest : List (List Char)) (idx n : Nat) (st : WSt) :
    runFilesLoop env job (f :: rest) idx n st =
      if env.cancel st.checks then
        ⟨⟨st.checks + 1, st.calls, st.emits + 1⟩,
         [Ev.check true, Ev.logCancelled], .ok ()⟩
      else
        let p := process_file env job f ⟨st.checks + 1, st.calls, st.emits + 2⟩
        if env.cancel p.st.checks then
          ⟨⟨p.st.checks + 1, p.st.calls, p.st.emits⟩,
           Ev.check false :: Ev.logProcessing f :: Ev.progress idx n ::
             (p.evs ++ [Ev.check true]), .ok ()⟩
        else
          let r := runFilesLoop env job rest (idx + 1) n
            ⟨p.st.checks + 1, p.st.calls, p.st.emits⟩
          ⟨r.st, Ev.check false :: Ev.logProcessing f :: Ev.progress idx n ::
            (p.evs ++ Ev.check false :: r.evs), r.out⟩ := by
  simp only [runFilesLoop, checkC, emitE, hnr, Bool.false_eq_true, if_false,
    Bool.not_false, if_true]
  by_cases hc : env.cancel st.checks
  · simp [hc, emitE, hnr]
  · simp only [hc, Bool.false_eq_true, if_false]
    cases hp : (process_file env job f ⟨st.checks + 1, st.calls, st.emits + 2⟩).out with
    | exc => exact absurd hp (pf_noexc env job hnr _ _)
    | ok u =>
      simp only [hp]
      by_cases hc2 : env.cancel (process_file env job f
          ⟨st.checks + 1, st.calls, st.emits + 2⟩).st.checks
      · simp [hc2]
      · simp [hc2]

end Srt

namespace Srt

/-- A trace without progress events has no progress pairs. -/
theorem progressPairs_eq_nil (l : List Ev) (h : ∀ a b, Ev.progress a b ∉ l) :
    progressPairs l = [] := by
  rw [progressPairs, List.filterMap_eq_nil_iff]
  intro e hmem
  cases e <;> first
    | rfl
    | exact absurd hmem (h _ _)

/-- With no raising slot the file loop always completes normally. -/
theorem runLoop_ok (env : Env) (job : Job) (hnr : ∀ k, env.raiseOn k = false) :
    ∀ files idx n st, (runFilesLoop env job files idx n st).out = .ok () := by
  intro files
  induction files with
  | nil => intro idx n st; rfl
  | cons f rest ih =>
    intro idx n st
    rw [runLoop_cons env job hnr]
    by_cases hc : env.cancel st.checks
    · simp [hc]
    · simp only [hc, Bool.false_eq_true, if_false]
      by_cases hc2 : env.cancel (process_file env job f
          ⟨st.checks + 1, st.calls, st.emits + 2⟩).st.checks
      · simp [hc2]
      · simp [hc2, ih]

/-- The file loop's progress pairs are an initial run `(idx, n), (idx+1, n),
…` of consecutive indices, one per file started. -/
theorem runLoop_pairs (env : Env) (job : Job) (hnr : ∀ k, env.raiseOn k = false) :
    ∀ files idx n st, ∃ k, k ≤ files.length ∧
      progressPairs (runFilesLoop env job files idx n st).evs =
        (List.range' idx k).map (fun i => (i, n)) := by
  intro files
  induction files with
  | nil => intro idx n st; exact ⟨0, by simp, by simp [runFilesLoop, progressPairs]⟩
  | cons f rest ih =>
    intro idx n st
    rw [runLoop_cons env job hnr]
    by_cases hc : env.cancel st.checks
    · refine ⟨0, by simp, ?_⟩
      simp [hc, progressPairs]
    · simp only [hc, Bool.false_eq_true, if_false]
      have hpf := progressPairs_eq_nil _ (pf_no_progress env job f
        ⟨st.checks + 1, st.calls, st.emits + 2⟩)
      by_cases hc2 : env.cancel (process_file env job f
          ⟨st.checks + 1, st.calls, st.emits + 2⟩).st.checks
      · refine ⟨1, by simp, ?_⟩
        simp only [hc2, if_true]
        simp [progressPairs, List.filterMap_append, List.filterMap_cons] at hpf ⊢
        simpa [progressPairs] using hpf
      · simp only [hc2, Bool.false_eq_true, if_false]
        obtain ⟨k, hk, heq⟩ := ih (idx + 1) n
          ⟨(process_file env job f ⟨st.checks + 1, st.calls, st.emits + 2⟩).st.checks + 1,
           (process_file env job f ⟨st.checks + 1, st.calls, st.emits + 2⟩).st.calls,
           (process_file env job f ⟨st.checks + 1, st.calls, st.emits + 2⟩).st.emits⟩
        refine ⟨k + 1, by simpa using hk, ?_⟩
        simp only [List.range']
        simp only [progressPairs, List.filterMap_cons, List.filterMap_append] at heq hpf ⊢
        simp [heq, hpf]

/-- With no raising slot, the run body always emits the terminal
`(total, total)` progress after the loop, finishing normally; nothing after
it is a progress event. -/
theorem runBody_spec (env : Env) (job : Job) (hnr : ∀ k, env.raiseOn k = false)
    (st : WSt) :
    ∃ tail,
      (runBody env job st).evs =
        (runFilesLoop env job job.files 0 job.files.length st).evs ++
          Ev.progress job.files.length job.files.length :: tail ∧
      (∀ a b, Ev.progress a b ∉ tail) ∧
      (runBody env job st).out = POut.ok () ∧
      ((env.cancel (runFilesLoop env job job.files 0 job.files.length st).st.checks = true ∧
        tail = [Ev.check true]) ∨
       (env.cancel (runFilesLoop env job job.files 0 job.files.length st).st.checks = false ∧
        tail = [Ev.check false, Ev.logCompleted])) := by
  unfold runBody
  have hok := runLoop_ok env job hnr job.files 0 job.files.length st
  cases hl : (runFilesLoop env job job.files 0 job.files.length st).out with
  | exc => rw [hl] at hok; simp at hok
  | ok u =>
    simp only [hl]
    by_cases hc : env.cancel
        (runFilesLoop env job job.files 0 job.files.length st).st.checks
    · refine ⟨[Ev.check true], ?_, by simp, ?_, Or.inl ⟨hc, rfl⟩⟩
      · simp [emitE, hnr, checkC, hc]
      · simp [emitE, hnr, checkC, hc]
    · refine ⟨[Ev.check false, Ev.logCompleted], ?_, by simp, ?_,
        Or.inr ⟨by simpa using hc, rfl⟩⟩
      · simp [emitE, hnr, checkC, hc]
      · simp [emitE, hnr, checkC, hc]

/-- The completion signal is the last event of every run, on every path. -/
theorem runWorker_finished_last (env : Env) (job : Job) :
    (runWorker env job).2.getLast? = some Ev.finishedSig := by
  have hsing : ∀ (l : List Ev) (a : Ev), (l ++ [a]).getLast? = some a := by
    intro l a
    exact List.getLast?_concat l
  unfold runWorker
  cases hout : (runBody env job st0).out with
  | ok u => simp only [hout]; exact hsing _ _
  | exc =>
    simp only [hout]
    have : (runBody env job st0).evs ++ [Ev.errorCritical, Ev.finishedSig] =
        ((runBody env job st0).evs ++ [Ev.errorCritical]) ++ [Ev.finishedSig] := by
      simp
    rw [this]
    exact hsing _ _

/-- C7, amended — progress is reported as `(completedCount, totalCount)`
pairs; with no raising slot (normal completion and cancellation alike) the
final progress emission is `(total, total)`; and the completion signal is
the last event on every exit path.  (On a fatal exit the terminal progress
emission can be skipped: it sits inside the guarded region — see the
counterexample.) -/
theorem progress_reporting (env : Env) (job : Job)
    (hnr : ∀ k, env.raiseOn k = false) :
    (∀ p ∈ progressPairs (runWorker env job).2,
      p.2 = job.files.length ∧ p.1 ≤ job.files.length) ∧
    (progressPairs (runWorker env job).2).getLast? =
      some (job.files.length, job.files.length) ∧
    (runWorker env job).2.getLast? = some Ev.finishedSig := by
  obtain ⟨tail, hevs, htail, hout, -⟩ := runBody_spec env job hnr st0
  have hworker : (runWorker env job).2 = (runBody env job st0).evs ++ [Ev.finishedSig] := by
    simp only [runWorker, hout]
  obtain ⟨k, hk, hpairs⟩ := runLoop_pairs env job hnr job.files 0 job.files.length st0
  have htailp : progressPairs tail = [] := progressPairs_eq_nil tail htail
  have hpp : progressPairs (runWorker env job).2 =
      (List.range' 0 k).map (fun i => (i, job.files.length)) ++
        [(job.files.length, job.files.length)] := by
    rw [hworker, hevs]
    simp only [progressPairs, List.filterMap_append, List.filterMap_cons] at hpairs htailp ⊢
    simp [hpairs, htailp, progressPairs]
  refine ⟨?_, ?_, runWorker_finished_last env job⟩
  · intro p hp
    rw [hpp] at hp
    simp only [List.mem_append, List.mem_map, List.mem_singleton] at hp
    rcases hp with ⟨i, hi, rfl⟩ | rfl
    · have := List.mem_range'.mp hi
      exact ⟨rfl, by omega⟩
    · exact ⟨rfl, Nat.le_refl _⟩
  · rw [hpp]
    have : ∀ (l : List (Nat × Nat)) (a : Nat × Nat), (l ++ [a]).getLast? = some a := by
      intro l a
      exact List.getLast?_concat l
    exact this _ _

end Srt

namespace Srt

/-- A world whose very first log emission raises (a connected slot throwing
is the only way the guarded region of `run` can fail). -/
def envFatal : Env :=
  ⟨fun _ => false, fun _ => srtSample, fun _ => none, fun _ => false,
   fun k => decide (k = 0)⟩

/-- C7, counterexample — on the fatal path the terminal `(total, total)`
progress emission is skipped: it lies inside the `try` block, after the
point where the exception was raised.  The run still signals the error and
completion, but emits no progress at all. -/
theorem final_progress_counterexample :
    Ev.errorCritical ∈ (runWorker envFatal jobDe).2 ∧
    Ev.finishedSig ∈ (runWorker envFatal jobDe).2 ∧
    ∀ a b, Ev.progress a b ∉ (runWorker envFatal jobDe).2 := by
  refine ⟨by decide, by decide, ?_⟩
  intro a b
  have h : (runWorker envFatal jobDe).2 =
      [Ev.check false, Ev.errorCritical, Ev.finishedSig] := by decide
  rw [h]
  simp

/-- Witness for C7 (amended): in the world whose translations fail but whose
slots never raise, every progress pair has total 1, the last pair is
`(1, 1)`, and the completion signal ends the trace. -/
theorem progress_reporting_witness :
    (∀ p ∈ progressPairs (runWorker envFail jobDe).2,
      p.2 = jobDe.files.length ∧ p.1 ≤ jobDe.files.length) ∧
    (progressPairs (runWorker envFail jobDe).2).getLast? =
      some (jobDe.files.length, jobDe.files.length) ∧
    (runWorker envFail jobDe).2.getLast? = some Ev.finishedSig :=
  progress_reporting envFail jobDe (fun _ => rfl)

end Srt

namespace Srt

/-! ### Cancellation (claim C6) -/

/-- Once the flag has been observed raised, it stays raised for all later
check indices (the flag is only ever set, never cleared). -/
def FlagUp (env : Env) (st : WSt) : Prop :=
  ∀ c, st.checks ≤ c → env.cancel c = true

/-- The only events that may follow an observed raised flag: further raised
checks, the cancellation log, the terminal progress, and the completion
signal. -/
def allowedAfterCancel (n : Nat) : List Ev :=
  [Ev.check true, Ev.logCancelled, Ev.progress n n, Ev.finishedSig]

/-- If `process_file` observed a raised flag, its trace ends at that first
observation, it returned normally without writing, and the observed check
index read `true`. -/
theorem pf_cancel_split (env : Env) (job : Job) (path : List Char) (st : WSt)
    (hmem : Ev.check true ∈ (process_file env job path st).evs) :
    ∃ c pre,
      env.cancel c = true ∧
      (process_file env job path st).st.checks = c + 1 ∧
      (process_file env job path st).out = POut.ok () ∧
      (process_file env job path st).evs = pre ++ [Ev.check true] ∧
      Ev.check true ∉ pre := by
  by_cases h1 : env.fs (get_target_path job.target_lang path) = true
  · simp only [process_file, h1, if_true] at hmem
    have := emitE_evs_sub env _ st _ hmem
    simp at this
  · rw [Bool.not_eq_true] at h1
    by_cases h2 : containsSub (dotLang job.target_lang) (lowerStr path) = true
    · simp only [process_file, h1, h2, Bool.false_eq_true, if_false, if_true] at hmem
      have := emitE_evs_sub env _ st _ hmem
      simp at this
    · rw [Bool.not_eq_true] at h2
      by_cases h3 : parse_srt (env.read path) = []
      · simp only [process_file, h1, h2, h3, Bool.false_eq_true, if_false,
          List.isEmpty_nil, if_true] at hmem
        have := emitE_evs_sub env _ st _ hmem
        simp at this
      · cases hout : (processBlocksLoop env job (parse_srt (env.read path)) 0
            (parse_srt (env.read path)).length st []).out with
        | exc =>
          rw [pf_main_exc env job path st h1 h2 h3 hout] at hmem
          obtain ⟨c, pre, -, -, h3', -, -⟩ := pbl_cancel_split env job _ 0
            (parse_srt (env.read path)).length st [] hmem
          rw [hout] at h3'
          simp at h3'
        | ok o =>
          cases o with
          | none =>
            rw [pf_main_none env job path st h1 h2 h3 hout] at hmem ⊢
            obtain ⟨c, pre, hc1, hc2, -, hc4, hc5⟩ := pbl_cancel_split env job _ 0
              (parse_srt (env.read path)).length st [] hmem
            exact ⟨c, pre, hc1, hc2, rfl, hc4, hc5⟩
          | some bs0 =>
            obtain ⟨-, hnochk⟩ := pbl_ok_some env job _ 0
              (parse_srt (env.read path)).length st [] bs0 hout
            rw [pf_main_some env job path st h1 h2 h3 bs0 hout] at hmem
            exfalso
            simp only [List.mem_append, List.mem_cons] at hmem
            rcases hmem with h | h | h
            · exact hnochk h
            · exact absurd h (by simp)
            · have := emitE_evs_sub env _ _ _ h
              simp at this

/-- If the file loop observed a raised flag, its trace splits into a prefix
with no raised check and a suffix of wrap-up events only, and the flag stays
raised for every later check index. -/
theorem runLoop_split (env : Env) (job : Job)
    (hnr : ∀ k, env.raiseOn k = false)
    (hmono : ∀ i j, i ≤ j → env.cancel i = true → env.cancel j = true) :
    ∀ files idx n st,
      Ev.check true ∉ (runFilesLoop env job files idx n st).evs ∨
      ∃ pre suf,
        (runFilesLoop env job files idx n st).evs = pre ++ suf ∧
        Ev.check true ∉ pre ∧
        (∀ e ∈ suf, e = Ev.check true ∨ e = Ev.logCancelled) ∧
        FlagUp env (runFilesLoop env job files idx n st).st := by
  intro files
  induction files with
  | nil => intro idx n st; exact Or.inl (by simp [runFilesLoop])
  | cons f rest ih =>
    intro idx n st
    rw [runLoop_cons env job hnr]
    by_cases hc : env.cancel st.checks
    · refine Or.inr ⟨[], [Ev.check true, Ev.logCancelled], ?_⟩
      simp only [hc, if_true]
      refine ⟨rfl, by simp, by simp, ?_⟩
      intro c hcle
      exact hmono st.checks c (by simp at hcle; omega) hc
    · simp only [hc, Bool.false_eq_true, if_false]
      by_cases hmemp : Ev.check true ∈ (process_file env job f
          ⟨st.checks + 1, st.calls, st.emits + 2⟩).evs
      · obtain ⟨c, ppre, hc1, hc2, hc3, hc4, hc5⟩ :=
          pf_cancel_split env job f ⟨st.checks + 1, st.calls, st.emits + 2⟩ hmemp
        have hc2' : env.cancel (process_file env job f
            ⟨st.checks + 1, st.calls, st.emits + 2⟩).st.checks = true := by
          rw [hc2]
          exact hmono c (c + 1) (by omega) hc1
        simp only [hc2', if_true]
        refine Or.inr ⟨Ev.check false :: Ev.logProcessing f :: Ev.progress idx n :: ppre,
          [Ev.check true, Ev.check true], ?_, ?_, by simp, ?_⟩
        · simp [hc4]
        · simp [hc5]
        · intro c' hcle
          simp only at hcle
          refine hmono c c' (by rw [hc2] at hcle; omega) hc1
      · by_cases hc2 : env.cancel (process_file env job f
            ⟨st.checks + 1, st.calls, st.emits + 2⟩).st.checks
        · simp only [hc2, if_true]
          refine Or.inr ⟨Ev.check false :: Ev.logProcessing f :: Ev.progress idx n ::
            (process_file env job f ⟨st.checks + 1, st.calls, st.emits + 2⟩).evs,
            [Ev.check true], by simp, ?_, by simp, ?_⟩
          · simp [hmemp]
          · intro c' hcle
            simp only at hcle
            exact hmono _ c' (by omega) hc2
        · simp only [hc2, Bool.false_eq_true, if_false]
          rcases ih (idx + 1) n ⟨(process_file env job f
              ⟨st.checks + 1, st.calls, st.emits + 2⟩).st.checks + 1,
            (process_file env job f ⟨st.checks + 1, st.calls, st.emits + 2⟩).st.calls,
            (process_file env job f ⟨st.checks + 1, st.calls, st.emits + 2⟩).st.emits⟩
            with hleft | ⟨pre', suf', hs1, hs2, hs3, hs4⟩
          · refine Or.inl ?_
            simp [hmemp, hleft]
          · refine Or.inr ⟨Ev.check false :: Ev.logProcessing f :: Ev.progress idx n ::
              ((process_file env job f ⟨st.checks + 1, st.calls, st.emits + 2⟩).evs ++
                Ev.check false :: pre'), suf', ?_, ?_, hs3, hs4⟩
            · simp [hs1]
            · simp [hmemp, hs2]

/-- Index-based reading of a prefix/suffix split: after any raised check,
only events of the suffix (hence allowed events) can appear. -/
theorem after_true_of_split (tr pre suf allowed : List Ev)
    (h : tr = pre ++ suf) (hpre : Ev.check true ∉ pre)
    (hsuf : ∀ e ∈ suf, e ∈ allowed) :
    ∀ i j e, i < j → tr.get? i = some (Ev.check true) → tr.get? j = some e →
      e ∈ allowed := by
  intro i j e hij hi hj
  subst h
  by_cases hilen : i < pre.length
  · rw [List.get?_append hilen] at hi
    exact absurd (List.get?_mem hi) hpre
  · push_neg at hilen
    have hjlen : pre.length ≤ j := le_trans hilen (le_of_lt hij)
    rw [List.get?_append_right hjlen] at hj
    exact hsuf e (List.get?_mem hj)

/-- With no raised check in the trace the property holds vacuously. -/
theorem after_true_of_no_true (tr allowed : List Ev)
    (h : Ev.check true ∉ tr) :
    ∀ i j e, i < j → tr.get? i = some (Ev.check true) → tr.get? j = some e →
      e ∈ allowed := by
  intro i j e _ hi _
  exact absurd (List.get?_mem hi) h

/-- C6 — cancellation: with non-raising slots and a monotone flag, the run
always emits the terminal `(total, total)` progress, and after any observed
raised flag (at a file or block checkpoint) only wrap-up events follow:
further raised checks, the cancellation log, the terminal progress and the
completion signal — in particular no further network call, file write, or
block/file processing, anywhere in the rest of the run. -/
theorem cancellation_stops (env : Env) (job : Job)
    (hnr : ∀ k, env.raiseOn k = false)
    (hmono : ∀ i j, i ≤ j → env.cancel i = true → env.cancel j = true) :
    Ev.progress job.files.length job.files.length ∈ (runWorker env job).2 ∧
    (∀ i j e, i < j →
      (runWorker env job).2.get? i = some (Ev.check true) →
      (runWorker env job).2.get? j = some e →
      e ∈ allowedAfterCancel job.files.length) := by
  obtain ⟨tail, hevs, -, hout, htail⟩ := runBody_spec env job hnr st0
  have hworker : (runWorker env job).2 = (runBody env job st0).evs ++ [Ev.finishedSig] := by
    simp only [runWorker, hout]
  constructor
  · rw [hworker, hevs]
    simp
  · rcases runLoop_split env job hnr hmono job.files 0 job.files.length st0
      with hleft | ⟨pre, suf, hs1, hs2, hs3, hs4⟩
    · rcases htail with ⟨hflag, rfl⟩ | ⟨hflag, rfl⟩
      · -- loop clean, post-loop check read true
        refine after_true_of_split _
          ((runFilesLoop env job job.files 0 job.files.length st0).evs ++
            [Ev.progress job.files.length job.files.length])
          [Ev.check true, Ev.finishedSig] _ ?_ ?_ ?_
        · rw [hworker, hevs]
          simp
        · simp [hleft]
        · intro e hmem
          simp only [List.mem_cons, List.mem_singleton] at hmem
          rcases hmem with rfl | rfl | h
          · simp [allowedAfterCancel]
          · simp [allowedAfterCancel]
          · exact absurd h (by simp)
      · -- no raised check anywhere
        refine after_true_of_no_true _ _ ?_
        rw [hworker, hevs]
        simp [hleft]
    · -- the loop observed the raised flag; the flag stays up, so the
      -- post-loop check also reads true
      have hc3 : env.cancel (runFilesLoop env job job.files 0
          job.files.length st0).st.checks = true :=
        hs4 _ (Nat.le_refl _)
      rcases htail with ⟨-, rfl⟩ | ⟨hflag, -⟩
      · refine after_true_of_split _ pre
          (suf ++ [Ev.progress job.files.length job.files.length,
            Ev.check true, Ev.finishedSig]) _ ?_ hs2 ?_
        · rw [hworker, hevs, hs1]
          simp
        · intro e hmem
          simp only [List.mem_append, List.mem_cons, List.mem_singleton] at hmem
          rcases hmem with h | rfl | rfl | h
          · rcases hs3 e h with rfl | rfl <;> simp [allowedAfterCancel]
          · simp [allowedAfterCancel]
          · simp [allowedAfterCancel]
          · rcases h with rfl | h
            · simp [allowedAfterCancel]
            · exact absurd h (by simp)
      · rw [hflag] at hc3
        simp at hc3

end Srt

namespace Srt

/-- Witness for C6: with the flag raised from check index 1 on, the run
emits the terminal progress and, after the observed raised flag, only
wrap-up events. -/
theorem cancellation_stops_witness :
    Ev.progress jobDe.files.length jobDe.files.length ∈ (runWorker envC10 jobDe).2 ∧
    (∀ i j e, i < j →
      (runWorker envC10 jobDe).2.get? i = some (Ev.check true) →
      (runWorker envC10 jobDe).2.get? j = some e →
      e ∈ allowedAfterCancel jobDe.files.length) :=
  cancellation_stops envC10 jobDe (fun _ => rfl)
    (fun i j hij hi => by
      simp only [envC10, decide_eq_true_eq] at hi ⊢
      omega)

end Srt

namespace Srt

/-! ### String machinery for the protection round trip (claim C2) -/

/-- `isPrefixOf` extends along an appended tail. -/
theorem isPrefixOf_extend {p x : List Char} (y : List Char)
    (h : p.isPrefixOf x = true) : p.isPrefixOf (x ++ y) = true := by
  rw [List.isPrefixOf_iff_prefix] at h ⊢
  exact h.trans (List.prefix_append x y)

/-- A prefix decomposes the list. -/
theorem isPrefixOf_decomp {p s : List Char} (h : p.isPrefixOf s = true) :
    ∃ r, s = p ++ r := by
  rw [List.isPrefixOf_iff_prefix] at h
  obtain ⟨r, hr⟩ := h
  exact ⟨r, hr.symm⟩

/-- A prefix of `u ++ v` lies in `u` or covers all of `u` and continues in
`v`. -/
theorem prefix_split {p : List Char} :
    ∀ {u v : List Char}, p.isPrefixOf (u ++ v) = true →
      (p.length ≤ u.length ∧ p.isPrefixOf u = true) ∨
      (u.length < p.length ∧ u.isPrefixOf p = true ∧
        (p.drop u.length).isPrefixOf v = true) := by
  intro u
  induction u generalizing p with
  | nil =>
    intro v h
    cases p with
    | nil => exact Or.inl ⟨by simp, rfl⟩
    | cons c cs => exact Or.inr ⟨by simp, rfl, h⟩
  | cons a as ih =>
    intro v h
    cases p with
    | nil => exact Or.inl ⟨by simp, rfl⟩
    | cons c cs =>
      simp only [List.cons_append, List.isPrefixOf] at h
      obtain ⟨hca, hrest⟩ := Bool.and_eq_true_iff.mp h
      rcases ih hrest with ⟨h1, h2⟩ | ⟨h1, h2, h3⟩
      · exact Or.inl ⟨by simpa using Nat.succ_le_succ h1,
          by simp [List.isPrefixOf, hca, h2]⟩
      · refine Or.inr ⟨by simpa using Nat.succ_lt_succ h1,
          by simp [List.isPrefixOf, BEq.symm hca, h2], by simpa using h3⟩

/-- `containsSub` destructor: a contained substring splits the list. -/
theorem containsSub_elim {p s : List Char} (h : containsSub p s = true) :
    ∃ a b, s = a ++ p ++ b := by
  induction s with
  | nil =>
    refine ⟨[], [], ?_⟩
    unfold containsSub at h
    rw [List.isEmpty_iff] at h
    simp [h]
  | cons c cs ih =>
    unfold containsSub at h
    rcases Bool.or_eq_true_iff.mp h with h1 | h1
    · obtain ⟨r, hr⟩ := isPrefixOf_decomp h1
      exact ⟨[], r, by simp [hr]⟩
    · obtain ⟨a, b, hab⟩ := ih h1
      exact ⟨c :: a, b, by simp [hab]⟩

/-- Substring containment is transitive. -/
theorem containsSub_trans {x p s : List Char}
    (h1 : containsSub x p = true) (h2 : containsSub p s = true) :
    containsSub x s = true := by
  obtain ⟨a, b, hab⟩ := containsSub_elim h1
  obtain ⟨c, d, hcd⟩ := containsSub_elim h2
  exact containsSub_of_parts x (c ++ a) (b ++ d) s (by simp [hcd, hab])

/-- Substring freedom transfers to pieces of a decomposition. -/
theorem containsSub_false_of_parts {p s a b : List Char}
    (h : containsSub p s = false) (hd : s = a ++ b) :
    containsSub p a = false ∧ containsSub p b = false := by
  constructor
  · by_contra hc
    rw [Bool.not_eq_false] at hc
    obtain ⟨x, y, hxy⟩ := containsSub_elim hc
    rw [containsSub_of_parts p x (y ++ b) s (by simp [hd, hxy])] at h
    exact Bool.true_eq_false.mp h
  · by_contra hc
    rw [Bool.not_eq_false] at hc
    obtain ⟨x, y, hxy⟩ := containsSub_elim hc
    rw [containsSub_of_parts p (a ++ x) y s (by simp [hd, hxy])] at h
    exact Bool.true_eq_false.mp h

/-- `containsSub` in terms of occurrence positions. -/
theorem containsSub_false_iff {p s : List Char} :
    containsSub p s = false ↔ ∀ i, p.isPrefixOf (s.drop i) = false := by
  constructor
  · intro h i
    by_contra hc
    rw [Bool.not_eq_false] at hc
    obtain ⟨r, hr⟩ := isPrefixOf_decomp hc
    rw [containsSub_of_parts p (s.take i) r s
      (by conv_lhs => rw [← List.take_append_drop i s]
          rw [hr, List.append_assoc])] at h
    exact Bool.true_eq_false.mp h
  · intro h
    by_contra hc
    rw [Bool.not_eq_false] at hc
    obtain ⟨a, b, hab⟩ := containsSub_elim hc
    have : p.isPrefixOf (s.drop a.length) = true := by
      rw [hab]
      simp only [List.append_assoc, List.drop_left]
      exact isPrefixOf_extend b (by rw [List.isPrefixOf_iff_prefix])
    rw [h a.length] at this
    exact Bool.false_eq_true.mp this

end Srt

namespace Srt

/-- `replaceAllFuel` ignores surplus fuel (for nonempty patterns). -/
theorem replaceAllFuel_fuel (pat rep : List Char) (hp : pat ≠ []) :
    ∀ f1 f2 s, s.length ≤ f1 → s.length ≤ f2 →
      replaceAllFuel pat rep f1 s = replaceAllFuel pat rep f2 s := by
  intro f1
  induction f1 with
  | zero =>
    intro f2 s h1 _
    rw [Nat.le_zero, List.length_eq_zero] at h1
    subst h1
    cases f2 <;> rfl
  | succ g1 ih =>
    intro f2 s h1 h2
    cases s with
    | nil => cases f2 <;> rfl
    | cons c cs =>
      cases f2 with
      | zero => simp at h2
      | succ g2 =>
        simp only [replaceAllFuel]
        by_cases hpre : pat.isPrefixOf (c :: cs) = true
        · rw [if_pos hpre, if_pos hpre]
          congr 1
          apply ih
          · have hplen : 1 ≤ pat.length := by
              cases pat with
              | nil => exact absurd rfl hp
              | cons _ _ => simp
            simp only [List.length_drop, List.length_cons]
            simp only [List.length_cons] at h1
            omega
          · have hplen : 1 ≤ pat.length := by
              cases pat with
              | nil => exact absurd rfl hp
              | cons _ _ => simp
            simp only [List.length_drop, List.length_cons]
            simp only [List.length_cons] at h2
            omega
        · rw [if_neg hpre, if_neg hpre]
          congr 1
          apply ih
          · simp only [List.length_cons] at h1; omega
          · simp only [List.length_cons] at h2; omega

/-- `replaceAll` on the empty string. -/
theorem replaceAll_nil_s (pat rep : List Char) : replaceAll pat rep [] = [] := by
  unfold replaceAll
  split <;> rfl

/-- `replaceAll` fires on a leading occurrence of the pattern. -/
theorem replaceAll_pos (pat rep z : List Char) (hp : pat ≠ []) :
    replaceAll pat rep (pat ++ z) = rep ++ replaceAll pat rep z := by
  have hpe : pat.isEmpty = false := by
    cases pat with
    | nil => exact absurd rfl hp
    | cons _ _ => rfl
  cases pat with
  | nil => exact absurd rfl hp
  | cons c cs =>
    simp only [replaceAll, hpe, Bool.false_eq_true, if_false, List.cons_append,
      List.length_cons, List.length_append]
    simp only [replaceAllFuel]
    have hpre : (c :: cs).isPrefixOf (c :: (cs ++ z)) = true := by
      rw [List.isPrefixOf_iff_prefix]
      exact ⟨z, by simp⟩
    rw [if_pos hpre]
    congr 1
    have hdrop : (c :: (cs ++ z)).drop (c :: cs).length = z := by
      have : (c :: (cs ++ z)) = (c :: cs) ++ z := by simp
      rw [this, List.drop_left]
    rw [hdrop]
    exact replaceAllFuel_fuel (c :: cs) rep (by simp) _ _ z
      (by omega) (le_refl _)

/-- `replaceAll` walks past a position where the pattern does not start. -/
theorem replaceAll_skip (pat rep : List Char) (c : Char) (cs : List Char)
    (h : pat.isPrefixOf (c :: cs) = false) :
    replaceAll pat rep (c :: cs) = c :: replaceAll pat rep cs := by
  have hp : pat ≠ [] := by
    intro he
    subst he
    simp [List.isPrefixOf] at h
  have hpe : pat.isEmpty = false := by
    cases pat with
    | nil => exact absurd rfl hp
    | cons _ _ => rfl
  simp only [replaceAll, hpe, Bool.false_eq_true, if_false, List.length_cons]
  simp only [replaceAllFuel, h, Bool.false_eq_true, if_false]

/-- With no occurrence of the pattern, `replaceAll` is the identity. -/
theorem replaceAll_not_contains (pat rep : List Char) :
    ∀ s, containsSub pat s = false → replaceAll pat rep s = s := by
  intro s
  induction s with
  | nil => intro _; exact replaceAll_nil_s pat rep
  | cons c cs ih =>
    intro h
    unfold containsSub at h
    rw [Bool.or_eq_false_iff] at h
    rw [replaceAll_skip pat rep c cs h.1, ih h.2]

/-- Every occurrence of the pattern starting in `x` (with `y` appended) stays
inside `x`: splitting at the seam commutes with replacement. -/
def SafeSplit (pat x y : List Char) : Prop :=
  ∀ i, i < x.length → pat.isPrefixOf (x.drop i ++ y) = true →
    pat.length + i ≤ x.length

/-- No occurrence of the pattern starts inside `x` (with `y` appended). -/
def NoStart (pat x y : List Char) : Prop :=
  ∀ i, i < x.length → pat.isPrefixOf (x.drop i ++ y) = false

/-- The conditional homomorphism: under `SafeSplit`, replacement distributes
over append. -/
theorem replaceAll_append (pat rep : List Char) (hp : pat ≠ []) :
    ∀ N x y, x.length ≤ N → SafeSplit pat x y →
      replaceAll pat rep (x ++ y) =
        replaceAll pat rep x ++ replaceAll pat rep y := by
  have hplen : 1 ≤ pat.length := by
    cases pat with
    | nil => exact absurd rfl hp
    | cons _ _ => simp
  intro N
  induction N with
  | zero =>
    intro x y h1 _
    rw [Nat.le_zero, List.length_eq_zero] at h1
    subst h1
    simp [replaceAll_nil_s]
  | succ g ih =>
    intro x y h1 hs
    cases x with
    | nil => simp [replaceAll_nil_s]
    | cons c cs =>
      by_cases hpre : pat.isPrefixOf ((c :: cs) ++ y) = true
      · have hlen : pat.length ≤ (c :: cs).length := by
          have := hs 0 (by simp) (by simpa using hpre)
          omega
        have hprex : pat.isPrefixOf (c :: cs) = true := by
          rcases prefix_split hpre with ⟨_, h2⟩ | ⟨h2, _⟩
          · exact h2
          · omega
        obtain ⟨x', hx'⟩ := isPrefixOf_decomp hprex
        have hx'len : x'.length ≤ g := by
          have : (c :: cs).length = pat.length + x'.length := by
            rw [hx', List.length_append]
          simp only [List.length_cons] at h1 this
          omega
        have hdropx : ∀ i, x'.drop i = (c :: cs).drop (pat.length + i) := by
          intro i
          rw [hx', ← List.drop_drop, List.drop_left]
        have hs' : SafeSplit pat x' y := by
          intro i hi hq
          have hbig := hs (pat.length + i)
            (by rw [hx', List.length_append]; omega)
            (by rw [← hdropx i]; exact hq)
          rw [hx', List.length_append] at hbig
          omega
        rw [hx']
        rw [List.append_assoc, replaceAll_pos pat rep (x' ++ y) hp,
          replaceAll_pos pat rep x' hp, ih x' y hx'len hs', List.append_assoc]
      · have hprex : pat.isPrefixOf (c :: cs) = false := by
          by_contra hc
          rw [Bool.not_eq_false] at hc
          rw [isPrefixOf_extend y hc] at hpre
          exact hpre rfl
        rw [Bool.not_eq_true] at hpre
        have hs' : SafeSplit pat cs y := by
          intro i hi hq
          have := hs (i + 1) (by simp only [List.length_cons]; omega)
            (by simpa using hq)
          simp only [List.length_cons] at this ⊢
          omega
        rw [List.cons_append, replaceAll_skip pat rep c (cs ++ y)
          (by simpa using hpre), replaceAll_skip pat rep c cs hprex,
          ih cs y (by simp only [List.length_cons] at h1; omega) hs',
          List.cons_append]

/-- Under `NoStart`, the left part passes through replacement unchanged. -/
theorem replaceAll_append_noStart {pat x y : List Char} (rep : List Char)
    (hp : pat ≠ []) (hn : NoStart pat x y) :
    replaceAll pat rep (x ++ y) = x ++ replaceAll pat rep y := by
  have hs : SafeSplit pat x y := by
    intro i hi hq
    rw [hn i hi] at hq
    exact absurd hq (by simp)
  rw [replaceAll_append pat rep hp x.length x y (le_refl _) hs]
  congr 1
  apply replaceAll_not_contains
  rw [containsSub_false_iff]
  intro i
  by_cases hi : i < x.length
  · by_contra hc
    rw [Bool.not_eq_false] at hc
    have h2 := isPrefixOf_extend y hc
    rw [hn i hi] at h2
    exact absurd h2 (by simp)
  · rw [List.drop_eq_nil_of_le (by omega)]
    cases pat with
    | nil => exact absurd rfl hp
    | cons _ _ => rfl

end Srt

namespace Srt

/-! ### Shapes of the protected fragments (claim C2) -/

/-- Distinct characters when exactly one is a digit. -/
theorem digit_ne_nondigit {c d : Char} (hc : c.isDigit = true)
    (hd : d.isDigit = false) : c ≠ d := by
  intro h
  subst h
  rw [hc] at hd
  exact Bool.true_eq_false.mp hd

/-- A head mismatch refutes `isPrefixOf`. -/
theorem isPrefixOf_cons_ne {c d : Char} (p s : List Char) (h : c ≠ d) :
    (c :: p).isPrefixOf (d :: s) = false := by
  simp only [List.isPrefixOf, Bool.and_eq_false_iff]
  exact Or.inl (by simpa using h)

/-- A nonempty pattern is never a prefix of the empty list. -/
theorem isPrefixOf_nil_false {p : List Char} (hp : p ≠ []) :
    p.isPrefixOf ([] : List Char) = false := by
  cases p with
  | nil => exact absurd rfl hp
  | cons _ _ => rfl

/-- Matching `u ++ ['>']` against `mid ++ '>' :: y` with `'>'`-free `u` and
`mid` forces `u = mid` (the first `'>'` of both sides must line up). -/
theorem gt_prefix_eq {u : List Char} :
    ∀ {mid y : List Char}, '>' ∉ u → '>' ∉ mid →
      (u ++ ['>']).isPrefixOf (mid ++ '>' :: y) = true → u = mid := by
  induction u with
  | nil =>
    intro mid y _ hmid h
    cases mid with
    | nil => rfl
    | cons m ms =>
      have hm : '>' ≠ m := fun he => hmid (by rw [← he]; simp)
      rw [List.nil_append, List.cons_append,
        isPrefixOf_cons_ne [] (ms ++ '>' :: y) hm] at h
      exact absurd h (by simp)
  | cons a as ih =>
    intro mid y hu hmid h
    cases mid with
    | nil =>
      have ha : a ≠ '>' := fun he => hu (by rw [← he]; simp)
      rw [List.cons_append, List.nil_append,
        isPrefixOf_cons_ne (as ++ ['>']) y ha] at h
      exact absurd h (by simp)
    | cons m ms =>
      simp only [List.cons_append, List.isPrefixOf, Bool.and_eq_true_iff] at h
      obtain ⟨ham, hrest⟩ := h
      have ham' : a = m := by simpa using ham
      rw [ham', ih (fun hx => hu (List.mem_cons_of_mem a hx))
        (fun hx => hmid (List.mem_cons_of_mem m hx)) hrest]

/-- `digitChar` of a small number is a digit character. -/
theorem digitChar_isDigit {n : Nat} (h : n < 10) :
    (digitChar n).isDigit = true := by
  interval_cases n <;> decide

/-- Numeric value of `digitChar`. -/
theorem digitChar_toNat {n : Nat} (h : n < 10) :
    (digitChar n).toNat = 48 + n := by
  interval_cases n <;> decide

/-- Every character of a decimal rendering is a digit. -/
theorem toDecFuel_digits :
    ∀ fuel n, ∀ c ∈ toDecFuel fuel n, c.isDigit = true := by
  intro fuel
  induction fuel with
  | zero => intro n c hc; simp [toDecFuel] at hc
  | succ g ih =>
    intro n c hc
    unfold toDecFuel at hc
    split at hc
    · rename_i h10
      rw [List.mem_singleton] at hc
      rw [hc]
      exact digitChar_isDigit h10
    · rw [List.mem_append] at hc
      rcases hc with hc | hc
      · exact ih _ c hc
      · rw [List.mem_singleton] at hc
        rw [hc]
        exact digitChar_isDigit (Nat.mod_lt n (by omega))

/-- Every character of `toDec` is a digit. -/
theorem toDec_digits (n : Nat) : ∀ c ∈ toDec n, c.isDigit = true :=
  toDecFuel_digits (n + 1) n

/-- `toDec` never yields the empty list. -/
theorem toDec_ne_nil (n : Nat) : toDec n ≠ [] := by
  unfold toDec toDecFuel
  split <;> simp

/-- Decimal value of a digit string. -/
def digitsVal (l : List Char) : Nat :=
  l.foldl (fun a c => 10 * a + (c.toNat - 48)) 0

/-- `toDecFuel` renders the value faithfully. -/
theorem toDecFuel_val : ∀ fuel n, n < fuel →
    digitsVal (toDecFuel fuel n) = n := by
  intro fuel
  induction fuel with
  | zero => intro n h; omega
  | succ g ih =>
    intro n hn
    unfold toDecFuel
    split
    · rename_i h10
      show digitsVal [digitChar n] = n
      unfold digitsVal
      simp only [List.foldl_cons, List.foldl_nil, Nat.mul_zero, Nat.zero_add]
      rw [digitChar_toNat h10]
      omega
    · rename_i h10
      unfold digitsVal
      rw [List.foldl_append]
      simp only [List.foldl_cons, List.foldl_nil]
      have hval : List.foldl (fun a c => 10 * a + (c.toNat - 48)) 0
          (toDecFuel g (n / 10)) = n / 10 := ih (n / 10) (by omega)
      rw [hval, digitChar_toNat (show n % 10 < 10 by omega)]
      omega

/-- `toDec` renders the value faithfully. -/
theorem toDec_val (n : Nat) : digitsVal (toDec n) = n :=
  toDecFuel_val (n + 1) n (by omega)

/-- `toDec` is injective. -/
theorem toDec_inj {a b : Nat} (h : toDec a = toDec b) : a = b := by
  rw [← toDec_val a, ← toDec_val b, h]

/-- Family names have four characters. -/
theorem famStr_length (f : Fam) : (famStr f).length = 4 := by
  cases f <;> rfl

/-- Family-name characters are letters: no digits, no angle brackets, no
underscore. -/
theorem famStr_chars (f : Fam) :
    ∀ c ∈ famStr f, c.isDigit = false ∧ c ≠ '<' ∧ c ≠ '>' := by
  cases f <;> decide

/-- Family names determine the family. -/
theorem famStr_inj : ∀ f g : Fam, famStr f = famStr g → f = g := by
  intro f g h
  cases f <;> cases g <;> first | rfl | exact absurd h (by decide)

/-- The reserved seed of a placeholder family (`<TIME_`, `<BTAG_`,
`<ETAG_`). -/
def seedOf (f : Fam) : List Char := '<' :: (famStr f ++ ['_'])

/-- A text is clean when it contains none of the three reserved seeds: no
substring `<TIME_`, `<BTAG_` or `<ETAG_`. -/
def Clean (s : List Char) : Prop :=
  containsSub (seedOf Fam.time) s = false ∧
  containsSub (seedOf Fam.btag) s = false ∧
  containsSub (seedOf Fam.etag) s = false

/-- A placeholder string starts with its family seed. -/
theorem phStr_eq_seed (f : Fam) (i : Nat) :
    phStr f i = seedOf f ++ (toDec i ++ ['>']) := by
  simp [phStr, seedOf, List.append_assoc]

/-- A placeholder string contains its family seed as a substring. -/
theorem phStr_contains_seed (f : Fam) (i : Nat) :
    containsSub (seedOf f) (phStr f i) = true :=
  containsSub_of_parts _ [] (toDec i ++ ['>']) _
    (by rw [phStr_eq_seed]; simp)

/-- A placeholder string is not clean. -/
theorem phStr_not_clean (f : Fam) (i : Nat) : ¬ Clean (phStr f i) := by
  intro hc
  obtain ⟨h1, h2, h3⟩ := hc
  have := phStr_contains_seed f i
  cases f
  · rw [h1] at this; exact Bool.false_eq_true.mp this
  · rw [h2] at this; exact Bool.false_eq_true.mp this
  · rw [h3] at this; exact Bool.false_eq_true.mp this

/-- A clean string therefore contains no placeholder string. -/
theorem clean_no_ph {s : List Char} (hs : Clean s) (f : Fam) (i : Nat) :
    containsSub (phStr f i) s = false := by
  by_contra hc
  rw [Bool.not_eq_false] at hc
  have hseed := containsSub_trans (phStr_contains_seed f i) hc
  obtain ⟨h1, h2, h3⟩ := hs
  cases f
  · rw [h1] at hseed; exact Bool.false_eq_true.mp hseed
  · rw [h2] at hseed; exact Bool.false_eq_true.mp hseed
  · rw [h3] at hseed; exact Bool.false_eq_true.mp hseed

/-- Structure of a placeholder: `'<'`, a bracket-free nonempty middle, `'>'`. -/
theorem phStr_decomp (f : Fam) (i : Nat) :
    ∃ mid, phStr f i = '<' :: (mid ++ ['>']) ∧ '<' ∉ mid ∧ '>' ∉ mid ∧
      mid ≠ [] := by
  refine ⟨famStr f ++ '_' :: toDec i, by simp [phStr], ?_, ?_, by simp⟩
  · intro hmem
    rw [List.mem_append] at hmem
    rcases hmem with h | h
    · exact (famStr_chars f _ h).2.1 rfl
    · rw [List.mem_cons] at h
      rcases h with h | h
      · exact absurd h (by decide)
      · exact digit_ne_nondigit (toDec_digits i _ h) (by decide) rfl
  · intro hmem
    rw [List.mem_append] at hmem
    rcases hmem with h | h
    · exact (famStr_chars f _ h).2.2 rfl
    · rw [List.mem_cons] at h
      rcases h with h | h
      · exact absurd h (by decide)
      · exact digit_ne_nondigit (toDec_digits i _ h) (by decide) rfl

/-- Placeholders are pairwise distinct across families and indices. -/
theorem phStr_inj {f g : Fam} {i j : Nat} (h : phStr f i = phStr g j) :
    f = g ∧ i = j := by
  unfold phStr at h
  rw [List.cons.injEq] at h
  have h2 := h.2
  have hsplit := List.append_inj h2
    (by rw [famStr_length, famStr_length])
  obtain ⟨hf, hr⟩ := hsplit
  refine ⟨famStr_inj f g hf, ?_⟩
  rw [List.cons.injEq] at hr
  have h3 := hr.2
  have h4 : toDec i = toDec j :=
    List.append_inj' h3 (by rfl) |>.1
  exact toDec_inj h4

/-- Length of a placeholder. -/
theorem phStr_length (f : Fam) (i : Nat) :
    (phStr f i).length = (toDec i).length + 7 := by
  simp [phStr, famStr_length]
  omega

end Srt

namespace Srt

/-- Shape of a protected timestamp: an exact match of `\d{2}:\d{2}:\d{2},\d{3}`. -/
def TcShape (s : List Char) : Prop := matchesExact tcShortPat s = true

/-- Shape of a protected full tag: `'<'`, a nonempty `'>'`-free body, `'>'`. -/
def TagShape (s : List Char) : Prop :=
  ∃ u, u ≠ [] ∧ '>' ∉ u ∧ s = '<' :: (u ++ ['>'])

/-- An original protected fragment is a timestamp or a full tag. -/
def OrigShape (s : List Char) : Prop := TcShape s ∨ TagShape s

/-- A placeholder string. -/
def PhShape (p : List Char) : Prop := ∃ f i, p = phStr f i

/-- Eliminator for a digit slot of `matchPat`. -/
theorem matchPat_none_elim {ps : Pat} {s m r : List Char}
    (h : matchPat (none :: ps) s = some (m, r)) :
    ∃ c cs m', s = c :: cs ∧ c.isDigit = true ∧ m = c :: m' ∧
      matchPat ps cs = some (m', r) := by
  cases s with
  | nil => simp [matchPat] at h
  | cons c cs =>
    simp only [matchPat] at h
    split at h
    · rename_i hok
      cases hrec : matchPat ps cs with
      | none => rw [hrec] at h; simp at h
      | some pr =>
        rw [hrec] at h
        obtain ⟨m', r'⟩ := pr
        simp only [Option.some.injEq, Prod.mk.injEq] at h
        obtain ⟨hm, hr⟩ := h
        exact ⟨c, cs, m', rfl, hok, hm.symm, by rw [hrec, hr]⟩
    · simp at h

/-- Eliminator for a literal slot of `matchPat`. -/
theorem matchPat_lit_elim {l : Char} {ps : Pat} {s m r : List Char}
    (h : matchPat (some l :: ps) s = some (m, r)) :
    ∃ cs m', s = l :: cs ∧ m = l :: m' ∧ matchPat ps cs = some (m', r) := by
  cases s with
  | nil => simp [matchPat] at h
  | cons c cs =>
    simp only [matchPat] at h
    split at h
    · rename_i hok
      have hcl : c = l := by simpa using hok
      cases hrec : matchPat ps cs with
      | none => rw [hrec] at h; simp at h
      | some pr =>
        rw [hrec] at h
        obtain ⟨m', r'⟩ := pr
        simp only [Option.some.injEq, Prod.mk.injEq] at h
        obtain ⟨hm, hr⟩ := h
        exact ⟨cs, m', by rw [hcl], by rw [← hm, hcl], by rw [hrec, hr]⟩
    · simp at h

/-- Every matched character comes from some pattern slot. -/
theorem matchPat_mem {pat : Pat} :
    ∀ {s m r : List Char}, matchPat pat s = some (m, r) → ∀ c ∈ m,
      ∃ po ∈ pat, (po = none ∧ c.isDigit = true) ∨ po = some c := by
  induction pat with
  | nil =>
    intro s m r h c hc
    simp [matchPat] at h
    rw [h.1] at hc
    simp at hc
  | cons p ps ih =>
    intro s m r h c hc
    cases s with
    | nil => simp [matchPat] at h
    | cons c0 cs =>
      simp only [matchPat] at h
      split at h
      · rename_i hok
        cases hrec : matchPat ps cs with
        | none => rw [hrec] at h; simp at h
        | some pr =>
          rw [hrec] at h
          obtain ⟨m', r'⟩ := pr
          simp only [Option.some.injEq, Prod.mk.injEq] at h
          obtain ⟨hm, _⟩ := h
          rw [← hm, List.mem_cons] at hc
          rcases hc with hc | hc
          · subst hc
            cases p with
            | none => exact ⟨none, by simp, Or.inl ⟨rfl, hok⟩⟩
            | some l =>
              have hcl : c = l := by simpa using hok
              exact ⟨some l, by simp, Or.inr (by rw [hcl])⟩
          · obtain ⟨po, hpo, hor⟩ := ih hrec c hc
            exact ⟨po, List.mem_cons_of_mem p hpo, hor⟩
      · simp at h

/-- The timestamp pattern written out. -/
theorem tcShortPat_eq : tcShortPat = none :: none :: some ':' ::
    (dd ++ [some ':'] ++ dd ++ [some ','] ++ [none, none, none]) := rfl

/-- Slots of the timestamp pattern. -/
theorem tcPat_slots : ∀ po ∈ tcShortPat,
    po = none ∨ po = some ':' ∨ po = some ',' := by
  decide

/-- A timestamp starts with two digits and a colon. -/
theorem tcShape_head {s : List Char} (h : TcShape s) :
    ∃ d0 d1 r, s = d0 :: d1 :: ':' :: r ∧ d0.isDigit = true ∧
      d1.isDigit = true := by
  have hm := matchesExact_elim h
  rw [tcShortPat_eq] at hm
  obtain ⟨c0, cs0, m0, hs0, hd0, _, hrec0⟩ := matchPat_none_elim hm
  obtain ⟨c1, cs1, m1, hs1, hd1, _, hrec1⟩ := matchPat_none_elim hrec0
  obtain ⟨cs2, m2, hs2, _, _⟩ := matchPat_lit_elim hrec1
  exact ⟨c0, c1, cs2, by rw [hs0, hs1, hs2], hd0, hd1⟩

/-- Every character of a timestamp is a digit, `':'` or `','`. -/
theorem tcShape_chars {s : List Char} (h : TcShape s) :
    ∀ c ∈ s, c.isDigit = true ∨ c = ':' ∨ c = ',' := by
  have hm := matchesExact_elim h
  intro c hc
  obtain ⟨po, hpo, hor⟩ := matchPat_mem hm c hc
  rcases tcPat_slots po hpo with h1 | h1 | h1
  · rcases hor with ⟨_, hd⟩ | h2
    · exact Or.inl hd
    · rw [h1] at h2; exact absurd h2 (by simp)
  · rcases hor with ⟨h2, _⟩ | h2
    · rw [h1] at h2; exact absurd h2 (by simp)
    · rw [h1] at h2
      exact Or.inr (Or.inl (Option.some.inj h2).symm)
  · rcases hor with ⟨h2, _⟩ | h2
    · rw [h1] at h2; exact absurd h2 (by simp)
    · rw [h1] at h2
      exact Or.inr (Or.inr (Option.some.inj h2).symm)

/-- Timestamps contain no angle bracket. -/
theorem tcShape_no_angle {s : List Char} (h : TcShape s) :
    ∀ c ∈ s, c ≠ '<' ∧ c ≠ '>' := by
  intro c hc
  rcases tcShape_chars h c hc with h1 | h1 | h1
  · exact ⟨digit_ne_nondigit h1 (by decide), digit_ne_nondigit h1 (by decide)⟩
  · rw [h1]; exact ⟨by decide, by decide⟩
  · rw [h1]; exact ⟨by decide, by decide⟩

end Srt

namespace Srt

/-- Family names written out. -/
theorem famStr_time_eq : famStr Fam.time = ['T', 'I', 'M', 'E'] := by decide

theorem famStr_btag_eq : famStr Fam.btag = ['B', 'T', 'A', 'G'] := by decide

theorem famStr_etag_eq : famStr Fam.etag = ['E', 'T', 'A', 'G'] := by decide

/-- Dropping into a placeholder past its opening `'<'` yields either a digit
run closed by the final `'>'`, or a suffix headed by a non-`'<'`, non-digit,
non-`'>'` character (a family letter or the underscore). -/
theorem ph_drop_cases {f : Fam} {k i : Nat} (h1 : 1 ≤ i)
    (h2 : i < (phStr f k).length) :
    (∃ ds, (phStr f k).drop i = ds ++ ['>'] ∧ ∀ c ∈ ds, c.isDigit = true) ∨
    (∃ c t, (phStr f k).drop i = c :: t ∧ c ≠ '<' ∧ c.isDigit = false ∧
      c ≠ '>') := by
  obtain ⟨j, rfl⟩ : ∃ j, i = j + 1 := ⟨i - 1, by omega⟩
  have hlen := phStr_length f k
  have hdrop1 : (phStr f k).drop (j + 1)
      = (famStr f ++ '_' :: (toDec k ++ ['>'])).drop j := by
    show (('<' :: (famStr f ++ '_' :: (toDec k ++ ['>']))).drop (j + 1)) = _
    rw [List.drop_succ_cons]
  rw [hdrop1, List.drop_append_eq_append_drop, famStr_length f]
  by_cases hj : j < 4
  · right
    rw [show j - 4 = 0 by omega, List.drop_zero]
    cases f <;>
      simp only [famStr_time_eq, famStr_btag_eq, famStr_etag_eq]
    all_goals interval_cases j
    all_goals exact ⟨_, _, rfl, by decide, by decide, by decide⟩
  · have hfd : (famStr f).drop j = [] :=
      List.drop_eq_nil_of_le (by rw [famStr_length]; omega)
    rw [hfd, List.nil_append]
    by_cases hj4 : j = 4
    · subst hj4
      right
      rw [show (4 : Nat) - 4 = 0 from rfl, List.drop_zero]
      exact ⟨_, _, rfl, by decide, by decide, by decide⟩
    · obtain ⟨n, rfl⟩ : ∃ n, j = n + 5 := ⟨j - 5, by omega⟩
      rw [show n + 5 - 4 = n + 1 by omega, List.drop_succ_cons,
        List.drop_append_eq_append_drop]
      have hn : n ≤ (toDec k).length := by omega
      rw [show n - (toDec k).length = 0 by omega, List.drop_zero]
      left
      exact ⟨(toDec k).drop n, rfl,
        fun c hc => toDec_digits k c (List.drop_subset _ _ hc)⟩

/-- Inside a placeholder (past the opening bracket) no character is `'<'`. -/
theorem ph_drop_head_ne {f : Fam} {k i : Nat} (h1 : 1 ≤ i)
    (h2 : i < (phStr f k).length) :
    ∃ c t, (phStr f k).drop i = c :: t ∧ c ≠ '<' := by
  rcases ph_drop_cases h1 h2 with ⟨ds, hds, hdig⟩ | ⟨c, t, hct, hne, _, _⟩
  · cases ds with
    | nil => exact ⟨'>', [], by simpa using hds, by decide⟩
    | cons d ds' =>
      refine ⟨d, ds' ++ ['>'], by simpa using hds, ?_⟩
      exact digit_ne_nondigit (hdig d (by simp)) (by decide)
  · exact ⟨c, t, hct, hne⟩

end Srt

namespace Srt

/-- A `\d\d:`-headed pattern never starts inside a digit run that is closed
by `'>'`. -/
theorem tc_no_prefix_digits {d0 d1 : Char} {rest ds y : List Char}
    (hd0 : d0.isDigit = true) (hd1 : d1.isDigit = true)
    (hds : ∀ c ∈ ds, c.isDigit = true) :
    (d0 :: d1 :: ':' :: rest).isPrefixOf (ds ++ '>' :: y) = false := by
  cases ds with
  | nil => exact isPrefixOf_cons_ne _ _ (digit_ne_nondigit hd0 (by decide))
  | cons a ds' =>
    cases ds' with
    | nil =>
      simp only [List.cons_append, List.nil_append, List.isPrefixOf]
      have h2 : (d1 == '>') = false := by
        rw [beq_eq_false_iff_ne]
        exact digit_ne_nondigit hd1 (by decide)
      rw [h2]
      simp
    | cons b ds'' =>
      simp only [List.cons_append, List.isPrefixOf, List.append_eq]
      have h3 : (':' :: rest).isPrefixOf (ds'' ++ '>' :: y) = false := by
        cases ds'' with
        | nil => exact isPrefixOf_cons_ne _ _ (by decide)
        | cons e es =>
          exact isPrefixOf_cons_ne _ _
            (Ne.symm (digit_ne_nondigit (hds e (by simp)) (by decide)))
      rw [h3]
      simp

/-- A clean original fragment (timestamp or tag) never starts inside a
placeholder, whatever follows. -/
theorem noStart_orig_ph {s' : List Char} {f : Fam} {k : Nat} (y : List Char)
    (hshape : OrigShape s') (hclean : Clean s') :
    NoStart s' (phStr f k) y := by
  intro i hi
  rcases hshape with htc | htag
  · obtain ⟨d0, d1, r, hs, hd0, hd1⟩ := tcShape_head htc
    by_cases hi0 : i = 0
    · subst hi0
      rw [List.drop_zero, hs,
        show phStr f k ++ y
          = '<' :: ((famStr f ++ '_' :: (toDec k ++ ['>'])) ++ y) from rfl]
      exact isPrefixOf_cons_ne _ _ (digit_ne_nondigit hd0 (by decide))
    · rcases ph_drop_cases (by omega) hi with
        ⟨ds, hds, hdig⟩ | ⟨c, t, hct, _, hcd, _⟩
      · rw [hds, hs, List.append_assoc,
          show ['>'] ++ y = '>' :: y from rfl]
        exact tc_no_prefix_digits hd0 hd1 hdig
      · rw [hct, hs, List.cons_append]
        exact isPrefixOf_cons_ne _ _ (digit_ne_nondigit hd0 hcd)
  · obtain ⟨u, hune, hugt, hs⟩ := htag
    by_cases hi0 : i = 0
    · subst hi0
      rw [List.drop_zero]
      by_contra hc
      rw [Bool.not_eq_false] at hc
      obtain ⟨mid, hmid, _, hmgt, _⟩ := phStr_decomp f k
      rw [hs, hmid, List.cons_append] at hc
      simp only [List.isPrefixOf, Bool.and_eq_true_iff] at hc
      obtain ⟨_, hc2⟩ := hc
      rw [List.append_assoc, show ['>'] ++ y = '>' :: y from rfl] at hc2
      have hueq := gt_prefix_eq hugt hmgt hc2
      have hsph : s' = phStr f k := by rw [hs, hmid, hueq]
      exact (phStr_not_clean f k) (hsph ▸ hclean)
    · obtain ⟨c, t, hct, hcne⟩ := ph_drop_head_ne (by omega) hi
      rw [hct, hs, List.cons_append]
      exact isPrefixOf_cons_ne _ _ (Ne.symm hcne)

/-- A placeholder never starts strictly inside a different placeholder. -/
theorem noStart_ph_ph {p : List Char} {f : Fam} {k : Nat} (y : List Char)
    (hp : PhShape p) (hne : p ≠ phStr f k) :
    NoStart p (phStr f k) y := by
  intro i hi
  obtain ⟨g, m, rfl⟩ := hp
  by_cases hi0 : i = 0
  · subst hi0
    rw [List.drop_zero]
    by_contra hc
    rw [Bool.not_eq_false] at hc
    obtain ⟨pmid, hpmid, _, hpgt, _⟩ := phStr_decomp g m
    obtain ⟨mid, hmid, _, hmgt, _⟩ := phStr_decomp f k
    rw [hpmid, hmid, List.cons_append] at hc
    simp only [List.isPrefixOf, Bool.and_eq_true_iff] at hc
    obtain ⟨_, hc2⟩ := hc
    rw [List.append_assoc, show ['>'] ++ y = '>' :: y from rfl] at hc2
    have hueq := gt_prefix_eq hpgt hmgt hc2
    exact hne (by rw [hpmid, hmid, hueq])
  · obtain ⟨c, t, hct, hcne⟩ := ph_drop_head_ne (by omega) hi
    rw [hct,
      show phStr g m = '<' :: (famStr g ++ '_' :: (toDec m ++ ['>'])) from rfl,
      List.cons_append]
    exact isPrefixOf_cons_ne _ _ (Ne.symm hcne)

/-- The continuation is empty or opens with `'<'`. -/
def YHead (y : List Char) : Prop := y = [] ∨ ∃ t, y = '<' :: t

/-- A placeholder never starts inside a clean raw fragment when the
continuation is empty or `'<'`-headed. -/
theorem noStart_ph_raw {p a y : List Char} (hp : PhShape p) (ha : Clean a)
    (hy : YHead y) : NoStart p a y := by
  intro i hi
  by_contra hc
  rw [Bool.not_eq_false] at hc
  rcases prefix_split hc with ⟨hlen, hpre⟩ | ⟨hlen, hpre, hsuf⟩
  · obtain ⟨g, m, rfl⟩ := hp
    obtain ⟨r, hr⟩ := isPrefixOf_decomp hpre
    have hcont : containsSub (phStr g m) a = true := by
      apply containsSub_of_parts _ (a.take i) r a
      conv_lhs => rw [← List.take_append_drop i a]
      rw [hr, List.append_assoc]
    rw [clean_no_ph ha g m] at hcont
    exact Bool.false_eq_true.mp hcont
  · have hm1 : 1 ≤ (List.drop i a).length := by
      rw [List.length_drop]; omega
    obtain ⟨g, m, rfl⟩ := hp
    obtain ⟨c, t, hct, hcne⟩ := ph_drop_head_ne hm1 hlen
    rw [hct] at hsuf
    rcases hy with rfl | ⟨t2, rfl⟩
    · rw [isPrefixOf_nil_false (by simp)] at hsuf
      exact Bool.false_eq_true.mp hsuf
    · rw [isPrefixOf_cons_ne _ _ hcne] at hsuf
      exact Bool.false_eq_true.mp hsuf

end Srt

namespace Srt

/-- An occurrence in `x ++ y` lies in `x`, lies in `y`, or spans the seam. -/
theorem containsSub_append_cases {p x y : List Char}
    (h : containsSub p (x ++ y) = true) :
    containsSub p x = true ∨ containsSub p y = true ∨
    ∃ i, i < x.length ∧ x.length < i + p.length ∧
      p.isPrefixOf (x.drop i ++ y) = true := by
  obtain ⟨a, b, hab⟩ := containsSub_elim h
  by_cases hax : x.length ≤ a.length
  · -- occurrence inside y
    refine Or.inr (Or.inl ?_)
    have hdrop : y.drop (a.length - x.length) = p ++ b := by
      have h1 : (x ++ y).drop a.length = p ++ b := by
        rw [hab, List.append_assoc, List.drop_left]
      rw [List.drop_append_eq_append_drop,
        List.drop_eq_nil_of_le hax, List.nil_append] at h1
      exact h1
    exact containsSub_of_parts p (y.take (a.length - x.length)) b y
      (by conv_lhs => rw [← List.take_append_drop (a.length - x.length) y]
          rw [hdrop, List.append_assoc])
  · push_neg at hax
    by_cases hfit : a.length + p.length ≤ x.length
    · -- occurrence inside x
      refine Or.inl ?_
      have h1 : (x ++ y).drop a.length = p ++ (b) := by
        rw [hab, List.append_assoc, List.drop_left]
      have h2 : x.drop a.length ++ y = p ++ b := by
        rw [← h1, List.drop_append_eq_append_drop,
          show a.length - x.length = 0 by omega, List.drop_zero]
      have h3 : p.isPrefixOf (x.drop a.length) = true := by
        rw [List.isPrefixOf_iff_prefix]
        refine List.prefix_of_prefix_length_le ⟨b, h2.symm⟩
          (List.take_append_drop a.length x ▸ ⟨y, rfl⟩ : x.drop a.length <+: x.drop a.length ++ y) ?_
        rw [List.length_drop]
        omega
      obtain ⟨r, hr⟩ := isPrefixOf_decomp h3
      exact containsSub_of_parts p (x.take a.length) r x
        (by conv_lhs => rw [← List.take_append_drop a.length x]
            rw [hr, List.append_assoc])
    · -- spanning
      push_neg at hfit
      refine Or.inr (Or.inr ⟨a.length, hax, by omega, ?_⟩)
      have h1 : (x ++ y).drop a.length = p ++ b := by
        rw [hab, List.append_assoc, List.drop_left]
      have h2 : x.drop a.length ++ y = p ++ b := by
        rw [← h1, List.drop_append_eq_append_drop,
          show a.length - x.length = 0 by omega, List.drop_zero]
      rw [List.isPrefixOf_iff_prefix]
      exact ⟨b, h2.symm⟩

end Srt

namespace Srt

/-- The continuation is empty or a placeholder followed by anything. -/
def YStruct (y : List Char) : Prop :=
  y = [] ∨ ∃ f k y2, y = phStr f k ++ y2

/-- A placeholder-headed continuation in particular opens with `'<'`. -/
theorem YStruct.toYHead {y : List Char} (h : YStruct y) : YHead y := by
  rcases h with rfl | ⟨f, k, y2, rfl⟩
  · exact Or.inl rfl
  · exact Or.inr ⟨(famStr f ++ '_' :: (toDec k ++ ['>'])) ++ y2, rfl⟩

/-- Every occurrence of a clean original fragment that starts in a raw piece
ends in it, provided the continuation is empty or placeholder-headed. -/
theorem safeSplit_orig_raw {s' a y : List Char} (hshape : OrigShape s')
    (hclean : Clean s') (hy : YStruct y) : SafeSplit s' a y := by
  intro i hi hpre
  by_contra hcnt
  push_neg at hcnt
  rcases prefix_split hpre with ⟨hlen, _⟩ | ⟨hlen, _, hsuf⟩
  · rw [List.length_drop] at hlen
    omega
  · have hm1 : 1 ≤ (List.drop i a).length := by
      rw [List.length_drop]; omega
    rcases hshape with htc | htag
    · -- a timestamp suffix starts with a digit, ':' or ','; the continuation
      -- is empty or '<'-headed
      obtain ⟨c, t, hct⟩ : ∃ c t, s'.drop (List.drop i a).length = c :: t := by
        cases hv : s'.drop (List.drop i a).length with
        | nil =>
          have := congrArg List.length hv
          rw [List.length_drop] at this
          simp at this
          omega
        | cons c t => exact ⟨c, t, rfl⟩
      have hcmem : c ∈ s' :=
        List.drop_subset _ s' (by rw [hct]; simp)
      have hcne : c ≠ '<' := (tcShape_no_angle htc c hcmem).1
      rw [hct] at hsuf
      rcases hy.toYHead with rfl | ⟨t2, rfl⟩
      · rw [isPrefixOf_nil_false (by simp)] at hsuf
        exact Bool.false_eq_true.mp hsuf
      · rw [isPrefixOf_cons_ne _ _ hcne] at hsuf
        exact Bool.false_eq_true.mp hsuf
    · -- a tag suffix is a '>'-free run closed by '>'; matching it against a
      -- placeholder forces the whole placeholder into s', breaking cleanness
      obtain ⟨u, hune, hugt, hs⟩ := htag
      have hslen : s'.length = u.length + 2 := by rw [hs]; simp
      have hdropv : s'.drop (List.drop i a).length
          = u.drop ((List.drop i a).length - 1) ++ ['>'] := by
        rw [hs]
        obtain ⟨n, hn⟩ : ∃ n, (List.drop i a).length = n + 1 :=
          ⟨(List.drop i a).length - 1, by omega⟩
        rw [hn, List.drop_succ_cons, List.drop_append_eq_append_drop,
          show n + 1 - 1 = n from rfl,
          show n - u.length = 0 by omega, List.drop_zero]
      have hwgt : '>' ∉ u.drop ((List.drop i a).length - 1) :=
        fun hmm => hugt (List.drop_subset _ _ hmm)
      rw [hdropv] at hsuf
      rcases hy with rfl | ⟨f, k, y2, rfl⟩
      · rw [isPrefixOf_nil_false (by simp)] at hsuf
        exact Bool.false_eq_true.mp hsuf
      · obtain ⟨mid, hmid, _, hmgt, _⟩ := phStr_decomp f k
        have hmgt' : '>' ∉ '<' :: mid := by
          intro hx
          rcases List.mem_cons.mp hx with hx | hx
          · exact absurd hx (by decide)
          · exact hmgt hx
        rw [hmid, show ('<' :: (mid ++ ['>'])) ++ y2
          = ('<' :: mid) ++ '>' :: y2 by simp] at hsuf
        have hveq := gt_prefix_eq hwgt hmgt' hsuf
        have hcont : containsSub (phStr f k) s' = true := by
          apply containsSub_of_parts _ (s'.take (List.drop i a).length) [] s'
          rw [List.append_nil]
          conv_lhs => rw [← List.take_append_drop (List.drop i a).length s']
          rw [hdropv, hveq, hmid]
          simp
        rw [clean_no_ph hclean f k] at hcont
        exact Bool.false_eq_true.mp hcont

/-- Seed characters: never `'>'` and never digits. -/
theorem seed_chars (f : Fam) :
    ∀ c ∈ seedOf f, c ≠ '>' ∧ c.isDigit = false := by
  cases f <;> decide

/-- Inside a seed (past the opening bracket) heads are neither `'<'` nor
digits. -/
theorem seed_drop_head (f : Fam) (m : Nat) (h1 : 1 ≤ m)
    (h2 : m < (seedOf f).length) :
    ∃ c t, (seedOf f).drop m = c :: t ∧ c ≠ '<' ∧ c.isDigit = false := by
  have h6 : (seedOf f).length = 6 := by cases f <;> decide
  rw [h6] at h2
  cases f <;> interval_cases m <;> exact ⟨_, _, rfl, by decide, by decide⟩

/-- The last character of the string is `'>'` or a digit. -/
def LastOK (x : List Char) : Prop :=
  ∃ x0 c, x = x0 ++ [c] ∧ (c = '>' ∨ c.isDigit = true)

/-- The first character of the string is `'<'` or a digit. -/
def FirstOK (x : List Char) : Prop :=
  ∃ c t, x = c :: t ∧ (c = '<' ∨ c.isDigit = true)

/-- Cleanness is preserved by appending after a `'>'`- or digit-terminated
clean string: no seed can span the seam leftwards. -/
theorem clean_append_left {x y : List Char} (hx : Clean x) (hy : Clean y)
    (hl : LastOK x) : Clean (x ++ y) := by
  obtain ⟨x0, c, hx0, hc⟩ := hl
  have key : ∀ f : Fam, containsSub (seedOf f) (x ++ y) = false := by
    intro f
    by_contra hcon
    rw [Bool.not_eq_false] at hcon
    rcases containsSub_append_cases hcon with h | h | ⟨i, hi, hsp, hpre⟩
    · cases f
      · rw [hx.1] at h; exact Bool.false_eq_true.mp h
      · rw [hx.2.1] at h; exact Bool.false_eq_true.mp h
      · rw [hx.2.2] at h; exact Bool.false_eq_true.mp h
    · cases f
      · rw [hy.1] at h; exact Bool.false_eq_true.mp h
      · rw [hy.2.1] at h; exact Bool.false_eq_true.mp h
      · rw [hy.2.2] at h; exact Bool.false_eq_true.mp h
    · -- the x-part of the spanning occurrence ends with x's last character,
      -- which would have to be a seed character
      rcases prefix_split hpre with ⟨hlen, _⟩ | ⟨_, hpre2, _⟩
      · rw [List.length_drop] at hlen; omega
      · have hcin : c ∈ x.drop i := by
          rw [hx0, List.drop_append_eq_append_drop]
          have : i - x0.length = 0 := by
            have := congrArg List.length hx0
            simp at this
            omega
          rw [this, List.drop_zero]
          simp
        have hcseed : c ∈ seedOf f := by
          rw [List.isPrefixOf_iff_prefix] at hpre2
          exact hpre2.subset hcin
        have := seed_chars f c hcseed
        rcases hc with hc | hc
        · exact this.1 hc
        · rw [hc] at this; exact Bool.true_eq_false.mp this.2
  exact ⟨key Fam.time, key Fam.btag, key Fam.etag⟩

/-- Cleanness is preserved by appending before a `'<'`- or digit-headed
clean string: no seed can span the seam rightwards. -/
theorem clean_append_right {x y : List Char} (hx : Clean x) (hy : Clean y)
    (hf : FirstOK y) : Clean (x ++ y) := by
  obtain ⟨c, t, hct, hc⟩ := hf
  have key : ∀ f : Fam, containsSub (seedOf f) (x ++ y) = false := by
    intro f
    by_contra hcon
    rw [Bool.not_eq_false] at hcon
    rcases containsSub_append_cases hcon with h | h | ⟨i, hi, hsp, hpre⟩
    · cases f
      · rw [hx.1] at h; exact Bool.false_eq_true.mp h
      · rw [hx.2.1] at h; exact Bool.false_eq_true.mp h
      · rw [hx.2.2] at h; exact Bool.false_eq_true.mp h
    · cases f
      · rw [hy.1] at h; exact Bool.false_eq_true.mp h
      · rw [hy.2.1] at h; exact Bool.false_eq_true.mp h
      · rw [hy.2.2] at h; exact Bool.false_eq_true.mp h
    · -- the seed continues past the seam with a letter or underscore, which
      -- cannot match y's '<'- or digit-head
      rcases prefix_split hpre with ⟨hlen, _⟩ | ⟨hlen, _, hsuf⟩
      · rw [List.length_drop] at hlen; omega
      · have hm1 : 1 ≤ (List.drop i x).length := by
          rw [List.length_drop]; omega
        obtain ⟨c2, t2, hct2, hne2, hnd2⟩ :=
          seed_drop_head f (List.drop i x).length hm1 hlen
        rw [hct2, hct] at hsuf
        have : (c2 == c) = false := by
          rw [beq_eq_false_iff_ne]
          rcases hc with hc | hc
          · rw [hc]; exact hne2
          · exact Ne.symm (digit_ne_nondigit hc hnd2)
        rw [List.isPrefixOf, this] at hsuf
        simp at hsuf
  exact ⟨key Fam.time, key Fam.btag, key Fam.etag⟩

/-- The empty string is clean. -/
theorem clean_nil : Clean [] := by
  refine ⟨?_, ?_, ?_⟩ <;> decide

/-- Substrings of a clean string are clean. -/
theorem clean_of_infix {x u v : List Char} (hx : Clean x)
    (hd : x = u ++ v) : Clean u ∧ Clean v := by
  obtain ⟨h1, h2, h3⟩ := hx
  obtain ⟨ha1, hb1⟩ := containsSub_false_of_parts h1 hd
  obtain ⟨ha2, hb2⟩ := containsSub_false_of_parts h2 hd
  obtain ⟨ha3, hb3⟩ := containsSub_false_of_parts h3 hd
  exact ⟨⟨ha1, ha2, ha3⟩, ⟨hb1, hb2, hb3⟩⟩

end Srt

namespace Srt

/-- A decomposition of the working text into raw fragments and inserted
placeholders.  A `ph p o` piece renders as the placeholder `p` and stands for
the original fragment `o`. -/
inductive Piece where
  | raw (s : List Char)
  | ph (p o : List Char)

/-- The working text represented by a piece list. -/
def render : List Piece → List Char
  | [] => []
  | Piece.raw s :: rest => s ++ render rest
  | Piece.ph p _ :: rest => p ++ render rest

/-- The fully restored text represented by a piece list. -/
def shadow : List Piece → List Char
  | [] => []
  | Piece.raw s :: rest => s ++ shadow rest
  | Piece.ph _ o :: rest => o ++ shadow rest

/-- The placeholders of a piece list, in order. -/
def phKeys : List Piece → List (List Char)
  | [] => []
  | Piece.raw _ :: rest => phKeys rest
  | Piece.ph p _ :: rest => p :: phKeys rest

theorem render_nil : render [] = [] := rfl

theorem render_raw (s : List Char) (rest : List Piece) :
    render (Piece.raw s :: rest) = s ++ render rest := rfl

theorem render_phc (p o : List Char) (rest : List Piece) :
    render (Piece.ph p o :: rest) = p ++ render rest := rfl

theorem shadow_nil : shadow [] = [] := rfl

theorem shadow_raw (s : List Char) (rest : List Piece) :
    shadow (Piece.raw s :: rest) = s ++ shadow rest := rfl

theorem shadow_phc (p o : List Char) (rest : List Piece) :
    shadow (Piece.ph p o :: rest) = o ++ shadow rest := rfl

theorem phKeys_raw (s : List Char) (rest : List Piece) :
    phKeys (Piece.raw s :: rest) = phKeys rest := rfl

theorem phKeys_phc (p o : List Char) (rest : List Piece) :
    phKeys (Piece.ph p o :: rest) = p :: phKeys rest := rfl

/-- Well-formedness of a single piece. -/
def PieceOK : Piece → Prop
  | Piece.raw s => Clean s
  | Piece.ph p o => PhShape p ∧ OrigShape o ∧ Clean o

/-- What may follow a raw piece: nothing, or a placeholder piece. -/
def rawThenOK : List Piece → Prop
  | Piece.raw _ :: _ => False
  | _ => True

/-- No two adjacent raw pieces. -/
def altOK : List Piece → Prop
  | [] => True
  | Piece.raw _ :: rest => rawThenOK rest ∧ altOK rest
  | Piece.ph _ _ :: rest => altOK rest

/-- The alternation-and-shape invariant of a piece list. -/
def Inv (ps : List Piece) : Prop := altOK ps ∧ ∀ pc ∈ ps, PieceOK pc

/-- After a raw piece the rendered continuation is empty or `'<'`-headed. -/
theorem render_yhead {ps : List Piece} (hok : ∀ pc ∈ ps, PieceOK pc)
    (hr : rawThenOK ps) : YHead (render ps) := by
  cases ps with
  | nil => exact Or.inl rfl
  | cons pc rest =>
    cases pc with
    | raw s => exact absurd hr (by simp [rawThenOK])
    | ph p o =>
      obtain ⟨⟨f, k, hfk⟩, _, _⟩ := hok (Piece.ph p o) (by simp)
      rw [render_phc, hfk]
      exact Or.inr ⟨(famStr f ++ '_' :: (toDec k ++ ['>'])) ++ render rest,
        rfl⟩

/-- After a raw piece the rendered continuation is empty or
placeholder-headed. -/
theorem render_ystruct {ps : List Piece} (hok : ∀ pc ∈ ps, PieceOK pc)
    (hr : rawThenOK ps) : YStruct (render ps) := by
  cases ps with
  | nil => exact Or.inl rfl
  | cons pc rest =>
    cases pc with
    | raw s => exact absurd hr (by simp [rawThenOK])
    | ph p o =>
      obtain ⟨⟨f, k, hfk⟩, _, _⟩ := hok (Piece.ph p o) (by simp)
      rw [render_phc, hfk]
      exact Or.inr ⟨f, k, render rest, rfl⟩

/-- With no placeholder pieces left, the text is fully restored. -/
theorem render_eq_shadow {ps : List Piece}
    (h : ∀ p o, Piece.ph p o ∉ ps) : render ps = shadow ps := by
  induction ps with
  | nil => rfl
  | cons pc rest ih =>
    cases pc with
    | raw s =>
      rw [render_raw, shadow_raw, ih (fun p o hm => h p o (by simp [hm]))]
    | ph p o => exact absurd (by simp) (h p o)

/-- The piece lists produced by splitting a raw fragment at the occurrences
of one original: raw pieces and `(ph', s')` pieces strictly alternating,
starting and ending raw. -/
inductive SplitSeq (ph' s' : List Char) : List Piece → Prop where
  | single (a : List Char) : SplitSeq ph' s' [Piece.raw a]
  | step (a : List Char) (rest : List Piece) : SplitSeq ph' s' rest →
      SplitSeq ph' s' (Piece.raw a :: Piece.ph ph' s' :: rest)

/-- Splitting a raw fragment along `replaceAll`: the result renders to the
replaced text and shadows back to the fragment. -/
theorem split_raw (s' ph' : List Char) (hs' : s' ≠ []) :
    ∀ N a, a.length ≤ N → ∃ subs, SplitSeq ph' s' subs ∧
      render subs = replaceAll s' ph' a ∧ shadow subs = a := by
  have hbase : ∃ subs, SplitSeq ph' s' subs ∧
      render subs = replaceAll s' ph' [] ∧ shadow subs = ([] : List Char) := by
    refine ⟨[Piece.raw []], SplitSeq.single [], ?_, rfl⟩
    rw [replaceAll_nil_s, render_raw, render_nil, List.append_nil]
  intro N
  induction N with
  | zero =>
    intro a ha
    rw [Nat.le_zero, List.length_eq_zero] at ha
    subst ha
    exact hbase
  | succ g ih =>
    intro a ha
    cases a with
    | nil => exact hbase
    | cons c cs =>
      by_cases hpre : s'.isPrefixOf (c :: cs) = true
      · obtain ⟨a2, ha2⟩ := isPrefixOf_decomp hpre
        have hs'len : 1 ≤ s'.length := by
          cases s' with
          | nil => exact absurd rfl hs'
          | cons _ _ => simp
        have ha2len : a2.length ≤ g := by
          have := congrArg List.length ha2
          simp only [List.length_cons, List.length_append] at this ha
          omega
        obtain ⟨subs2, hsplit2, hrender2, hshadow2⟩ := ih a2 ha2len
        refine ⟨Piece.raw [] :: Piece.ph ph' s' :: subs2,
          SplitSeq.step [] subs2 hsplit2, ?_, ?_⟩
        · rw [ha2, replaceAll_pos s' ph' a2 hs', render_raw, render_phc,
            hrender2, List.nil_append]
        · rw [shadow_raw, shadow_phc, hshadow2, ha2, List.nil_append]
      · rw [Bool.not_eq_true] at hpre
        obtain ⟨subs2, hsplit2, hrender2, hshadow2⟩ := ih cs
          (by simp only [List.length_cons] at ha; omega)
        obtain ⟨r0, rest2, hr0⟩ : ∃ r0 rest2, subs2 = Piece.raw r0 :: rest2 := by
          cases hsplit2 with
          | single a0 => exact ⟨a0, [], rfl⟩
          | step a0 rest hsp => exact ⟨a0, _, rfl⟩
        subst hr0
        refine ⟨Piece.raw (c :: r0) :: rest2, ?_, ?_, ?_⟩
        · cases hsplit2 with
          | single _ => exact SplitSeq.single _
          | step _ rest hsp => exact SplitSeq.step _ rest hsp
        · rw [render_raw, List.cons_append,
            ← render_raw r0 rest2, hrender2,
            replaceAll_skip s' ph' c cs hpre]
        · rw [shadow_raw, List.cons_append, ← shadow_raw r0 rest2, hshadow2]

/-- All placeholder pieces of a split carry the pair `(ph', s')`. -/
theorem splitSeq_pairs {ph' s' : List Char} {subs : List Piece}
    (hsp : SplitSeq ph' s' subs) :
    ∀ p o, Piece.ph p o ∈ subs → p = ph' ∧ o = s' := by
  induction hsp with
  | single a => intro p o hm; simp at hm
  | step a rest hsp ih =>
    intro p o hm
    rcases List.mem_cons.mp hm with hm | hm
    · exact absurd hm (by simp)
    · rcases List.mem_cons.mp hm with hm | hm
      · obtain ⟨h1, h2⟩ := Piece.ph.inj hm
        exact ⟨h1, h2⟩
      · exact ih p o hm

/-- Pieces of a split are well-formed when the split shadows to a clean
string and the inserted pair is well-formed. -/
theorem splitSeq_pieceOK {ph' s' : List Char} {subs : List Piece}
    (hsp : SplitSeq ph' s' subs) (hph : PhShape ph') (hor : OrigShape s')
    (hcl : Clean s') :
    Clean (shadow subs) → ∀ pc ∈ subs, PieceOK pc := by
  induction hsp with
  | single a =>
    intro hsh pc hm
    rw [List.mem_singleton] at hm
    subst hm
    show Clean a
    rw [shadow_raw, shadow_nil, List.append_nil] at hsh
    exact hsh
  | step a rest hsp ih =>
    intro hsh pc hm
    rw [shadow_raw, shadow_phc] at hsh
    have hsh1 := clean_of_infix hsh rfl
    have hsh2 := clean_of_infix hsh1.2 rfl
    rcases List.mem_cons.mp hm with hm | hm
    · subst hm
      exact hsh1.1
    · rcases List.mem_cons.mp hm with hm | hm
      · subst hm
        exact ⟨hph, hor, hcl⟩
      · exact ih hsh2.2 pc hm

/-- A split piece list glues onto an alternation-safe tail. -/
theorem splitSeq_altOK {ph' s' : List Char} {subs : List Piece}
    (hsp : SplitSeq ph' s' subs) {tail : List Piece} (htail : altOK tail)
    (hraw : rawThenOK tail) : altOK (subs ++ tail) := by
  induction hsp with
  | single a => exact ⟨hraw, htail⟩
  | step a rest hsp ih => exact ⟨trivial, ih⟩

/-- The keys of a split are all `ph'`. -/
theorem splitSeq_keys {ph' s' : List Char} {subs : List Piece}
    (hsp : SplitSeq ph' s' subs) : ∀ q ∈ phKeys subs, q = ph' := by
  induction hsp with
  | single a => intro q hq; simp [phKeys] at hq
  | step a rest hsp ih =>
    intro q hq
    rw [phKeys_raw, phKeys_phc, List.mem_cons] at hq
    rcases hq with hq | hq
    · exact hq
    · exact ih q hq

/-- Keys of an appended piece list. -/
theorem phKeys_append (xs ys : List Piece) :
    phKeys (xs ++ ys) = phKeys xs ++ phKeys ys := by
  induction xs with
  | nil => rfl
  | cons pc rest ih =>
    cases pc with
    | raw s => rw [List.cons_append, phKeys_raw, phKeys_raw, ih]
    | ph p o => rw [List.cons_append, phKeys_phc, phKeys_phc, ih, List.cons_append]

/-- Rendering an appended piece list. -/
theorem render_append (xs ys : List Piece) :
    render (xs ++ ys) = render xs ++ render ys := by
  induction xs with
  | nil => rfl
  | cons pc rest ih =>
    cases pc with
    | raw s => rw [List.cons_append, render_raw, render_raw, ih, List.append_assoc]
    | ph p o => rw [List.cons_append, render_phc, render_phc, ih, List.append_assoc]

/-- Shadowing an appended piece list. -/
theorem shadow_append (xs ys : List Piece) :
    shadow (xs ++ ys) = shadow xs ++ shadow ys := by
  induction xs with
  | nil => rfl
  | cons pc rest ih =>
    cases pc with
    | raw s => rw [List.cons_append, shadow_raw, shadow_raw, ih, List.append_assoc]
    | ph p o => rw [List.cons_append, shadow_phc, shadow_phc, ih, List.append_assoc]

end Srt

namespace Srt

/-- An original fragment is nonempty. -/
theorem origShape_ne_nil {s' : List Char} (h : OrigShape s') : s' ≠ [] := by
  rcases h with htc | htag
  · obtain ⟨d0, d1, r, hs, _, _⟩ := tcShape_head htc
    rw [hs]
    simp
  · obtain ⟨u, _, _, hs⟩ := htag
    rw [hs]
    simp

/-- One protection substitution, lifted to piece lists: replacing a clean
original by a placeholder splits raw pieces, leaves placeholder pieces
intact, and preserves the shadow text. -/
theorem step_protect {s' ph' : List Char} (hor : OrigShape s')
    (hcl : Clean s') (hph : PhShape ph') :
    ∀ pieces : List Piece, Inv pieces → ∃ pieces' : List Piece,
      Inv pieces' ∧
      render pieces' = replaceAll s' ph' (render pieces) ∧
      shadow pieces' = shadow pieces ∧
      (∀ q ∈ phKeys pieces', q ∈ phKeys pieces ∨ q = ph') ∧
      (∀ p o, Piece.ph p o ∈ pieces' →
        Piece.ph p o ∈ pieces ∨ (p = ph' ∧ o = s')) ∧
      (rawThenOK pieces → rawThenOK pieces') := by
  intro pieces
  induction pieces with
  | nil =>
    intro _
    refine ⟨[], ⟨trivial, by simp⟩, ?_, rfl, by simp [phKeys], by simp, fun h => h⟩
    rw [render_nil, replaceAll_nil_s]
  | cons pc rest ih =>
    intro hInv
    obtain ⟨haltok, hok⟩ := hInv
    cases pc with
    | ph q o =>
      have haltr : altOK rest := haltok
      obtain ⟨pieces2, hInv2, hrender2, hshadow2, hkeys2, hpairs2, _⟩ :=
        ih ⟨haltr, fun pc hm => hok pc (List.mem_cons_of_mem _ hm)⟩
      obtain ⟨hqsh, hosh, hocl⟩ := hok (Piece.ph q o) (by simp)
      obtain ⟨g, m, rfl⟩ := hqsh
      refine ⟨Piece.ph (phStr g m) o :: pieces2, ?_, ?_, ?_, ?_, ?_, ?_⟩
      · refine ⟨hInv2.1, ?_⟩
        intro pc hm
        rcases List.mem_cons.mp hm with hm | hm
        · subst hm
          exact ⟨⟨g, m, rfl⟩, hosh, hocl⟩
        · exact hInv2.2 pc hm
      · rw [render_phc, render_phc,
          replaceAll_append_noStart ph' (origShape_ne_nil hor)
            (noStart_orig_ph (render rest) hor hcl), hrender2]
      · rw [shadow_phc, shadow_phc, hshadow2]
      · intro q' hq'
        rw [phKeys_phc, List.mem_cons] at hq'
        rcases hq' with hq' | hq'
        · exact Or.inl (by rw [phKeys_phc, hq']; simp)
        · rcases hkeys2 q' hq' with h | h
          · exact Or.inl (by rw [phKeys_phc]; exact List.mem_cons_of_mem _ h)
          · exact Or.inr h
      · intro p o' hm
        rcases List.mem_cons.mp hm with hm | hm
        · exact Or.inl (by rw [hm]; simp)
        · rcases hpairs2 p o' hm with h | h
          · exact Or.inl (List.mem_cons_of_mem _ h)
          · exact Or.inr h
      · intro _
        trivial
    | raw a =>
      obtain ⟨hrThen, haltr⟩ := haltok
      obtain ⟨pieces2, hInv2, hrender2, hshadow2, hkeys2, hpairs2, hhead2⟩ :=
        ih ⟨haltr, fun pc hm => hok pc (List.mem_cons_of_mem _ hm)⟩
      have hrThen2 : rawThenOK pieces2 := hhead2 hrThen
      have hacl : Clean a := hok (Piece.raw a) (by simp)
      obtain ⟨subs, hsplit, hrsubs, hssubs⟩ :=
        split_raw s' ph' (origShape_ne_nil hor) a.length a (le_refl _)
      refine ⟨subs ++ pieces2, ?_, ?_, ?_, ?_, ?_, ?_⟩
      · refine ⟨splitSeq_altOK hsplit hInv2.1 hrThen2, ?_⟩
        intro pc hm
        rcases List.mem_append.mp hm with hm | hm
        · exact splitSeq_pieceOK hsplit hph hor hcl (hssubs ▸ hacl) pc hm
        · exact hInv2.2 pc hm
      · rw [render_append, render_raw,
          replaceAll_append s' ph' (origShape_ne_nil hor) a.length a
            (render rest) (le_refl _)
            (safeSplit_orig_raw hor hcl
              (render_ystruct (fun pc hm => hok pc (List.mem_cons_of_mem _ hm))
                hrThen)),
          hrsubs, hrender2]
      · rw [shadow_append, shadow_raw, hssubs, hshadow2]
      · intro q' hq'
        rw [phKeys_append, List.mem_append] at hq'
        rcases hq' with hq' | hq'
        · exact Or.inr (splitSeq_keys hsplit q' hq')
        · rcases hkeys2 q' hq' with h | h
          · exact Or.inl (by rw [phKeys_raw]; exact h)
          · exact Or.inr h
      · intro p o' hm
        rcases List.mem_append.mp hm with hm | hm
        · exact Or.inr (splitSeq_pairs hsplit p o' hm)
        · rcases hpairs2 p o' hm with h | h
          · exact Or.inl (List.mem_cons_of_mem _ h)
          · exact Or.inr h
      · intro h
        exact h.elim

end Srt

namespace Srt

/-- A placeholder string is nonempty. -/
theorem phShape_ne_nil {p : List Char} (h : PhShape p) : p ≠ [] := by
  obtain ⟨f, k, rfl⟩ := h
  show '<' :: _ ≠ []
  simp

/-- Generic first-slot eliminator for `matchPat`. -/
theorem matchPat_cons_elim {pe : Option Char} {ps : Pat} {s m r : List Char}
    (h : matchPat (pe :: ps) s = some (m, r)) :
    ∃ c cs m', s = c :: cs ∧ m = c :: m' ∧
      matchPat ps cs = some (m', r) := by
  cases pe with
  | none =>
    obtain ⟨c, cs, m', h1, _, h3, h4⟩ := matchPat_none_elim h
    exact ⟨c, cs, m', h1, h3, h4⟩
  | some l =>
    obtain ⟨cs, m', h1, h2, h3⟩ := matchPat_lit_elim h
    exact ⟨l, cs, m', h1, h2, h3⟩

/-- A pattern ending in a digit slot matches a string ending in a digit. -/
theorem matchPat_last_none {pat : Pat} :
    ∀ {s m r : List Char}, matchPat (pat ++ [none]) s = some (m, r) →
      ∃ m0 d, m = m0 ++ [d] ∧ d.isDigit = true := by
  induction pat with
  | nil =>
    intro s m r h
    rw [List.nil_append] at h
    obtain ⟨c, cs, m', _, hd, hm, hrec⟩ := matchPat_none_elim h
    have hm' : m' = [] := by
      simp [matchPat] at hrec
      exact hrec.1
    exact ⟨[], c, by rw [hm, hm']; rfl, hd⟩
  | cons pe ps ih =>
    intro s m r h
    rw [List.cons_append] at h
    obtain ⟨c, cs, m', _, hm, hrec⟩ := matchPat_cons_elim h
    obtain ⟨m0, d, hm0, hd⟩ := ih hrec
    exact ⟨c :: m0, d, by rw [hm, hm0]; rfl, hd⟩

/-- A timestamp ends with a digit. -/
theorem tcShape_lastDigit {s : List Char} (h : TcShape s) :
    ∃ s0 d, s = s0 ++ [d] ∧ d.isDigit = true := by
  have hm := matchesExact_elim h
  rw [show tcShortPat = (dd ++ [some ':'] ++ dd ++ [some ':'] ++ dd ++
    [some ','] ++ [none, none]) ++ [none] from rfl] at hm
  exact matchPat_last_none hm

/-- An original fragment opens with `'<'` or a digit. -/
theorem origShape_firstOK {o : List Char} (h : OrigShape o) : FirstOK o := by
  rcases h with htc | htag
  · obtain ⟨d0, d1, r, hs, hd0, _⟩ := tcShape_head htc
    exact ⟨d0, d1 :: ':' :: r, hs, Or.inr hd0⟩
  · obtain ⟨u, _, _, hs⟩ := htag
    exact ⟨'<', u ++ ['>'], hs, Or.inl rfl⟩

/-- An original fragment closes with `'>'` or a digit. -/
theorem origShape_lastOK {o : List Char} (h : OrigShape o) : LastOK o := by
  rcases h with htc | htag
  · obtain ⟨s0, d, hs, hd⟩ := tcShape_lastDigit htc
    exact ⟨s0, d, hs, Or.inr hd⟩
  · obtain ⟨u, _, _, hs⟩ := htag
    exact ⟨'<' :: u, '>', by rw [hs]; rfl, Or.inl rfl⟩

/-- `FirstOK` survives appending on the right. -/
theorem firstOK_append {x : List Char} (y : List Char) (h : FirstOK x) :
    FirstOK (x ++ y) := by
  obtain ⟨c, t, rfl, hc⟩ := h
  exact ⟨c, t ++ y, rfl, hc⟩

/-- How the head of a piece list evolves across one restore substitution of
the placeholder `p`: an empty list stays empty, a `p`-piece becomes a raw
piece with an original-shaped head, any other head keeps its kind. -/
def HeadMatch (p : List Char) : List Piece → List Piece → Prop
  | [], out => out = []
  | Piece.ph q o2 :: _, out =>
    if q = p then ∃ c r2, out = Piece.raw c :: r2 ∧ FirstOK c
    else ∃ r2, out = Piece.ph q o2 :: r2
  | Piece.raw _ :: _, out => ∃ c r2, out = Piece.raw c :: r2

end Srt

namespace Srt

/-- One restore substitution, lifted to piece lists: replacing the
placeholder `p` by its original `o` turns exactly the `p`-pieces into raw
pieces (merged with the following raw piece, if any), never touches other
placeholders or raw pieces, and preserves the shadow text. -/
theorem step_restore {p o : List Char} (hphp : PhShape p) (hor : OrigShape o)
    (hocl : Clean o) :
    ∀ pieces : List Piece, Inv pieces →
      (∀ o', Piece.ph p o' ∈ pieces → o' = o) →
      ∃ pieces' : List Piece,
        Inv pieces' ∧
        render pieces' = replaceAll p o (render pieces) ∧
        shadow pieces' = shadow pieces ∧
        (∀ q ∈ phKeys pieces', q ∈ phKeys pieces ∧ q ≠ p) ∧
        (∀ p2 o2, Piece.ph p2 o2 ∈ pieces' → Piece.ph p2 o2 ∈ pieces) ∧
        HeadMatch p pieces pieces' := by
  intro pieces
  induction pieces with
  | nil =>
    intro _ _
    refine ⟨[], ⟨trivial, by simp⟩, ?_, rfl, by simp [phKeys], by simp, rfl⟩
    rw [render_nil, replaceAll_nil_s]
  | cons pc rest ih =>
    intro hInv hpair
    obtain ⟨haltok, hok⟩ := hInv
    cases pc with
    | raw a =>
      obtain ⟨hrThen, haltr⟩ := haltok
      obtain ⟨out2, hInv2, hrender2, hshadow2, hkeys2, hpairs2, hhm2⟩ :=
        ih ⟨haltr, fun pc hm => hok pc (List.mem_cons_of_mem _ hm)⟩
          (fun o' hm => hpair o' (List.mem_cons_of_mem _ hm))
      have hacl : Clean a := hok (Piece.raw a) (by simp)
      have hrEq : replaceAll p o (render (Piece.raw a :: rest))
          = a ++ replaceAll p o (render rest) := by
        rw [render_raw]
        exact replaceAll_append_noStart o (phShape_ne_nil hphp)
          (noStart_ph_raw hphp hacl
            (render_yhead (fun pc hm => hok pc (List.mem_cons_of_mem _ hm))
              hrThen))
      cases rest with
      | nil =>
        have hout2 : out2 = [] := hhm2
        subst hout2
        refine ⟨[Piece.raw a], ⟨⟨trivial, trivial⟩, ?_⟩, ?_, rfl, ?_, by simp,
          ⟨a, [], rfl⟩⟩
        · intro pc hm
          rw [List.mem_singleton] at hm
          subst hm
          exact hacl
        · rw [hrEq, render_raw, render_nil, replaceAll_nil_s]
        · intro q hq
          rw [phKeys_raw] at hq
          exact absurd hq (List.not_mem_nil q)
      | cons pc2 r =>
        cases pc2 with
        | raw a2 => exact hrThen.elim
        | ph q o2 =>
          simp only [HeadMatch] at hhm2
          by_cases hqp : q = p
          · rw [if_pos hqp] at hhm2
            obtain ⟨c, r2, hout2, hfc⟩ := hhm2
            subst hout2
            have hccl : Clean c := hInv2.2 (Piece.raw c) (by simp)
            refine ⟨Piece.raw (a ++ c) :: r2, ⟨hInv2.1, ?_⟩, ?_, ?_, ?_, ?_,
              ⟨a ++ c, r2, rfl⟩⟩
            · intro pc hm
              rcases List.mem_cons.mp hm with hm | hm
              · subst hm
                exact clean_append_right hacl hccl hfc
              · exact hInv2.2 pc (List.mem_cons_of_mem _ hm)
            · rw [hrEq, ← hrender2, render_raw, render_raw, List.append_assoc]
            · rw [shadow_raw, shadow_raw, ← hshadow2, shadow_raw,
                List.append_assoc]
            · intro q' hq'
              rw [phKeys_raw] at hq'
              obtain ⟨h1, h2⟩ := hkeys2 q' (by rw [phKeys_raw]; exact hq')
              exact ⟨by rw [phKeys_raw]; exact h1, h2⟩
            · intro p2 o3 hm
              rcases List.mem_cons.mp hm with hm | hm
              · exact absurd hm (by simp)
              · exact List.mem_cons_of_mem _
                  (hpairs2 p2 o3 (List.mem_cons_of_mem _ hm))
          · rw [if_neg hqp] at hhm2
            obtain ⟨r2, hout2⟩ := hhm2
            refine ⟨Piece.raw a :: out2, ⟨⟨?_, hInv2.1⟩, ?_⟩, ?_, ?_, ?_, ?_,
              ⟨a, out2, rfl⟩⟩
            · rw [hout2]
              trivial
            · intro pc hm
              rcases List.mem_cons.mp hm with hm | hm
              · subst hm
                exact hacl
              · exact hInv2.2 pc hm
            · rw [hrEq, render_raw, hrender2]
            · rw [shadow_raw, shadow_raw, hshadow2]
            · intro q' hq'
              rw [phKeys_raw] at hq'
              obtain ⟨h1, h2⟩ := hkeys2 q' hq'
              exact ⟨by rw [phKeys_raw]; exact h1, h2⟩
            · intro p2 o3 hm
              rcases List.mem_cons.mp hm with hm | hm
              · exact absurd hm (by simp)
              · exact List.mem_cons_of_mem _ (hpairs2 p2 o3 hm)
    | ph q o2 =>
      have haltr : altOK rest := haltok
      obtain ⟨out2, hInv2, hrender2, hshadow2, hkeys2, hpairs2, hhm2⟩ :=
        ih ⟨haltr, fun pc hm => hok pc (List.mem_cons_of_mem _ hm)⟩
          (fun o' hm => hpair o' (List.mem_cons_of_mem _ hm))
      obtain ⟨hqsh, ho2sh, ho2cl⟩ := hok (Piece.ph q o2) (by simp)
      by_cases hqp : q = p
      · have ho2o : o2 = o := hpair o2 (by rw [← hqp]; exact List.mem_cons_self _ _)
        have hrEq : replaceAll p o (render (Piece.ph q o2 :: rest))
            = o ++ render out2 := by
          rw [render_phc, hqp,
            replaceAll_pos p o (render rest) (phShape_ne_nil hphp), hrender2]
        cases out2 with
        | nil =>
          refine ⟨[Piece.raw o], ⟨⟨trivial, trivial⟩, ?_⟩, ?_, ?_, ?_, by simp,
            ?_⟩
          · intro pc hm
            rw [List.mem_singleton] at hm
            subst hm
            exact hocl
          · rw [hrEq, render_raw, render_nil]
          · rw [shadow_raw, shadow_nil, List.append_nil, shadow_phc, ho2o,
              ← hshadow2, shadow_nil, List.append_nil]
          · intro q' hq'
            rw [phKeys_raw] at hq'
            exact absurd hq' (List.not_mem_nil q')
          · simp only [HeadMatch]
            rw [if_pos hqp]
            exact ⟨o, [], rfl, origShape_firstOK hor⟩
        | cons pc2 r2 =>
          cases pc2 with
          | raw c =>
            have hccl : Clean c := hInv2.2 (Piece.raw c) (by simp)
            refine ⟨Piece.raw (o ++ c) :: r2, ⟨hInv2.1, ?_⟩, ?_, ?_, ?_, ?_, ?_⟩
            · intro pc hm
              rcases List.mem_cons.mp hm with hm | hm
              · subst hm
                exact clean_append_left hocl hccl (origShape_lastOK hor)
              · exact hInv2.2 pc (List.mem_cons_of_mem _ hm)
            · rw [hrEq, render_raw, render_raw, List.append_assoc]
            · rw [shadow_raw, shadow_phc, ho2o, ← hshadow2, shadow_raw,
                List.append_assoc]
            · intro q' hq'
              rw [phKeys_raw] at hq'
              obtain ⟨h1, h2⟩ := hkeys2 q' (by rw [phKeys_raw]; exact hq')
              exact ⟨by rw [phKeys_phc]; exact List.mem_cons_of_mem _ h1, h2⟩
            · intro p2 o3 hm
              rcases List.mem_cons.mp hm with hm | hm
              · exact absurd hm (by simp)
              · exact List.mem_cons_of_mem _
                  (hpairs2 p2 o3 (List.mem_cons_of_mem _ hm))
            · simp only [HeadMatch]
              rw [if_pos hqp]
              exact ⟨o ++ c, r2, rfl, firstOK_append c (origShape_firstOK hor)⟩
          | ph q2 o3 =>
            refine ⟨Piece.raw o :: Piece.ph q2 o3 :: r2, ⟨⟨trivial, hInv2.1⟩, ?_⟩,
              ?_, ?_, ?_, ?_, ?_⟩
            · intro pc hm
              rcases List.mem_cons.mp hm with hm | hm
              · subst hm
                exact hocl
              · exact hInv2.2 pc hm
            · rw [hrEq, render_raw]
            · rw [shadow_raw, hshadow2, shadow_phc, ho2o]
            · intro q' hq'
              rw [phKeys_raw] at hq'
              obtain ⟨h1, h2⟩ := hkeys2 q' hq'
              exact ⟨by rw [phKeys_phc]; exact List.mem_cons_of_mem _ h1, h2⟩
            · intro p2 o4 hm
              rcases List.mem_cons.mp hm with hm | hm
              · exact absurd hm (by simp)
              · exact List.mem_cons_of_mem _ (hpairs2 p2 o4 hm)
            · simp only [HeadMatch]
              rw [if_pos hqp]
              exact ⟨o, Piece.ph q2 o3 :: r2, rfl, origShape_firstOK hor⟩
      · obtain ⟨g, m, hq⟩ := hqsh
        have hpne : p ≠ phStr g m := fun he => hqp (by rw [hq, ← he])
        refine ⟨Piece.ph q o2 :: out2, ⟨hInv2.1, ?_⟩, ?_, ?_, ?_, ?_, ?_⟩
        · intro pc hm
          rcases List.mem_cons.mp hm with hm | hm
          · subst hm
            exact ⟨⟨g, m, hq⟩, ho2sh, ho2cl⟩
          · exact hInv2.2 pc hm
        · rw [render_phc, render_phc, hq,
            replaceAll_append_noStart o (phShape_ne_nil hphp)
              (noStart_ph_ph (render rest) hphp hpne), hrender2]
        · rw [shadow_phc, shadow_phc, hshadow2]
        · intro q' hq'
          rw [phKeys_phc, List.mem_cons] at hq'
          rcases hq' with hq' | hq'
          · exact ⟨by rw [phKeys_phc, hq']; simp, by rw [hq']; exact hqp⟩
          · obtain ⟨h1, h2⟩ := hkeys2 q' hq'
            exact ⟨by rw [phKeys_phc]; exact List.mem_cons_of_mem _ h1, h2⟩
        · intro p2 o4 hm
          rcases List.mem_cons.mp hm with hm | hm
          · rw [hm]
            exact List.mem_cons_self _ _
          · exact List.mem_cons_of_mem _ (hpairs2 p2 o4 hm)
        · simp only [HeadMatch]
          rw [if_neg hqp]
          exact ⟨out2, rfl⟩

end Srt

namespace Srt

/-- A successful match re-matches its own output exactly. -/
theorem matchPat_self (pat : Pat) :
    ∀ s m r, matchPat pat s = some (m, r) → matchPat pat m = some (m, []) := by
  induction pat with
  | nil =>
    intro s m r h
    simp [matchPat] at h
    rw [h.1]
    rfl
  | cons p ps ih =>
    intro s m r h
    cases s with
    | nil => simp [matchPat] at h
    | cons c cs =>
      simp only [matchPat] at h
      split at h
      · rename_i hok
        cases hrec : matchPat ps cs with
        | none => rw [hrec] at h; simp at h
        | some pr =>
          rw [hrec] at h
          obtain ⟨m', r'⟩ := pr
          simp only [Option.some.injEq, Prod.mk.injEq] at h
          obtain ⟨hm, _⟩ := h
          rw [← hm]
          simp only [matchPat]
          rw [if_pos hok, ih cs m' r' hrec]
      · simp at h

/-- Every hit of the pattern scanner is an exact match occurring in the
scanned string. -/
theorem scanPat_mem (pat : Pat) :
    ∀ fuel s m, m ∈ scanPat pat fuel s →
      matchesExact pat m = true ∧ ∃ u v, s = u ++ m ++ v := by
  intro fuel
  induction fuel with
  | zero => intro s m hm; simp [scanPat] at hm
  | succ g ih =>
    intro s m hm
    cases s with
    | nil => simp [scanPat] at hm
    | cons c cs =>
      simp only [scanPat] at hm
      cases hmt : matchPat pat (c :: cs) with
      | some pr =>
        obtain ⟨m0, rest⟩ := pr
        rw [hmt] at hm
        rcases List.mem_cons.mp hm with hm | hm
        · subst hm
          constructor
          · unfold matchesExact
            rw [matchPat_self pat (c :: cs) m rest hmt]
            rfl
          · exact ⟨[], rest, by simpa using matchPat_sound pat (c :: cs) m rest hmt⟩
        · obtain ⟨hex, u, v, huv⟩ := ih rest m hm
          refine ⟨hex, m0 ++ u, v, ?_⟩
          rw [matchPat_sound pat (c :: cs) m0 rest hmt, huv]
          simp [List.append_assoc]
      | none =>
        rw [hmt] at hm
        obtain ⟨hex, u, v, huv⟩ := ih cs m hm
        exact ⟨hex, c :: u, v, by rw [huv]; rfl⟩

/-- Timecode hits are exact timestamp matches occurring in the text. -/
theorem findTimecodes_mem {t m : List Char} (hm : m ∈ findTimecodes t) :
    TcShape m ∧ ∃ u v, t = u ++ m ++ v :=
  scanPat_mem tcShortPat t.length t m hm

/-- The head dismissed by `dropWhile` fails the predicate. -/
theorem dropWhile_head_false {p : Char → Bool} :
    ∀ {l : List Char} {d : Char} {tail : List Char},
      l.dropWhile p = d :: tail → p d = false := by
  intro l
  induction l with
  | nil => intro d tail h; simp [List.dropWhile] at h
  | cons c cs ih =>
    intro d tail h
    rw [List.dropWhile_cons] at h
    split at h
    · exact ih h
    · rename_i hpc
      rw [Bool.not_eq_true] at hpc
      obtain ⟨h1, _⟩ := List.cons.inj h
      rw [← h1]
      exact hpc

/-- Every tag hit is a nonempty `'>'`-free capture whose full tag occurs in
the text. -/
theorem scanTags_mem :
    ∀ fuel s u, u ∈ scanTags fuel s →
      u ≠ [] ∧ '>' ∉ u ∧ ∃ a b, s = a ++ ('<' :: (u ++ ['>'])) ++ b := by
  intro fuel
  induction fuel with
  | zero => intro s u hu; simp [scanTags] at hu
  | succ g ih =>
    intro s u hu
    cases s with
    | nil => simp [scanTags] at hu
    | cons c cs =>
      simp only [scanTags] at hu
      by_cases hc : c = '<'
      · rw [if_pos hc] at hu
        cases hd : cs.dropWhile (fun x => x != '>') with
        | nil =>
          rw [hd] at hu
          obtain ⟨h1, h2, a, b, hab⟩ := ih cs u hu
          exact ⟨h1, h2, c :: a, b, by rw [hab]; rfl⟩
        | cons d tail =>
          rw [hd] at hu
          have hu2 : u ∈ (if (cs.takeWhile (fun x => x != '>')).isEmpty = true
              then scanTags g cs
              else cs.takeWhile (fun x => x != '>') :: scanTags g tail) := hu
          by_cases hemp : (cs.takeWhile (fun x => x != '>')).isEmpty = true
          · rw [if_pos hemp] at hu2
            obtain ⟨h1, h2, a, b, hab⟩ := ih cs u hu2
            exact ⟨h1, h2, c :: a, b, by rw [hab]; rfl⟩
          · rw [if_neg hemp] at hu2
            have hdgt : d = '>' := by
              have := dropWhile_head_false hd
              simpa using this
            have hcs : cs = cs.takeWhile (fun x => x != '>') ++ '>' :: tail := by
              conv_lhs => rw [← List.takeWhile_append_dropWhile
                (p := fun x => x != '>') (l := cs)]
              rw [hd, hdgt]
            rcases List.mem_cons.mp hu2 with hu3 | hu3
            · subst hu3
              refine ⟨by simpa using hemp, ?_, [], tail, ?_⟩
              · intro hgt
                have := List.mem_takeWhile_imp hgt
                simp at this
              · rw [hc, List.nil_append]
                conv_lhs => rw [hcs]
                simp [List.append_assoc]
            · obtain ⟨h1, h2, a, b, hab⟩ := ih tail u hu3
              refine ⟨h1, h2, '<' :: (cs.takeWhile (fun x => x != '>')) ++ '>' :: a, b, ?_⟩
              rw [hc]
              conv_lhs => rw [hcs, hab]
              simp [List.append_assoc]
      · rw [if_neg hc] at hu
        obtain ⟨h1, h2, a, b, hab⟩ := ih cs u hu
        exact ⟨h1, h2, c :: a, b, by rw [hab]; rfl⟩

/-- Tag hits in terms of `findTags`. -/
theorem findTags_mem {t u : List Char} (hm : u ∈ findTags t) :
    u ≠ [] ∧ '>' ∉ u ∧ ∃ a b, t = a ++ ('<' :: (u ++ ['>'])) ++ b :=
  scanTags_mem t.length t u hm

/-- A middle factor of a clean string is clean. -/
theorem clean_of_middle {t x : List Char} (ht : Clean t)
    (h : ∃ a b, t = a ++ x ++ b) : Clean x := by
  obtain ⟨a, b, hab⟩ := h
  have h1 : Clean a ∧ Clean (x ++ b) :=
    clean_of_infix ht (by rw [hab, List.append_assoc])
  have h2 : Clean x ∧ Clean b := clean_of_infix h1.2 rfl
  exact h2.1

end Srt

namespace Srt

/-- A placeholder piece contributes its key. -/
theorem mem_phKeys {ps : List Piece} :
    ∀ {p o : List Char}, Piece.ph p o ∈ ps → p ∈ phKeys ps := by
  induction ps with
  | nil => intro p o h; simp at h
  | cons pc rest ih =>
    intro p o h
    rcases List.mem_cons.mp h with h1 | h2
    · rw [← h1, phKeys_phc]
      simp
    · cases pc with
      | raw s => rw [phKeys_raw]; exact ih h2
      | ph q o2 => rw [phKeys_phc]; exact List.mem_cons_of_mem _ (ih h2)

/-- A whole `enumerate` protection pass, lifted to piece lists. -/
theorem protectLoop_induct (mk : Nat → List Char → List Char)
    (hmk : ∀ i oc, PhShape (mk i oc)) :
    ∀ (occs : List (List Char)) (i : Nat) (pieces : List Piece),
      Inv pieces → (∀ oc ∈ occs, OrigShape oc ∧ Clean oc) →
      ∃ pieces' : List Piece,
        Inv pieces' ∧
        render pieces' = (protectLoop mk occs i (render pieces)).1 ∧
        shadow pieces' = shadow pieces ∧
        (∀ p o2, Piece.ph p o2 ∈ pieces' → Piece.ph p o2 ∈ pieces ∨
          ∃ j oc, (j, oc) ∈ occs.enumFrom i ∧ p = mk j oc ∧ o2 = oc) := by
  intro occs
  induction occs with
  | nil =>
    intro i pieces hInv _
    exact ⟨pieces, hInv, by simp [protectLoop], rfl,
      fun p o2 hm => Or.inl hm⟩
  | cons oc rest ih =>
    intro i pieces hInv hocc
    obtain ⟨hshape, hcl⟩ := hocc oc (by simp)
    obtain ⟨pieces1, hInv1, hrender1, hshadow1, _, hpairs1, _⟩ :=
      step_protect hshape hcl (hmk i oc) pieces hInv
    obtain ⟨pieces2, hInv2, hrender2, hshadow2, hpairs2⟩ :=
      ih (i + 1) pieces1 hInv1
        (fun oc2 hm => hocc oc2 (List.mem_cons_of_mem _ hm))
    refine ⟨pieces2, hInv2, ?_, by rw [hshadow2, hshadow1], ?_⟩
    · rw [hrender2, hrender1]
      simp only [protectLoop]
    · intro p o2 hm
      rcases hpairs2 p o2 hm with hm1 | ⟨j, oc2, hj, hp, ho⟩
      · rcases hpairs1 p o2 hm1 with hm2 | ⟨hp, ho⟩
        · exact Or.inl hm2
        · exact Or.inr ⟨i, oc, by simp [List.enumFrom_cons], hp, ho⟩
      · exact Or.inr ⟨j, oc2,
          by rw [List.enumFrom_cons]; exact List.mem_cons_of_mem _ hj, hp, ho⟩

/-- The whole restore fold, lifted to piece lists: after substituting every
recorded pair (distinct keys, well-formed pairs) no placeholder piece
remains. -/
theorem restore_fold_induct :
    ∀ (prs : List (List Char × List Char)) (pieces : List Piece),
      Inv pieces →
      (∀ pr ∈ prs, PhShape pr.1 ∧ OrigShape pr.2 ∧ Clean pr.2) →
      (∀ p o2, Piece.ph p o2 ∈ pieces → (p, o2) ∈ prs) →
      (prs.map Prod.fst).Nodup →
      ∃ pieces' : List Piece,
        Inv pieces' ∧
        render pieces' = restore_content (render pieces) prs ∧
        shadow pieces' = shadow pieces ∧
        (∀ p o2, Piece.ph p o2 ∉ pieces') := by
  intro prs
  induction prs with
  | nil =>
    intro pieces hInv _ hmem _
    exact ⟨pieces, hInv, rfl, rfl, fun p o2 hm => by simpa using hmem p o2 hm⟩
  | cons pr rest ih =>
    intro pieces hInv hprs hmem hnd
    obtain ⟨p, o⟩ := pr
    obtain ⟨hphp, hor, hocl⟩ := hprs (p, o) (by simp)
    have hpair : ∀ o', Piece.ph p o' ∈ pieces → o' = o := by
      intro o' hm
      rcases List.mem_cons.mp (hmem p o' hm) with h | h
      · exact (Prod.mk.inj h).2
      · exfalso
        rw [List.map_cons, List.nodup_cons] at hnd
        exact hnd.1 (List.mem_map.mpr ⟨(p, o'), h, rfl⟩)
    obtain ⟨pieces1, hInv1, hrender1, hshadow1, hkeys1, hpairs1, _⟩ :=
      step_restore hphp hor hocl pieces hInv hpair
    have hmemrest : ∀ p2 o2, Piece.ph p2 o2 ∈ pieces1 → (p2, o2) ∈ rest := by
      intro p2 o2 hm
      rcases List.mem_cons.mp (hmem p2 o2 (hpairs1 p2 o2 hm)) with h | h
      · exact absurd (Prod.mk.inj h).1 (hkeys1 p2 (mem_phKeys hm)).2
      · exact h
    obtain ⟨pieces2, hInv2, hrender2, hshadow2, hnoph⟩ :=
      ih pieces1 hInv1 (fun pr2 hm => hprs pr2 (List.mem_cons_of_mem _ hm))
        hmemrest
        (by rw [List.map_cons, List.nodup_cons] at hnd; exact hnd.2)
    refine ⟨pieces2, hInv2, ?_, by rw [hshadow2, hshadow1], hnoph⟩
    rw [hrender2, hrender1]
    rfl

end Srt

namespace Srt

/-- Enumerated indices start at the enumeration base, and values are list
members. -/
theorem enumFrom_facts :
    ∀ (os : List (List Char)) (i : Nat) (pr : Nat × List Char),
      pr ∈ os.enumFrom i → i ≤ pr.1 ∧ pr.2 ∈ os := by
  intro os
  induction os with
  | nil => intro i pr h; simp at h
  | cons oc rest ih =>
    intro i pr h
    rw [List.enumFrom_cons, List.mem_cons] at h
    rcases h with h | h
    · rw [h]
      exact ⟨le_refl i, by simp⟩
    · obtain ⟨h1, h2⟩ := ih (i + 1) pr h
      exact ⟨by omega, List.mem_cons_of_mem _ h2⟩

/-- Keys generated along an `enumerate` pass are pairwise distinct whenever
the key maker is injective in the index. -/
theorem nodup_keys_enum (mk : Nat → List Char → List Char)
    (hinj : ∀ j oc j2 oc2, mk j oc = mk j2 oc2 → j = j2) :
    ∀ (os : List (List Char)) (i : Nat),
      (((os.enumFrom i).map (fun p => (mk p.1 p.2, p.2))).map Prod.fst).Nodup := by
  intro os
  induction os with
  | nil => intro i; simp
  | cons oc rest ih =>
    intro i
    rw [List.enumFrom_cons, List.map_cons, List.map_cons, List.nodup_cons]
    refine ⟨?_, ih (i + 1)⟩
    intro hmem
    rw [List.map_map, List.mem_map] at hmem
    obtain ⟨pr, hpr, heq⟩ := hmem
    have hj := hinj pr.1 pr.2 i oc heq
    have hge := (enumFrom_facts rest (i + 1) pr hpr).1
    omega

end Srt

namespace Srt

/-- Placeholder makers of both passes produce placeholders. -/
theorem timePh_shape (i : Nat) (oc : List Char) : PhShape (timePh i oc) :=
  ⟨Fam.time, i, rfl⟩

theorem tagPh_shape (i : Nat) (oc : List Char) : PhShape (tagPh i oc) := by
  unfold tagPh
  split
  · exact ⟨Fam.etag, i, rfl⟩
  · exact ⟨Fam.btag, i, rfl⟩

/-- The timecode maker is injective in the index. -/
theorem timePh_inj (j : Nat) (oc : List Char) (j2 : Nat) (oc2 : List Char)
    (h : timePh j oc = timePh j2 oc2) : j = j2 :=
  (phStr_inj h).2

/-- The tag maker is injective in the index. -/
theorem tagPh_inj (j : Nat) (oc : List Char) (j2 : Nat) (oc2 : List Char)
    (h : tagPh j oc = tagPh j2 oc2) : j = j2 := by
  unfold tagPh at h
  split at h <;> split at h <;> exact (phStr_inj h).2

/-- The family of a generated time placeholder is `time`; of a tag
placeholder `btag` or `etag`. -/
theorem timePh_fam {j : Nat} {oc p : List Char} (h : p = timePh j oc) :
    p = phStr Fam.time j := h

theorem tagPh_fam {j : Nat} {oc p : List Char} (h : p = tagPh j oc) :
    p = phStr Fam.btag j ∨ p = phStr Fam.etag j := by
  unfold tagPh at h
  split at h
  · exact Or.inr h
  · exact Or.inl h

/-- C2 — protect/restore round trip.  For every text `t` that does not
already contain the reserved placeholder syntax — no substring `<TIME_`,
`<BTAG_` or `<ETAG_` (`Clean t`) — restoring immediately after protecting
returns `t` unchanged: `restore_content` applied to the protected text and
the recorded replacement map of `protect_content t` yields `t`. -/
theorem protect_restore_roundtrip (t : List Char) (hclean : Clean t) :
    restore_content (protect_content t).1 (protect_content t).2 = t := by
  have hocc1 : ∀ oc ∈ findTimecodes t, OrigShape oc ∧ Clean oc := by
    intro oc hm
    obtain ⟨hshape, u, v, huv⟩ := findTimecodes_mem hm
    exact ⟨Or.inl hshape, clean_of_middle hclean ⟨u, v, huv⟩⟩
  have hocc2 : ∀ oc ∈ (findTags t).map fullTagStr, OrigShape oc ∧ Clean oc := by
    intro oc hm
    obtain ⟨u, hu, hoc⟩ := List.mem_map.mp hm
    obtain ⟨hne, hgt, a, b, hab⟩ := findTags_mem hu
    refine ⟨Or.inr ⟨u, hne, hgt, hoc.symm⟩, ?_⟩
    exact clean_of_middle hclean ⟨a, b, by rw [hab, ← hoc]; rfl⟩
  have hInv0 : Inv [Piece.raw t] := by
    refine ⟨⟨trivial, trivial⟩, ?_⟩
    intro pc hm
    rw [List.mem_singleton] at hm
    subst hm
    exact hclean
  have hrender0 : render [Piece.raw t] = t := by
    rw [render_raw, render_nil, List.append_nil]
  have hshadow0 : shadow [Piece.raw t] = t := by
    rw [shadow_raw, shadow_nil, List.append_nil]
  obtain ⟨pieces1, hInv1, hrender1, hshadow1, hpairs1⟩ :=
    protectLoop_induct timePh timePh_shape (findTimecodes t) 0
      [Piece.raw t] hInv0 hocc1
  rw [hrender0] at hrender1
  rw [hshadow0] at hshadow1
  obtain ⟨pieces2, hInv2, hrender2, hshadow2, hpairs2⟩ :=
    protectLoop_induct tagPh tagPh_shape ((findTags t).map fullTagStr) 0
      pieces1 hInv1 hocc2
  rw [hrender1] at hrender2
  rw [hshadow1] at hshadow2
  have hfst : (protect_content t).1 =
      (protectLoop tagPh ((findTags t).map fullTagStr) 0
        ((protectLoop timePh (findTimecodes t) 0 t).1)).1 := rfl
  have hsnd : (protect_content t).2 =
      ((findTimecodes t).enumFrom 0).map (fun p => (timePh p.1 p.2, p.2)) ++
      ((((findTags t).map fullTagStr).enumFrom 0).map
        (fun p => (tagPh p.1 p.2, p.2))) := by
    show ((protectLoop timePh (findTimecodes t) 0 t).2 ++
      (protectLoop tagPh ((findTags t).map fullTagStr) 0
        ((protectLoop timePh (findTimecodes t) 0 t).1)).2) = _
    rw [protectLoop_pairs, protectLoop_pairs]
  have hmem : ∀ p o, Piece.ph p o ∈ pieces2 → (p, o) ∈ (protect_content t).2 := by
    intro p o hm
    rw [hsnd, List.mem_append]
    rcases hpairs2 p o hm with hm1 | ⟨j, oc, hj, hp, ho⟩
    · rcases hpairs1 p o hm1 with hm2 | ⟨j, oc, hj, hp, ho⟩
      · rw [List.mem_singleton] at hm2
        exact absurd hm2 (by simp)
      · exact Or.inl (List.mem_map.mpr ⟨(j, oc), hj, by rw [hp, ho]⟩)
    · exact Or.inr (List.mem_map.mpr ⟨(j, oc), hj, by rw [hp, ho]⟩)
  have hprs : ∀ pr ∈ (protect_content t).2,
      PhShape pr.1 ∧ OrigShape pr.2 ∧ Clean pr.2 := by
    intro pr hm
    rw [hsnd, List.mem_append] at hm
    rcases hm with hm | hm
    · obtain ⟨⟨j, oc⟩, hj, hpr⟩ := List.mem_map.mp hm
      obtain ⟨hshape, hcl⟩ := hocc1 oc (enumFrom_facts _ 0 (j, oc) hj).2
      rw [← hpr]
      exact ⟨timePh_shape j oc, hshape, hcl⟩
    · obtain ⟨⟨j, oc⟩, hj, hpr⟩ := List.mem_map.mp hm
      obtain ⟨hshape, hcl⟩ := hocc2 oc (enumFrom_facts _ 0 (j, oc) hj).2
      rw [← hpr]
      exact ⟨tagPh_shape j oc, hshape, hcl⟩
  have hnd : ((protect_content t).2.map Prod.fst).Nodup := by
    rw [hsnd, List.map_append]
    refine List.Nodup.append (nodup_keys_enum timePh timePh_inj _ 0)
      (nodup_keys_enum tagPh tagPh_inj _ 0) ?_
    intro a ha1 ha2
    rw [List.map_map, List.mem_map] at ha1 ha2
    obtain ⟨pr1, _, he1⟩ := ha1
    obtain ⟨pr2, _, he2⟩ := ha2
    simp only [Function.comp_apply] at he1 he2
    have hf1 : a = phStr Fam.time pr1.1 := timePh_fam he1.symm
    rcases tagPh_fam he2.symm with hf2 | hf2
    · rw [hf1] at hf2
      exact absurd (phStr_inj hf2).1 (by decide)
    · rw [hf1] at hf2
      exact absurd (phStr_inj hf2).1 (by decide)
  obtain ⟨pieces3, _, hrender3, hshadow3, hnoph⟩ :=
    restore_fold_induct (protect_content t).2 pieces2 hInv2 hprs hmem hnd
  have hfinal : render pieces3 = t := by
    rw [render_eq_shadow (fun p o hm => hnoph p o hm), hshadow3, hshadow2]
  calc restore_content (protect_content t).1 (protect_content t).2
      = restore_content (render pieces2) (protect_content t).2 := by
        rw [hfst, ← hrender2]
    _ = render pieces3 := hrender3.symm
    _ = t := hfinal

/-- C2, witness — a concrete clean text with a timestamp and paired tags
round-trips through `protect_content` and `restore_content`. -/
theorem protect_restore_roundtrip_witness :
    Clean "1\n00:00:01,000 --> 00:00:02,000\nHello <i>world</i>\n".toList ∧
    restore_content
      (protect_content
        "1\n00:00:01,000 --> 00:00:02,000\nHello <i>world</i>\n".toList).1
      (protect_content
        "1\n00:00:01,000 --> 00:00:02,000\nHello <i>world</i>\n".toList).2 =
      "1\n00:00:01,000 --> 00:00:02,000\nHello <i>world</i>\n".toList :=
  ⟨⟨by decide, by decide, by decide⟩,
    protect_restore_roundtrip _ ⟨by decide, by decide, by decide⟩⟩

end Srt
